import Mathlib

/-
Verification of the fixed-capacity big-integer engine of the nikrypt
repository (src/src/math/bignum_fast.rs, src/src/math/signed_bignum_fast.rs,
src/src/math/utils.rs).

Modelling conventions:
* A Rust array digits: [u8; NUM_BYTES] becomes a List Nat of length N whose
  entries are < 256.  Reads digits[i] become List.getD, writes become
  List.set; every place where the source can panic (explicit panic calls and
  out-of-bounds array accesses) is modelled by an Except Err value whose
  error condition is derived from the source line by line.
* Loops with data-independent iteration counts become structural recursions
  or folds that mirror the loop body; while-loops whose iteration count is
  value-dependent take an explicit fuel argument that is chosen large enough
  at the call site (running out of fuel is flagged with the designated
  Err.outOfFuel marker, which stands for divergence, never for a panic of
  the source).
* The signed engine of the source duplicates the unsigned limb code
  verbatim (same field layout plus a sign flag); the model shares those
  bodies through the magnitude projection mag.
-/

set_option maxRecDepth 100000

namespace Nikrypt

/-- Fatal outcomes of the source: each constructor corresponds to a concrete
panic site (overflow and underflow panics, the signed divide-by-zero panic,
bit-index guards and out-of-bounds array accesses), plus the recoverable hex
parse failure and the divergence marker for fuelled loops. -/
inductive Err where
  | overflow
  | underflow
  | divideByZero
  | indexOutOfRange
  | parseFailure
  | outOfFuel
  deriving Repr, DecidableEq

/-- BignumFast<NUM_BYTES>: little-endian byte limbs plus the cached index of
the most significant nonzero limb (field pos in the source). -/
structure BignumFast where
  digits : List Nat
  pos : Nat
  deriving Repr, DecidableEq

/-- Value of a little-endian base-256 digit list. -/
def valL (l : List Nat) : Nat := l.foldr (fun d acc => d + 256 * acc) 0

/-- Value represented by a bignum (Invariant A reads only limbs up to pos;
for canonical values the limbs above pos are zero, so summing the whole
digit list is the same number). -/
def val (x : BignumFast) : Nat := valL x.digits

/-- Index of the most significant nonzero entry, 0 if there is none.  This
is the quantity the pos_last_non_zero scans of the source compute. -/
def lastNZ : List Nat → Nat
  | [] => 0
  | _d :: ds => if ds.any (fun e => e ≠ 0) then lastNZ ds + 1 else 0

/-- Structural well-formedness of a value of capacity N: the limb array has
physical length N, every limb fits a byte, and the cached index is in
range. -/
def Wf (N : Nat) (x : BignumFast) : Prop :=
  x.digits.length = N ∧ (∀ d ∈ x.digits, d < 256) ∧ x.pos < N

/-- Canonical values (Invariants B and C of the spec): well-formed, every
limb above pos is physically zero, and the limb at pos is nonzero unless
pos = 0. -/
def Canonical (N : Nat) (x : BignumFast) : Prop :=
  Wf N x ∧ (∀ i, i < N → x.pos < i → x.digits.getD i 0 = 0) ∧
    (x.pos ≠ 0 → x.digits.getD x.pos 0 ≠ 0)

instance (N : Nat) (x : BignumFast) : Decidable (Wf N x) := by
  unfold Wf; infer_instance

instance (N : Nat) (x : BignumFast) : Decidable (Canonical N x) := by
  unfold Canonical; infer_instance

/-- BignumFast::zero. -/
def zeroBN (N : Nat) : BignumFast := ⟨List.replicate N 0, 0⟩

/-- BignumFast::is_zero. -/
def isZeroBF (x : BignumFast) : Bool := x.pos == 0 && x.digits.getD 0 0 == 0

/-- BignumFast::is_even. -/
def isEvenBF (x : BignumFast) : Bool := x.digits.getD 0 0 % 2 == 0

/-- The digit-comparison loop shared by the PartialOrd implementation: both
slices digits[0..self.len()] are walked from the most significant end, so
the model takes the reversed slices and compares head first.  Zipping stops
at the shorter list, reported as equality, exactly like the source loop. -/
def cmpRev : List Nat → List Nat → Ordering
  | [], _ => .eq
  | _ :: _, [] => .eq
  | a :: as, b :: bs => if a = b then cmpRev as bs else compare a b

/-- Digit loop of the lt/le comparators (default answer dflt when all
compared digits agree). -/
def ltRev (dflt : Bool) : List Nat → List Nat → Bool
  | [], _ => dflt
  | _ :: _, [] => dflt
  | a :: as, b :: bs => if a = b then ltRev dflt as bs else decide (a < b)

/-- Digit loop of the gt/ge comparators. -/
def gtRev (dflt : Bool) : List Nat → List Nat → Bool
  | [], _ => dflt
  | _ :: _, [] => dflt
  | a :: as, b :: bs => if a = b then gtRev dflt as bs else decide (b < a)

/-- Reversed prefix digits[0..len] walked by the comparison loops; the
source slices BOTH operands with self.len(). -/
def revTake (k : Nat) (l : List Nat) : List Nat := (l.take k).reverse

/-- BignumFast::partial_cmp (total: the source always returns Some). -/
def partialCmpBF (a b : BignumFast) : Ordering :=
  if a.pos ≠ b.pos then compare a.pos b.pos
  else cmpRev (revTake (a.pos + 1) a.digits) (revTake (a.pos + 1) b.digits)

/-- BignumFast::ge. -/
def geBF (a b : BignumFast) : Bool :=
  if a.pos ≠ b.pos then decide (b.pos < a.pos)
  else gtRev true (revTake (a.pos + 1) a.digits) (revTake (a.pos + 1) b.digits)

/-- BignumFast::gt. -/
def gtBF (a b : BignumFast) : Bool :=
  if a.pos ≠ b.pos then decide (b.pos < a.pos)
  else gtRev false (revTake (a.pos + 1) a.digits) (revTake (a.pos + 1) b.digits)

/-- BignumFast::eq: pos must agree and the digit slices (both cut at
self.len()) must agree pairwise.  The reversed walk of the source visits the
same pairs, so a pairwise-equality check over the reversed slices is the
loop verbatim. -/
def eqBF (a b : BignumFast) : Bool :=
  a.pos == b.pos &&
    ((revTake (a.pos + 1) a.digits).zip (revTake (a.pos + 1) b.digits)).all
      (fun p => p.1 == p.2)

/-- From<u128> for BignumFast: writes the 16 little-endian bytes of the
value into digits[0..16] (panicking when the capacity is below 16) and scans
those 16 positions for the last nonzero one. -/
def fromU128 (N : Nat) (v : Nat) : Except Err BignumFast :=
  if N < 16 then .error .indexOutOfRange
  else
    let ds := (List.range 16).map (fun i => v / 256 ^ i % 256)
    .ok ⟨ds ++ List.replicate (N - 16) 0, lastNZ ds⟩

/-- Carry loop of add_ref (and of the identical signed add_ref_internal):
walk the limbs of the longer operand; at index i add the matching limb of
the shorter operand when i < short.len() (modelled by the truncated list bs
emptying out) plus the incoming carry, store the low byte, propagate the
high byte. -/
def addD : List Nat → List Nat → Nat → List Nat × Nat
  | [], _, c => ([], c)
  | a :: as, bs, c =>
      let t := a + bs.headD 0 + c
      let r := addD as bs.tail (t / 256)
      ((t % 256) :: r.1, r.2)

/-- Body of add_ref once (long, short) have been chosen.  The result limb
array is the carry-loop output over long.len() limbs followed by the
remaining limbs of the fresh zero result; a leftover carry is appended if
capacity allows, otherwise the source panics with its addition-overflow
message. -/
def addBody (N : Nat) (long short : BignumFast) : Except Err BignumFast :=
  if (addD (long.digits.take (long.pos + 1))
      (short.digits.take (short.pos + 1)) 0).2 ≠ 0 then
    if long.pos + 1 = N then .error .overflow
    else .ok ⟨((addD (long.digits.take (long.pos + 1))
          (short.digits.take (short.pos + 1)) 0).1
        ++ List.replicate (N - (long.pos + 1)) 0).set (long.pos + 1)
        (addD (long.digits.take (long.pos + 1))
          (short.digits.take (short.pos + 1)) 0).2,
      long.pos + 1⟩
  else .ok ⟨(addD (long.digits.take (long.pos + 1))
        (short.digits.take (short.pos + 1)) 0).1
      ++ List.replicate (N - (long.pos + 1)) 0, long.pos⟩

/-- BignumFast::add_ref: pick (long, short) by comparing pos, then run the
ripple-carry body. -/
def add_ref (N : Nat) (a b : BignumFast) : Except Err BignumFast :=
  addBody N (if a.pos > b.pos then a else b) (if a.pos > b.pos then b else a)

/-- One step of the borrow loop of sub_ref: overflowing_sub of the incoming
borrow, then overflowing_sub of the subtrahend limb, next borrow is the sum
of the two borrow flags. -/
def subStep (a b brw : Nat) : Nat × Nat :=
  let s1 := if a < brw then a + 256 - brw else a - brw
  let c1 : Nat := if a < brw then 1 else 0
  let s2 := if s1 < b then s1 + 256 - b else s1 - b
  let c2 : Nat := if s1 < b then 1 else 0
  (s2, c1 + c2)

/-- Borrow loop of sub_ref (and of the identical signed sub_ref_internal):
walks the limbs of self; the subtrahend limb is only subtracted while
i < short.len() (the truncated list bs emptying out), mirroring the source
guard.  Returns the written limbs together with the final borrow (which the
source discards). -/
def subD : List Nat → List Nat → Nat → List Nat × Nat
  | [], _, brw => ([], brw)
  | a :: as, bs, brw =>
      let s := subStep a (bs.headD 0) brw
      let r := subD as bs.tail s.2
      (s.1 :: r.1, r.2)

/-- Common body of the unsigned sub_ref (after its compare guard) and the
signed sub_ref_internal (after its equality shortcut): borrow loop over
self.len() limbs into a fresh zero value, pos from the last-nonzero scan. -/
def subCore (N : Nat) (a b : BignumFast) : BignumFast :=
  ⟨(subD (a.digits.take (a.pos + 1)) (b.digits.take (b.pos + 1)) 0).1
      ++ List.replicate (N - (a.pos + 1)) 0,
    lastNZ (subD (a.digits.take (a.pos + 1)) (b.digits.take (b.pos + 1)) 0).1⟩

/-- BignumFast::sub_ref: panics (Underflow) when self < rhs, returns
canonical zero when equal, otherwise runs the borrow loop. -/
def sub_ref (N : Nat) (a b : BignumFast) : Except Err BignumFast :=
  match partialCmpBF a b with
  | .lt => .error .underflow
  | .eq => .ok (zeroBN N)
  | .gt => .ok (subCore N a b)

/-- BignumFast::get_bit: compute byte_pos = pos/8, panic when
pos >= NUM_BYTES*8, else test bit pos%8 of digits[byte_pos]
((byte >> k) & 1 == 1, modelled as / 2^k % 2 == 1). -/
def getBit (N : Nat) (x : BignumFast) (p : Nat) : Except Err Bool :=
  if N * 8 ≤ p then .error .indexOutOfRange
  else .ok (x.digits.getD (p / 8) 0 / 2 ^ (p % 8) % 2 == 1)

/-- BignumFast::set_bit: panic when byte_pos >= NUM_BYTES, else OR the bit
mask 1 << (pos%8) into the limb and raise the cached index when the limb
index is above it. -/
def setBit (N : Nat) (x : BignumFast) (p : Nat) : Except Err BignumFast :=
  if N ≤ p / 8 then .error .indexOutOfRange
  else .ok ⟨x.digits.set (p / 8) (x.digits.getD (p / 8) 0 ||| 2 ^ (p % 8)),
    if x.pos < p / 8 then p / 8 else x.pos⟩

/-- BignumFast::unset_bit: panic when byte_pos >= NUM_BYTES, else AND the
limb with !(1u8 << k) = 255 - 2^k and rescan digits[0..len] downward for
the first nonzero index (0 when none), which is lastNZ of that window. -/
def unsetBit (N : Nat) (x : BignumFast) (p : Nat) : Except Err BignumFast :=
  if N ≤ p / 8 then .error .indexOutOfRange
  else
    .ok ⟨x.digits.set (p / 8) (x.digits.getD (p / 8) 0 &&& (255 - 2 ^ (p % 8))),
      lastNZ ((x.digits.set (p / 8)
        (x.digits.getD (p / 8) 0 &&& (255 - 2 ^ (p % 8)))).take (x.pos + 1))⟩

/-- Shl for BignumFast: bytes_shift, silently zeroed when
bytes_shift + self.len() > NUM_BYTES (the silent truncation the spec flags
in its section 9). -/
def shlBytes (N : Nat) (x : BignumFast) (rhs : Nat) : Nat :=
  if N < rhs / 8 + (x.pos + 1) then 0 else rhs / 8

/-- Whole-limb move of shl: the descending loop copies digits[i - bs] into
digits[i] for i in [bs, len+bs) (reads happen before the source slot is
overwritten, so all reads see original values), then the vacated low limbs
are zero-filled; limbs at len+bs and above are untouched. -/
def shlMoved (N : Nat) (x : BignumFast) (bs : Nat) : List Nat :=
  if 0 < bs then
    (List.range N).map (fun i =>
      if i < bs then 0
      else if i < x.pos + 1 + bs then x.digits.getD (i - bs) 0
      else x.digits.getD i 0)
  else x.digits

/-- Sub-limb carry loop of shl over the live window, ascending with a carry:
tmp_carry = d >> (8-s) is taken from the original limb, the limb becomes
(d << s) | carry.  Returns the rewritten window and the final carry. -/
def shlLoop (s : Nat) : List Nat → Nat → List Nat × Nat
  | [], carry => ([], carry)
  | d :: ds, carry =>
      ((d * 2 ^ s % 256 ||| carry) :: (shlLoop s ds (d / 2 ^ (8 - s))).1,
        (shlLoop s ds (d / 2 ^ (8 - s))).2)

/-- The shl carry window: limbs [bytes_shift, len+bytes_shift) of the moved
array, entered with carry 0. -/
def shlWindow (N : Nat) (x : BignumFast) (rhs : Nat) : List Nat × Nat :=
  shlLoop (rhs % 8)
    (((shlMoved N x (shlBytes N x rhs)).drop (shlBytes N x rhs)).take (x.pos + 1))
    0

/-- Shl<usize> for BignumFast: move limbs, run the carry loop over the
window, bump pos by bytes_shift, and append a nonzero final carry only when
self.len() < NUM_BYTES still holds (otherwise it is silently dropped). -/
def shl (N : Nat) (x : BignumFast) (rhs : Nat) : BignumFast :=
  if (shlWindow N x rhs).2 ≠ 0 ∧ x.pos + shlBytes N x rhs + 1 < N then
    ⟨((shlMoved N x (shlBytes N x rhs)).take (shlBytes N x rhs)
        ++ (shlWindow N x rhs).1
        ++ (shlMoved N x (shlBytes N x rhs)).drop (x.pos + 1 + shlBytes N x rhs)).set
      (x.pos + shlBytes N x rhs + 1) (shlWindow N x rhs).2,
     x.pos + shlBytes N x rhs + 1⟩
  else
    ⟨(shlMoved N x (shlBytes N x rhs)).take (shlBytes N x rhs)
        ++ (shlWindow N x rhs).1
        ++ (shlMoved N x (shlBytes N x rhs)).drop (x.pos + 1 + shlBytes N x rhs),
     x.pos + shlBytes N x rhs⟩

/-- Whole-limb move of shr: digits[i] = digits[i + bs] for i in [0, len);
limbs from len on are untouched.  The caller has already ruled out the
out-of-bounds read (pos + bs >= N) that makes the source panic. -/
def shrMoved (N : Nat) (x : BignumFast) (bs : Nat) : List Nat :=
  (List.range N).map (fun i =>
    if i < x.pos + 1 then x.digits.getD (i + bs) 0 else x.digits.getD i 0)

/-- Sub-limb carry loop of shr over the live window: the loop of the source
runs from the most significant limb down with a carry, so each written limb
is (d >> s) | ((next << (8-s)) as u8) with the original next limb, carry 0
at the top; this pointwise recursion is that loop. -/
def shrLoop (s : Nat) : List Nat → List Nat
  | [] => []
  | [d] => [d / 2 ^ s]
  | d :: e :: ds => (d / 2 ^ s ||| e * 2 ^ (8 - s) % 256) :: shrLoop s (e :: ds)

/-- Shr<usize> for BignumFast.  Returns canonical zero when bytes_shift
reaches self.len(); panics (index out of bounds) when the move loop would
read digits[pos + bytes_shift] with pos + bytes_shift >= NUM_BYTES; with a
zero sub-limb shift only the move happens; otherwise the carry loop runs
over the window and pos is decremented once more when the new top limb
ended up zero. -/
def shr (N : Nat) (x : BignumFast) (rhs : Nat) : Except Err BignumFast :=
  if x.pos + 1 ≤ rhs / 8 then .ok (zeroBN N)
  else if N ≤ x.pos + rhs / 8 then .error .indexOutOfRange
  else if rhs % 8 = 0 then .ok ⟨shrMoved N x (rhs / 8), x.pos - rhs / 8⟩
  else
    .ok ⟨shrLoop (rhs % 8) ((shrMoved N x (rhs / 8)).take (x.pos + 1))
        ++ (shrMoved N x (rhs / 8)).drop (x.pos + 1),
      if (shrLoop (rhs % 8) ((shrMoved N x (rhs / 8)).take (x.pos + 1))
            ++ (shrMoved N x (rhs / 8)).drop (x.pos + 1)).getD (x.pos - rhs / 8) 0 = 0
          ∧ 0 < x.pos - rhs / 8 then
        x.pos - rhs / 8 - 1
      else x.pos - rhs / 8⟩

/-- Bit loop of BignumFast::div_with_remainder with the count of remaining
bit positions as the recursion measure: the source iterates
i in (0..n_len).rev(), so fuel value i+1 processes dividend bit i.  Each
iteration shifts the remainder left one bit, injects dividend bit i into
position 0 via set_bit/unset_bit, and when the remainder has reached the
divisor subtracts it and sets quotient bit i. -/
def divLoop (N : Nat) (n rhs : BignumFast) :
    Nat → BignumFast → BignumFast → Except Err (BignumFast × BignumFast)
  | 0, q, r => .ok (q, r)
  | i + 1, q, r =>
    match getBit N n i with
    | .error e => .error e
    | .ok bit =>
      match (if bit then setBit N (shl N r 1) 0 else unsetBit N (shl N r 1) 0) with
      | .error e => .error e
      | .ok r2 =>
        if geBF r2 rhs then
          match sub_ref N r2 rhs with
          | .error e => .error e
          | .ok r3 =>
            match setBit N q i with
            | .error e => .error e
            | .ok q2 => divLoop N n rhs i q2 r3
        else divLoop N n rhs i q r2

/-- BignumFast::div_with_remainder: restoring binary long division over
n_len = self.len() * 8 bit positions, starting from zero quotient and zero
remainder.  The source performs no divisor-zero check. -/
def div_with_remainder (N : Nat) (a b : BignumFast) :
    Except Err (BignumFast × BignumFast) :=
  divLoop N a b ((a.pos + 1) * 8) (zeroBN N) (zeroBN N)

/-- Inner row loop of BignumFast::mul_ref, walking the write window
digits[b_i .. b_i + p) together with the multiplicand limbs
self.digits[a_i] for a_i in 0..p: the arguments are the remaining window
limbs, the remaining multiplicand limbs, the row limb other.digits[b_i],
the carry, the absolute write index a_i + b_i and the running
pos_last_non_zero.  Each step computes
tmp = digits[a_i + b_i] + carry + self.digits[a_i] * other.digits[b_i],
writes tmp % 256 back (recording the index when that write is nonzero) and
passes tmp / 256 on as the carry.  Returns the rewritten window, the final
carry and the final pos_last_non_zero. -/
def mulRowD : List Nat → List Nat → Nat → Nat → Nat → Nat → List Nat × Nat × Nat
  | [], _, _, c, _, plnz => ([], c, plnz)
  | w :: ws, xs, bd, c, j, plnz =>
    ((w + c + xs.headD 0 * bd) % 256 ::
        (mulRowD ws xs.tail bd ((w + c + xs.headD 0 * bd) / 256) (j + 1)
          (if (w + c + xs.headD 0 * bd) % 256 ≠ 0 then j else plnz)).1,
      (mulRowD ws xs.tail bd ((w + c + xs.headD 0 * bd) / 256) (j + 1)
        (if (w + c + xs.headD 0 * bd) % 256 ≠ 0 then j else plnz)).2)

/-- Outer row loop of BignumFast::mul_ref: for each remaining limb
other.digits[b_i], run the inner loop on window digits[b_i .. b_i + p)
with carry 0, write the final carry into digits[b_i + p] (recording that
index as pos_last_non_zero when the carry is nonzero) and continue with
row b_i + 1. -/
def mulRows (xs : List Nat) (p : Nat) : List Nat → Nat → List Nat → Nat → List Nat × Nat
  | [], _, ds, plnz => (ds, plnz)
  | bd :: ys, bi, ds, plnz =>
    mulRows xs p ys (bi + 1)
      (ds.take bi ++ ((mulRowD ((ds.drop bi).take p) xs bd 0 bi plnz).1
        ++ (mulRowD ((ds.drop bi).take p) xs bd 0 bi plnz).2.1
          :: ds.drop (bi + p + 1)))
      (if (mulRowD ((ds.drop bi).take p) xs bd 0 bi plnz).2.1 ≠ 0 then bi + p
        else (mulRowD ((ds.drop bi).take p) xs bd 0 bi plnz).2.2)

/-- BignumFast::mul_ref with p = self.len() and q = other.len(): panic
with Overflow when p + q > NUM_BYTES, else schoolbook multiplication rows
over the zero array starting from pos_last_non_zero = 0, whose final value
becomes pos. -/
def mul_ref (N : Nat) (x y : BignumFast) : Except Err BignumFast :=
  if N < x.pos + 1 + (y.pos + 1) then .error .overflow
  else
    .ok ⟨(mulRows (x.digits.take (x.pos + 1)) (x.pos + 1)
        (y.digits.take (y.pos + 1)) 0 (List.replicate N 0) 0).1,
      (mulRows (x.digits.take (x.pos + 1)) (x.pos + 1)
        (y.digits.take (y.pos + 1)) 0 (List.replicate N 0) 0).2⟩

/-- While loop of BignumFast::pow_mod, with an explicit fuel bound on the
number of iterations (the source loop halves exp each round, so any fuel
at least the bit capacity suffices; Err.outOfFuel marks exhausted fuel and
never occurs for the budget used below).  Each round: when exp is odd
replace t by (t * base) mod modulus, then replace base by its square mod
modulus and shift exp right one bit. -/
def powModLoop (N : Nat) (m : BignumFast) :
    Nat → BignumFast → BignumFast → BignumFast → Except Err BignumFast
  | 0, _, exp, t => if isZeroBF exp then .ok t else .error .outOfFuel
  | fuel + 1, base, exp, t =>
    if isZeroBF exp then .ok t
    else
      match (if isEvenBF exp then (Except.ok t : Except Err BignumFast)
             else
               match mul_ref N t base with
               | .error e => .error e
               | .ok prod =>
                 match div_with_remainder N prod m with
                 | .error e => .error e
                 | .ok qr => .ok qr.2) with
      | .error e => .error e
      | .ok t2 =>
        match mul_ref N base base with
        | .error e => .error e
        | .ok sq =>
          match div_with_remainder N sq m with
          | .error e => .error e
          | .ok qr2 =>
            match shr N exp 1 with
            | .error e => .error e
            | .ok exp2 => powModLoop N m fuel qr2.2 exp2 t2

/-- BignumFast::pow_mod: t starts at From<u128>(1), square-and-multiply
while the exponent is nonzero, and a final reduction of t by the modulus.
The loop gets fuel 8 * N, enough for any representable exponent. -/
def pow_mod (N : Nat) (base exp m : BignumFast) : Except Err BignumFast :=
  match fromU128 N 1 with
  | .error e => .error e
  | .ok t1 =>
    match powModLoop N m (8 * N) base exp t1 with
    | .error e => .error e
    | .ok t =>
      match div_with_remainder N t m with
      | .error e => .error e
      | .ok qr => .ok qr.2

/-! The signed wrapper SignedBignumFast: a magnitude in the exact layout of
BignumFast plus a sign flag (true = negative).  All digit loops of the
signed source (shl, shr, get_bit, set_bit, unset_bit, add_ref_internal,
mul_ref rows, the division bit loop, the comparison walks) are verbatim
copies of the unsigned ones and never read or write the sign flag, so the
model shares the unsigned definitions applied to the magnitude. -/

structure SignedBignumFast where
  digits : List Nat
  pos : Nat
  sign : Bool
  deriving Repr, DecidableEq

/-- The magnitude of a signed value, in the unsigned layout. -/
def mag (x : SignedBignumFast) : BignumFast := ⟨x.digits, x.pos⟩

/-- Integer denoted by a signed value. -/
def sval (x : SignedBignumFast) : Int :=
  if x.sign then -(val (mag x) : Int) else (val (mag x) : Int)

/-- SignedBignumFast::zero (= new): zero magnitude, positive sign. -/
def zeroS (N : Nat) : SignedBignumFast := ⟨List.replicate N 0, 0, false⟩

/-- SignedBignumFast::is_zero. -/
def isZeroS (x : SignedBignumFast) : Bool := isZeroBF (mag x)

/-- SignedBignumFast::is_even. -/
def isEvenS (x : SignedBignumFast) : Bool := isEvenBF (mag x)

/-- Canonical signed values: canonical magnitude, and zero is never
negative (every constructor and operation of the source yields sign =
false for a zero result). -/
def SCanonical (N : Nat) (x : SignedBignumFast) : Prop :=
  Canonical N (mag x) ∧ (x.sign = true → val (mag x) ≠ 0)

instance (N : Nat) (x : SignedBignumFast) : Decidable (SCanonical N x) := by
  unfold SCanonical; infer_instance

/-- SignedBignumFast::eq: the sign flag is never consulted, only pos and
the digit slices, exactly as in the unsigned PartialEq. -/
def eqS (a b : SignedBignumFast) : Bool := eqBF (mag a) (mag b)

/-- SignedBignumFast::gt_internal: the magnitude comparison, identical to
the unsigned gt. -/
def gt_internalS (a b : SignedBignumFast) : Bool := gtBF (mag a) (mag b)

/-- SignedBignumFast::ge_internal: the magnitude comparison, identical to
the unsigned ge. -/
def ge_internalS (a b : SignedBignumFast) : Bool := geBF (mag a) (mag b)

/-- SignedBignumFast::partial_cmp: a negative is below a nonnegative by
sign alone; with equal signs the magnitudes are compared, with the operand
roles swapped when both are negative.  (In the equal-sign branches the
source slices both operands at self.len(); the swapped-operand call below
walks slices cut at other.len(), which the source only reaches when the
pos fields agree, making the two cuts the same.) -/
def partialCmpS (a b : SignedBignumFast) : Ordering :=
  match a.sign, b.sign with
  | true, false => .lt
  | false, true => .gt
  | false, false => partialCmpBF (mag a) (mag b)
  | true, true => partialCmpBF (mag b) (mag a)

/-- Sign mutation tmp.sign = true applied by the signed add/sub wrappers. -/
def negS (x : SignedBignumFast) : SignedBignumFast := ⟨x.digits, x.pos, true⟩

/-- SignedBignumFast::sub_ref_internal: early return of zero when
partial_cmp (sign included) says Equal, else the borrow loop of the
unsigned sub_ref (shared as subCore) with the fresh sign false. -/
def sub_ref_internalS (N : Nat) (a b : SignedBignumFast) : SignedBignumFast :=
  match partialCmpS a b with
  | .eq => zeroS N
  | _ => ⟨(subCore N (mag a) (mag b)).digits, (subCore N (mag a) (mag b)).pos, false⟩

/-- SignedBignumFast::add_ref_internal: the carry loop of the unsigned
add_ref (shared as addBody, with the same longer-operand selection and the
same Overflow panic), result sign false. -/
def add_ref_internalS (N : Nat) (a b : SignedBignumFast) : Except Err SignedBignumFast :=
  match addBody N (if a.pos > b.pos then mag a else mag b)
      (if a.pos > b.pos then mag b else mag a) with
  | .error e => .error e
  | .ok c => .ok ⟨c.digits, c.pos, false⟩

/-- SignedBignumFast::add_ref: four sign cases dispatching to the internal
add and sub of magnitudes. -/
def add_refS (N : Nat) (a b : SignedBignumFast) : Except Err SignedBignumFast :=
  match a.sign, b.sign with
  | false, false => add_ref_internalS N a b
  | true, false =>
    if eqS a b then .ok (zeroS N)
    else if gt_internalS b a then .ok (sub_ref_internalS N b a)
    else .ok (negS (sub_ref_internalS N a b))
  | false, true =>
    if eqS a b then .ok (zeroS N)
    else if gt_internalS a b then .ok (sub_ref_internalS N a b)
    else .ok (negS (sub_ref_internalS N b a))
  | true, true =>
    match add_ref_internalS N a b with
    | .error e => .error e
    | .ok c => .ok (negS c)

/-- SignedBignumFast::sub_ref: four sign cases. -/
def sub_refS (N : Nat) (a b : SignedBignumFast) : Except Err SignedBignumFast :=
  match a.sign, b.sign with
  | false, false =>
    if eqS a b then .ok (zeroS N)
    else if gt_internalS a b then .ok (sub_ref_internalS N a b)
    else .ok (negS (sub_ref_internalS N b a))
  | true, false =>
    match add_ref_internalS N a b with
    | .error e => .error e
    | .ok c => .ok (negS c)
  | false, true => add_ref_internalS N a b
  | true, true =>
    if eqS a b then .ok (zeroS N)
    else if gt_internalS b a then .ok (sub_ref_internalS N b a)
    else .ok (negS (sub_ref_internalS N a b))

/-- SignedBignumFast::mul_ref: the row loops of the unsigned mul_ref
(verbatim in the source, shared here), then the sign: false for a zero
product, else the xor of the operand signs. -/
def mul_refS (N : Nat) (x y : SignedBignumFast) : Except Err SignedBignumFast :=
  match mul_ref N (mag x) (mag y) with
  | .error e => .error e
  | .ok z => .ok ⟨z.digits, z.pos,
      if isZeroBF z then false else ((x.sign && !y.sign) || (!x.sign && y.sign))⟩

/-- The subtraction step of the signed division loop: sub_ref_internal of
the running remainder (sign false) and the divisor with its original
sign. -/
def subInternalMag (N : Nat) (r : BignumFast) (b : SignedBignumFast) : BignumFast :=
  match partialCmpS ⟨r.digits, r.pos, false⟩ b with
  | .eq => zeroBN N
  | _ => subCore N r (mag b)

/-- Bit loop of SignedBignumFast::div_with_remainder: as in the unsigned
loop, but the comparison is ge_internal (the magnitude compare, shared
with the unsigned ge) and the subtraction is sub_ref_internal, which never
panics.  The running q and r keep sign false throughout, so they are
tracked as magnitudes. -/
def sdivLoop (N : Nat) (n rhs : SignedBignumFast) :
    Nat → BignumFast → BignumFast → Except Err (BignumFast × BignumFast)
  | 0, q, r => .ok (q, r)
  | i + 1, q, r =>
    match getBit N (mag n) i with
    | .error e => .error e
    | .ok bit =>
      match (if bit then setBit N (shl N r 1) 0 else unsetBit N (shl N r 1) 0) with
      | .error e => .error e
      | .ok r2 =>
        if geBF r2 (mag rhs) then
          match setBit N q i with
          | .error e => .error e
          | .ok q2 => sdivLoop N n rhs i q2 (subInternalMag N r2 rhs)
        else sdivLoop N n rhs i q r2

/-- SignedBignumFast::div_with_remainder: a zero dividend short-circuits
to (0, 0) BEFORE the divisor is inspected; only then does a zero divisor
panic with DivideByZero.  Then the restoring bit loop over the dividend
magnitude, and the final sign fixups: quotient sign = xor of the operand
signs (false for zero), remainder sign = dividend sign (false for
zero). -/
def div_with_remainderS (N : Nat) (a b : SignedBignumFast) :
    Except Err (SignedBignumFast × SignedBignumFast) :=
  if isZeroS a then .ok (zeroS N, zeroS N)
  else if isZeroS b then .error .divideByZero
  else
    match sdivLoop N a b ((a.pos + 1) * 8) (zeroBN N) (zeroBN N) with
    | .error e => .error e
    | .ok qr =>
      .ok (⟨qr.1.digits, qr.1.pos,
            if isZeroBF qr.1 then false else ((a.sign && !b.sign) || (!a.sign && b.sign))⟩,
          ⟨qr.2.digits, qr.2.pos,
            if isZeroBF qr.2 then false
            else match a.sign, b.sign with
              | false, false => false
              | true, false => true
              | false, true => false
              | true, true => true⟩)

/-- From<i32> (and From<i128>) for SignedBignumFast: the magnitude through
From<u128> of the absolute value, the sign from value < 0. -/
def fromI32 (N : Nat) (v : Int) : Except Err SignedBignumFast :=
  match fromU128 N v.natAbs with
  | .error e => .error e
  | .ok u => .ok ⟨u.digits, u.pos, decide (v < 0)⟩

/-- While loop of egcd (src/math/utils.rs), with fuel: while b is nonzero,
(q, r) = d.div_with_remainder(b), then
(sb, tb, m, n) = (m - q*sb, n - q*tb, sb, tb) and (d, b) = (b, r).
State order of the arguments: d b m n sb tb. -/
def egcdLoop (N : Nat) :
    Nat → SignedBignumFast → SignedBignumFast → SignedBignumFast →
      SignedBignumFast → SignedBignumFast → SignedBignumFast →
      Except Err (SignedBignumFast × SignedBignumFast × SignedBignumFast)
  | 0, d, b, m, n, _, _ => if isZeroS b then .ok (d, m, n) else .error .outOfFuel
  | fuel + 1, d, b, m, n, sb, tb =>
    if isZeroS b then .ok (d, m, n)
    else
      match div_with_remainderS N d b with
      | .error e => .error e
      | .ok qr =>
        match mul_refS N qr.1 sb with
        | .error e => .error e
        | .ok qsb =>
          match sub_refS N m qsb with
          | .error e => .error e
          | .ok sb2 =>
            match mul_refS N qr.1 tb with
            | .error e => .error e
            | .ok qtb =>
              match sub_refS N n qtb with
              | .error e => .error e
              | .ok tb2 => egcdLoop N fuel b qr.2 sb tb sb2 tb2

/-- egcd of src/math/utils.rs: m, n, sb, tb start at from(1), from(0),
from(0), from(1); the loop gets fuel val(b) + 1, enough because the
remainder magnitude strictly decreases below the divisor magnitude. -/
def egcd (N : Nat) (d b : SignedBignumFast) :
    Except Err (SignedBignumFast × SignedBignumFast × SignedBignumFast) :=
  match fromI32 N 1, fromI32 N 0 with
  | .error e, _ => .error e
  | _, .error e => .error e
  | .ok one, .ok zero => egcdLoop N (val (mag b) + 1) d b one zero zero one

/-! The hex string conversions of BignumFast, with strings modelled as
character lists. -/

/-- calc_pos of the source: the pos value derived from a hex digit count. -/
def calc_pos (length : Nat) : Nat :=
  if length ≤ 2 then 0
  else if length % 2 = 0 then length / 2 - 1
  else length / 2

/-- One lowercase hex digit, as produced by the {:02x} formatter. -/
def hexDigit (n : Nat) : Char :=
  if n < 10 then Char.ofNat (48 + n) else Char.ofNat (87 + n)

/-- The two-character {:02x} rendering of one byte. -/
def hexByte (b : Nat) : List Char := [hexDigit (b / 16), hexDigit (b % 16)]

/-- The byte loop of to_hex_string, walking the reversed digit array with
the leading_zeros flag: zero bytes are skipped while the flag is set, the
first nonzero byte clears it, every visited byte after that is emitted as
two hex characters. -/
def hexLoop : List Nat → Bool → List Char
  | [], _ => []
  | b :: bs, lz =>
    if b = 0 ∧ lz = true then hexLoop bs lz
    else hexByte b ++ hexLoop bs (if b ≠ 0 then false else lz)

/-- res.strip_prefix of a single zero character applied by to_hex_string. -/
def strip0 : List Char → List Char
  | [] => []
  | c :: rest => if c = '0' then rest else c :: rest

/-- BignumFast::to_hex_string: 0x0 for zero, else 0x followed by the byte
walk with at most one leading zero character stripped. -/
def to_hex_string (x : BignumFast) : List Char :=
  if x.pos == 0 && x.digits.getD 0 0 == 0 then ['0', 'x', '0']
  else '0' :: 'x' :: strip0 (hexLoop x.digits.reverse true)

/-- trim_start_matches of the 0x prefix: repeatedly removed. -/
def trim0x : List Char → List Char
  | c0 :: c1 :: rest =>
    if c0 = '0' ∧ c1 = 'x' then trim0x rest else c0 :: c1 :: rest
  | s => s

/-- u8::from_str_radix base 16 on one character (0-9, a-f, A-F; the
leading-plus form from_str_radix also accepts never reaches the one- and
two-character slices taken here with a plus sign in a meaningful way and is
not modelled). -/
def hexVal (c : Char) : Option Nat :=
  if '0' ≤ c ∧ c ≤ '9' then some (c.toNat - 48)
  else if 'a' ≤ c ∧ c ≤ 'f' then some (c.toNat - 87)
  else if 'A' ≤ c ∧ c ≤ 'F' then some (c.toNat - 55)
  else none

/-- The pair loop of try_from_hex_string, walking the REVERSED trimmed
string: iteration i parses the two-character slice s[len-2i-2 .. len-2i]
(characters number 2i+1 and 2i of the reversed string) and writes the byte
to digits[i], panicking when i reaches the capacity. -/
def parsePairsRev (N : Nat) : List Char → Nat → Except Err (List Nat)
  | [], _ => .ok []
  | [_], _ => .ok []
  | c0 :: c1 :: rest, i =>
    match hexVal c1, hexVal c0 with
    | some h, some l =>
      if N ≤ i then .error .indexOutOfRange
      else
        match parsePairsRev N rest (i + 1) with
        | .error e => .error e
        | .ok bs => .ok ((16 * h + l) :: bs)
    | _, _ => .error .parseFailure

/-- Body of try_from_hex_string after trimming: parse len/2 byte pairs
from the tail of the string into the low digits, then for odd length parse
the lone leading character into digits[len/2]; pos = calc_pos len.  The
untouched upper digits stay zero, written here as explicit padding. -/
def parseHexCore (N : Nat) (s2 : List Char) : Except Err BignumFast :=
  match parsePairsRev N s2.reverse 0 with
  | .error e => .error e
  | .ok bytes =>
    if s2.length % 2 ≠ 0 then
      match hexVal (s2.headD '0') with
      | none => .error .parseFailure
      | some hb =>
        if N ≤ s2.length / 2 then .error .indexOutOfRange
        else .ok ⟨(bytes ++ [hb]) ++ List.replicate (N - (s2.length / 2 + 1)) 0,
            calc_pos s2.length⟩
    else .ok ⟨bytes ++ List.replicate (N - s2.length / 2) 0, calc_pos s2.length⟩

/-- BignumFast::try_from_hex_string: trim the repeated 0x prefixes, trim
all leading zero characters, then parse. -/
def try_from_hex_string (N : Nat) (s : List Char) : Except Err BignumFast :=
  parseHexCore N ((trim0x s).dropWhile (fun c => c = '0'))

/-! Basic lemmas about digit lists. -/

@[simp] theorem valL_nil : valL [] = 0 := rfl

@[simp] theorem valL_cons (d : Nat) (l : List Nat) :
    valL (d :: l) = d + 256 * valL l := rfl

theorem valL_append (l m : List Nat) :
    valL (l ++ m) = valL l + 256 ^ l.length * valL m := by
  induction l with
  | nil => simp
  | cons d l ih => simp [valL_cons, ih, pow_succ]; ring

@[simp] theorem valL_replicate_zero (k : Nat) :
    valL (List.replicate k 0) = 0 := by
  induction k with
  | zero => rfl
  | succ k ih => simp [List.replicate_succ, valL_cons, ih]

theorem valL_lt (l : List Nat) (h : ∀ d ∈ l, d < 256) :
    valL l < 256 ^ l.length := by
  induction l with
  | nil => simp
  | cons d l ih =>
      have hd : d < 256 := h d (by simp)
      have hl := ih (fun e he => h e (by simp [he]))
      simp only [valL_cons, List.length_cons, pow_succ]
      calc d + 256 * valL l < 256 + 256 * valL l := by omega
        _ = 256 * (valL l + 1) := by ring
        _ ≤ 256 * 256 ^ l.length := by
              have : valL l + 1 ≤ 256 ^ l.length := hl
              exact Nat.mul_le_mul_left _ this
        _ = 256 ^ l.length * 256 := by ring

theorem valL_eq_zero_iff (l : List Nat) : valL l = 0 ↔ ∀ d ∈ l, d = 0 := by
  induction l with
  | nil => simp
  | cons d l ih =>
      simp only [valL_cons, List.mem_cons]
      constructor
      · intro h
        have hd : d = 0 := by omega
        have hl : valL l = 0 := by omega
        intro e he
        rcases he with he | he
        · exact he ▸ hd
        · exact (ih.mp hl) e he
      · intro h
        have hd : d = 0 := h d (Or.inl rfl)
        have hl : valL l = 0 := ih.mpr (fun e he => h e (Or.inr he))
        omega

theorem valL_getD (l : List Nat) (h : ∀ d ∈ l, d < 256) (i : Nat) :
    l.getD i 0 = valL l / 256 ^ i % 256 := by
  induction l generalizing i with
  | nil => simp
  | cons d l ih =>
      have hd : d < 256 := h d (by simp)
      have hl : ∀ e ∈ l, e < 256 := fun e he => h e (by simp [he])
      cases i with
      | zero =>
          simp only [List.getD_cons_zero, valL_cons, pow_zero, Nat.div_one]
          omega
      | succ i =>
          simp only [List.getD_cons_succ, valL_cons, pow_succ]
          rw [ih hl i]
          congr 1
          rw [mul_comm (256 ^ i) 256, ← Nat.div_div_eq_div_mul]
          congr 1
          rw [Nat.add_mul_div_left d (valL l) (by norm_num)]
          omega

theorem getD_length_le (l : List Nat) (i : Nat) (h : l.length ≤ i) :
    l.getD i 0 = 0 := by
  simp [List.getD_eq_getElem?_getD, List.getElem?_eq_none h]

theorem valL_le_of_getD (l : List Nat) (i : Nat) :
    l.getD i 0 * 256 ^ i ≤ valL l := by
  induction l generalizing i with
  | nil => simp
  | cons d l ih =>
      cases i with
      | zero => simp
      | succ i =>
          have := ih i
          simp only [List.getD_cons_succ, valL_cons, pow_succ]
          calc l.getD i 0 * (256 ^ i * 256) = (l.getD i 0 * 256 ^ i) * 256 := by ring
            _ ≤ valL l * 256 := Nat.mul_le_mul_right _ this
            _ ≤ d + 256 * valL l := by omega

theorem valL_ext (l m : List Nat) (hlen : l.length = m.length)
    (hl : ∀ d ∈ l, d < 256) (hm : ∀ d ∈ m, d < 256)
    (hv : valL l = valL m) : l = m := by
  apply List.ext_getElem hlen
  intro n h1 h2
  have e1 : l[n] = l.getD n 0 := (List.getD_eq_getElem l 0 h1).symm
  have e2 : m[n] = m.getD n 0 := (List.getD_eq_getElem m 0 h2).symm
  rw [e1, e2, valL_getD l hl n, valL_getD m hm n, hv]

/-! Lemmas about lastNZ. -/

theorem lastNZ_cons (d : Nat) (ds : List Nat) :
    lastNZ (d :: ds) =
      if ds.any (fun e => e ≠ 0) = true then lastNZ ds + 1 else 0 := rfl

theorem any_ne_false_all_zero (l : List Nat)
    (h : ¬ l.any (fun e => e ≠ 0) = true) : ∀ d ∈ l, d = 0 := by
  intro d hd
  by_contra hne
  exact h (List.any_eq_true.mpr ⟨d, hd, by simpa using hne⟩)

theorem lastNZ_of_not_any (l : List Nat)
    (h : ¬ l.any (fun e => e ≠ 0) = true) : lastNZ l = 0 := by
  cases l with
  | nil => rfl
  | cons d ds =>
      rw [lastNZ_cons]
      rw [if_neg]
      intro hany
      exact h (by simp only [List.any_cons, hany, Bool.or_true])

theorem lastNZ_lt_length (l : List Nat) (h : l ≠ []) : lastNZ l < l.length := by
  induction l with
  | nil => exact absurd rfl h
  | cons d ds ih =>
      rw [lastNZ_cons]
      by_cases hany : ds.any (fun e => e ≠ 0) = true
      · rw [if_pos hany]
        have hne : ds ≠ [] := by
          intro he; rw [he] at hany; simp at hany
        have := ih hne
        simp only [List.length_cons]
        omega
      · rw [if_neg hany]; simp

theorem lastNZ_getD_zero (l : List Nat) (i : Nat) (h : lastNZ l < i) :
    l.getD i 0 = 0 := by
  induction l generalizing i with
  | nil => simp
  | cons d ds ih =>
      rw [lastNZ_cons] at h
      by_cases hany : ds.any (fun e => e ≠ 0) = true
      · rw [if_pos hany] at h
        cases i with
        | zero => omega
        | succ i => simpa using ih i (by omega)
      · rw [if_neg hany] at h
        cases i with
        | zero => omega
        | succ i =>
            simp only [List.getD_cons_succ]
            have hz := any_ne_false_all_zero ds hany
            rcases Nat.lt_or_ge i ds.length with hi | hi
            · rw [List.getD_eq_getElem ds 0 hi]
              exact hz _ (List.getElem_mem hi)
            · exact getD_length_le ds i hi

theorem lastNZ_getD_of_any (l : List Nat) (h : l.any (fun e => e ≠ 0) = true) :
    l.getD (lastNZ l) 0 ≠ 0 := by
  induction l with
  | nil => simp at h
  | cons d ds ih =>
      rw [lastNZ_cons]
      by_cases hany : ds.any (fun e => e ≠ 0) = true
      · rw [if_pos hany]
        simpa using ih hany
      · rw [if_neg hany]
        have hd : d ≠ 0 := by
          simp only [List.any_cons, Bool.or_eq_true] at h
          rcases h with h | h
          · simpa using h
          · exact absurd h hany
        simpa using hd

theorem lastNZ_getD_self (l : List Nat) (h : lastNZ l ≠ 0) :
    l.getD (lastNZ l) 0 ≠ 0 := by
  by_cases hany : l.any (fun e => e ≠ 0) = true
  · exact lastNZ_getD_of_any l hany
  · exact absurd (lastNZ_of_not_any l hany) h

/-- The canonical bignum built from a freshly computed digit window res
(length ≤ N) padded with zeros, with pos given by the last-nonzero scan:
this is the result shape of the subtraction and division helpers. -/
theorem canonical_mk (N : Nat) (res : List Nat) (hlen : res.length ≤ N)
    (hres : ∀ d ∈ res, d < 256) (h0 : res ≠ []) :
    Canonical N ⟨res ++ List.replicate (N - res.length) 0, lastNZ res⟩ := by
  have hLNZ : lastNZ res < res.length := lastNZ_lt_length res h0
  refine ⟨⟨?_, ?_, ?_⟩, ?_, ?_⟩
  · simp; omega
  · intro d hd
    rcases List.mem_append.mp hd with hd | hd
    · exact hres d hd
    · have := List.eq_of_mem_replicate hd
      omega
  · exact lt_of_lt_of_le hLNZ hlen
  · intro i _ hi2
    rcases Nat.lt_or_ge i res.length with h | h
    · rw [List.getD_append _ _ _ _ h]
      exact lastNZ_getD_zero res i hi2
    · rw [List.getD_append_right _ _ _ _ h]
      simp only [List.getD_eq_getElem?_getD, List.getElem?_replicate]
      split <;> simp
  · intro hne
    rw [List.getD_append _ _ _ _ hLNZ]
    exact lastNZ_getD_self res hne

theorem valL_mk (res : List Nat) (k : Nat) :
    valL (res ++ List.replicate k 0) = valL res := by
  rw [valL_append]; simp

/-! Value bounds for canonical values and semantics of the comparators. -/

theorem canonical_valL_take (N : Nat) (x : BignumFast) (h : Canonical N x) :
    valL (x.digits.take (x.pos + 1)) = val x := by
  obtain ⟨⟨hlen, _hd, hpos⟩, hzero, _⟩ := h
  have hdrop : valL (x.digits.drop (x.pos + 1)) = 0 := by
    rw [valL_eq_zero_iff]
    intro d hd
    obtain ⟨i, hi, rfl⟩ := List.getElem_of_mem hd
    rw [List.getElem_drop]
    have hlt : x.pos + 1 + i < N := by
      have := hi; simp only [List.length_drop, hlen] at this; omega
    have := hzero (x.pos + 1 + i) hlt (by omega)
    rw [List.getD_eq_getElem _ 0 (by omega)] at this
    exact this
  have := valL_append (x.digits.take (x.pos + 1)) (x.digits.drop (x.pos + 1))
  rw [List.take_append_drop] at this
  rw [val, this, hdrop]
  simp

theorem take_len_canonical (N : Nat) (x : BignumFast) (h : Canonical N x) :
    (x.digits.take (x.pos + 1)).length = x.pos + 1 := by
  obtain ⟨⟨hlen, _, hpos⟩, _, _⟩ := h
  simp [List.length_take, hlen]; omega

theorem val_lt_canonical (N : Nat) (x : BignumFast) (h : Canonical N x) :
    val x < 256 ^ (x.pos + 1) := by
  rw [← canonical_valL_take N x h]
  have := valL_lt (x.digits.take (x.pos + 1))
    (fun e he => h.1.2.1 e (List.take_subset _ _ he))
  rw [take_len_canonical N x h] at this
  exact this

theorem le_val_canonical (N : Nat) (x : BignumFast) (h : Canonical N x)
    (hp : x.pos ≠ 0) : 256 ^ x.pos ≤ val x := by
  have hne := h.2.2 hp
  have := valL_le_of_getD x.digits x.pos
  have h1 : 1 ≤ x.digits.getD x.pos 0 := Nat.one_le_iff_ne_zero.mpr hne
  calc 256 ^ x.pos = 1 * 256 ^ x.pos := (one_mul _).symm
    _ ≤ x.digits.getD x.pos 0 * 256 ^ x.pos := Nat.mul_le_mul_right _ h1
    _ ≤ valL x.digits := this

theorem nat_compare_add_right (x y c : Nat) :
    compare (x + c) (y + c) = compare x y := by
  rcases lt_trichotomy x y with h | h | h
  · rw [Nat.compare_eq_lt.mpr h, Nat.compare_eq_lt.mpr (by omega)]
  · rw [h, Nat.compare_eq_eq.mpr rfl, Nat.compare_eq_eq.mpr rfl]
  · rw [Nat.compare_eq_gt.mpr h, Nat.compare_eq_gt.mpr (by omega)]

theorem cmpRev_reverse (l m : List Nat) (hlen : l.length = m.length)
    (hl : ∀ d ∈ l, d < 256) (hm : ∀ d ∈ m, d < 256) :
    cmpRev l.reverse m.reverse = compare (valL l) (valL m) := by
  induction l using List.reverseRecOn generalizing m with
  | nil =>
      have : m = [] := List.length_eq_zero.mp (by simpa using hlen.symm)
      subst this; rfl
  | append_singleton l' a ih =>
      cases m using List.reverseRecOn with
      | nil => simp at hlen
      | append_singleton m' b =>
          have hlen' : l'.length = m'.length := by simpa using hlen
          have hl' : ∀ d ∈ l', d < 256 := fun d hd => hl d (by simp [hd])
          have hm' : ∀ d ∈ m', d < 256 := fun d hd => hm d (by simp [hd])
          have ha : a < 256 := hl a (by simp)
          have hb : b < 256 := hm b (by simp)
          have hrw : (l' ++ [a]).reverse = a :: l'.reverse := by simp
          have hrwm : (m' ++ [b]).reverse = b :: m'.reverse := by simp
          rw [hrw, hrwm]
          have hva : valL (l' ++ [a]) = valL l' + 256 ^ l'.length * a := by
            rw [valL_append]; simp [valL_cons]
          have hvb : valL (m' ++ [b]) = valL m' + 256 ^ m'.length * b := by
            rw [valL_append]; simp [valL_cons]
          rw [hva, hvb, ← hlen']
          by_cases hab : a = b
          · subst hab
            have : cmpRev (a :: l'.reverse) (a :: m'.reverse)
                = cmpRev l'.reverse m'.reverse := by simp [cmpRev]
            rw [this, ih m' hlen' hl' hm', nat_compare_add_right]
          · have : cmpRev (a :: l'.reverse) (b :: m'.reverse) = compare a b := by
              simp [cmpRev, hab]
            rw [this]
            rcases Nat.lt_or_ge a b with hlt | hge
            · rw [Nat.compare_eq_lt.mpr hlt, Nat.compare_eq_lt.mpr]
              have h1 : valL l' < 256 ^ l'.length := valL_lt l' hl'
              calc valL l' + 256 ^ l'.length * a
                  < 256 ^ l'.length + 256 ^ l'.length * a := by omega
                _ = 256 ^ l'.length * (a + 1) := by ring
                _ ≤ 256 ^ l'.length * b := Nat.mul_le_mul_left _ (by omega)
                _ ≤ valL m' + 256 ^ l'.length * b := by omega
            · have hgt : b < a := by omega
              rw [Nat.compare_eq_gt.mpr hgt, Nat.compare_eq_gt.mpr]
              have h1 : valL m' < 256 ^ m'.length := valL_lt m' hm'
              calc valL m' + 256 ^ l'.length * b
                  < 256 ^ m'.length + 256 ^ l'.length * b := by omega
                _ = 256 ^ l'.length * (b + 1) := by rw [hlen']; ring
                _ ≤ 256 ^ l'.length * a := Nat.mul_le_mul_left _ (by omega)
                _ ≤ valL l' + 256 ^ l'.length * a := by omega

theorem partialCmpBF_eq_compare (N : Nat) (a b : BignumFast)
    (ha : Canonical N a) (hb : Canonical N b) :
    partialCmpBF a b = compare (val a) (val b) := by
  unfold partialCmpBF
  by_cases hp : a.pos = b.pos
  · rw [if_neg (by simpa using hp)]
    unfold revTake
    rw [cmpRev_reverse _ _ ?_ ?_ ?_]
    · rw [canonical_valL_take N a ha]
      rw [hp, canonical_valL_take N b hb]
    · rw [take_len_canonical N a ha]
      rw [hp]
      exact (take_len_canonical N b hb).symm
    · exact fun d hd => ha.1.2.1 d (List.take_subset _ _ hd)
    · exact fun d hd => hb.1.2.1 d (List.take_subset _ _ hd)
  · rw [if_pos (by simpa using hp)]
    rcases Nat.lt_or_ge a.pos b.pos with hlt | hge
    · rw [Nat.compare_eq_lt.mpr hlt, Eq.symm (Nat.compare_eq_lt.mpr ?_)]
      have h1 : val a < 256 ^ (a.pos + 1) := val_lt_canonical N a ha
      have h2 : 256 ^ b.pos ≤ val b := le_val_canonical N b hb (by omega)
      have h3 : (256:Nat) ^ (a.pos + 1) ≤ 256 ^ b.pos :=
        Nat.pow_le_pow_right (by norm_num) (by omega)
      omega
    · have hgt : b.pos < a.pos := by omega
      rw [Nat.compare_eq_gt.mpr hgt, Eq.symm (Nat.compare_eq_gt.mpr ?_)]
      have h1 : val b < 256 ^ (b.pos + 1) := val_lt_canonical N b hb
      have h2 : 256 ^ a.pos ≤ val a := le_val_canonical N a ha (by omega)
      have h3 : (256:Nat) ^ (b.pos + 1) ≤ 256 ^ a.pos :=
        Nat.pow_le_pow_right (by norm_num) (by omega)
      omega

theorem gtRev_eq_cmpRev (dflt : Bool) (l m : List Nat) :
    gtRev dflt l m =
      (match cmpRev l m with
       | .eq => dflt | .gt => true | .lt => false) := by
  induction l generalizing m with
  | nil => cases m <;> rfl
  | cons a as ih =>
      cases m with
      | nil => rfl
      | cons b bs =>
          by_cases hab : a = b
          · subst hab; simp [gtRev, cmpRev, ih]
          · simp only [gtRev, cmpRev, if_neg hab]
            rcases Nat.lt_or_ge a b with hlt | hge
            · rw [Nat.compare_eq_lt.mpr hlt]
              have h2 : ¬ b < a := by omega
              simp [h2]
            · have hgt : b < a := by omega
              rw [Nat.compare_eq_gt.mpr hgt]
              simp [hgt]

theorem geBF_eq_pcmp (a b : BignumFast) :
    geBF a b = decide (partialCmpBF a b ≠ .lt) := by
  unfold geBF partialCmpBF
  by_cases hp : a.pos = b.pos
  · rw [if_neg (by simpa using hp), if_neg (by simpa using hp)]
    rw [gtRev_eq_cmpRev]
    rcases hc : cmpRev (revTake (a.pos + 1) a.digits) (revTake (a.pos + 1) b.digits)
      with _ | _ | _ <;> simp
  · rw [if_pos (by simpa using hp), if_pos (by simpa using hp)]
    rcases Nat.lt_or_ge a.pos b.pos with hlt | hge
    · rw [Nat.compare_eq_lt.mpr hlt]; simp; omega
    · have hgt : b.pos < a.pos := by omega
      rw [Nat.compare_eq_gt.mpr hgt]; simp [hgt]

theorem gtBF_eq_pcmp (a b : BignumFast) :
    gtBF a b = decide (partialCmpBF a b = .gt) := by
  unfold gtBF partialCmpBF
  by_cases hp : a.pos = b.pos
  · rw [if_neg (by simpa using hp), if_neg (by simpa using hp)]
    rw [gtRev_eq_cmpRev]
    rcases hc : cmpRev (revTake (a.pos + 1) a.digits) (revTake (a.pos + 1) b.digits)
      with _ | _ | _ <;> simp
  · rw [if_pos (by simpa using hp), if_pos (by simpa using hp)]
    rcases Nat.lt_or_ge a.pos b.pos with hlt | hge
    · rw [Nat.compare_eq_lt.mpr hlt]; simp; omega
    · have hgt : b.pos < a.pos := by omega
      rw [Nat.compare_eq_gt.mpr hgt]; simp [hgt]

theorem allZip_eq_cmpRev (l m : List Nat) :
    ((l.zip m).all (fun p => p.1 == p.2)) = (cmpRev l m == .eq) := by
  induction l generalizing m with
  | nil => cases m <;> rfl
  | cons a as ih =>
      cases m with
      | nil => rfl
      | cons b bs =>
          by_cases hab : a = b
          · subst hab; simp [cmpRev, ih]
          · simp only [List.zip_cons_cons, List.all_cons, cmpRev, if_neg hab]
            have hbeq : (a == b) = false := by simpa using hab
            rcases Nat.lt_or_ge a b with hlt | hge
            · rw [Nat.compare_eq_lt.mpr hlt, hbeq]; rfl
            · have hgt : b < a := by omega
              rw [Nat.compare_eq_gt.mpr hgt, hbeq]; rfl

theorem eqBF_eq_pcmp (a b : BignumFast) :
    eqBF a b = (partialCmpBF a b == .eq) := by
  unfold eqBF partialCmpBF
  by_cases hp : a.pos = b.pos
  · rw [if_neg (by simpa using hp)]
    simp only [hp, beq_self_eq_true, Bool.true_and]
    exact allZip_eq_cmpRev _ _
  · rw [if_pos (by simpa using hp)]
    have h1 : (a.pos == b.pos) = false := by simpa using hp
    rw [h1]
    rcases lt_trichotomy a.pos b.pos with h | h | h
    · rw [Nat.compare_eq_lt.mpr h]; rfl
    · exact absurd h hp
    · rw [Nat.compare_eq_gt.mpr h]; rfl

theorem geBF_iff_val (N : Nat) (a b : BignumFast)
    (ha : Canonical N a) (hb : Canonical N b) :
    geBF a b = true ↔ val b ≤ val a := by
  rw [geBF_eq_pcmp, partialCmpBF_eq_compare N a b ha hb]
  simp only [decide_eq_true_eq]
  constructor
  · intro h
    by_contra hlt
    exact h (Nat.compare_eq_lt.mpr (by omega))
  · intro h hc
    have := Nat.compare_eq_lt.mp hc
    omega

theorem gtBF_iff_val (N : Nat) (a b : BignumFast)
    (ha : Canonical N a) (hb : Canonical N b) :
    gtBF a b = true ↔ val b < val a := by
  rw [gtBF_eq_pcmp, partialCmpBF_eq_compare N a b ha hb]
  simp only [decide_eq_true_eq]
  exact Nat.compare_eq_gt

theorem eqBF_iff_val (N : Nat) (a b : BignumFast)
    (ha : Canonical N a) (hb : Canonical N b) :
    eqBF a b = true ↔ val a = val b := by
  rw [eqBF_eq_pcmp, partialCmpBF_eq_compare N a b ha hb]
  have hord : ∀ o : Ordering, ((o == Ordering.eq) = true ↔ o = Ordering.eq) := by
    intro o; cases o <;> decide
  rw [hord]
  exact Nat.compare_eq_eq

theorem isZeroBF_iff_val (N : Nat) (x : BignumFast) (h : Canonical N x) :
    isZeroBF x = true ↔ val x = 0 := by
  unfold isZeroBF
  constructor
  · intro hz
    simp only [Bool.and_eq_true, beq_iff_eq] at hz
    have := canonical_valL_take N x h
    rw [← this, hz.1]
    cases hd : x.digits with
    | nil => simp
    | cons e es =>
        have he : e = 0 := by
          have := hz.2; rw [hd] at this; simpa using this
        simp [List.take, hd, he, valL_cons]
  · intro hv
    have h0 : x.digits.getD 0 0 = 0 := by
      rw [valL_getD x.digits h.1.2.1 0]
      rw [show valL x.digits = val x from rfl, hv]
      simp
    have hp : x.pos = 0 := by
      by_contra hp
      exact (h.2.2 hp) (by
        rw [valL_getD x.digits h.1.2.1 x.pos]
        rw [show valL x.digits = val x from rfl, hv]
        simp)
    show (x.pos == 0 && x.digits.getD 0 0 == 0) = true
    rw [hp, h0]; rfl

theorem isEvenBF_iff_val (x : BignumFast) :
    isEvenBF x = true ↔ val x % 2 = 0 := by
  have hkey : val x % 2 = x.digits.getD 0 0 % 2 := by
    rw [show val x = valL x.digits from rfl]
    cases hd : x.digits with
    | nil => simp
    | cons e es =>
        simp only [valL_cons, List.getD_cons_zero]
        omega
  rw [isEvenBF, hkey]
  simp

/-! Small structural helpers for digit surgery. -/

theorem valL_headD_tail (l : List Nat) :
    l.headD 0 + 256 * valL l.tail = valL l := by
  cases l <;> simp [valL_cons]

theorem getD_set_eq (l : List Nat) (j v : Nat) (h : j < l.length) :
    (l.set j v).getD j 0 = v := by
  simp [List.getD_eq_getElem?_getD, List.getElem?_set_self h]

theorem getD_set_ne (l : List Nat) (i j v : Nat) (h : j ≠ i) :
    (l.set j v).getD i 0 = l.getD i 0 := by
  simp [List.getD_eq_getElem?_getD, List.getElem?_set_ne h]

theorem valL_set (l : List Nat) (j v : Nat) (h : j < l.length) :
    valL (l.set j v) + l.getD j 0 * 256 ^ j = valL l + v * 256 ^ j := by
  induction l generalizing j with
  | nil => simp at h
  | cons d ds ih =>
      cases j with
      | zero => simp [valL_cons]; ring
      | succ j =>
          have hj : j < ds.length := by simpa using h
          have := ih j hj
          simp only [List.set_cons_succ, valL_cons, List.getD_cons_succ, pow_succ]
          have hgoal : 256 * valL (ds.set j v) + 256 * (ds.getD j 0 * 256 ^ j)
              = 256 * valL ds + 256 * (v * 256 ^ j) := by
            rw [← Nat.mul_add, ← Nat.mul_add, this]
          calc d + 256 * valL (ds.set j v) + ds.getD j 0 * (256 ^ j * 256)
              = d + (256 * valL (ds.set j v) + 256 * (ds.getD j 0 * 256 ^ j)) := by ring
            _ = d + (256 * valL ds + 256 * (v * 256 ^ j)) := by rw [hgoal]
            _ = d + 256 * valL ds + v * (256 ^ j * 256) := by ring

theorem set_append_replicate (l : List Nat) (k v : Nat) (hk : 0 < k) :
    (l ++ List.replicate k 0).set l.length v
      = (l ++ [v]) ++ List.replicate (k - 1) 0 := by
  induction l with
  | nil =>
      cases k with
      | zero => omega
      | succ k => simp [List.replicate_succ]
  | cons d ds ih => simpa using ih

theorem lastNZ_concat_ne (l : List Nat) (a : Nat) (ha : a ≠ 0) :
    lastNZ (l ++ [a]) = l.length := by
  induction l with
  | nil => simp [lastNZ]
  | cons d ds ih =>
      have hany : ((ds ++ [a]).any (fun e => e ≠ 0)) = true :=
        List.any_eq_true.mpr ⟨a, by simp, by simpa using ha⟩
      simp only [List.cons_append, lastNZ_cons, if_pos hany, ih, List.length_cons]

theorem canonical_zeroBN (N : Nat) (hN : 0 < N) : Canonical N (zeroBN N) := by
  refine ⟨⟨by simp [zeroBN], ?_, by simpa [zeroBN]⟩, ?_, ?_⟩
  · intro d hd
    have := List.eq_of_mem_replicate hd
    omega
  · intro i _ _
    simp only [zeroBN, List.getD_eq_getElem?_getD, List.getElem?_replicate]
    split <;> simp
  · intro h
    exact absurd rfl h

theorem val_zeroBN (N : Nat) : val (zeroBN N) = 0 := by
  simp [val, zeroBN]

/-! Semantics of the addition carry loop. -/

theorem addD_len (as bs : List Nat) (c : Nat) :
    (addD as bs c).1.length = as.length := by
  induction as generalizing bs c with
  | nil => rfl
  | cons a as ih => simp [addD, ih]

theorem addD_spec (as bs : List Nat) (c : Nat) (hlen : bs.length ≤ as.length) :
    valL (addD as bs c).1 + 256 ^ as.length * (addD as bs c).2
      = valL as + valL bs + c := by
  induction as generalizing bs c with
  | nil =>
      have : bs = [] := List.length_eq_zero.mp (by simpa using hlen)
      subst this
      simp [addD]
  | cons a as ih =>
      have hlen' : bs.tail.length ≤ as.length := by
        cases bs <;> simp at hlen ⊢ <;> omega
      have := ih bs.tail ((a + bs.headD 0 + c) / 256) hlen'
      simp only [addD, valL_cons, List.length_cons, pow_succ]
      have hmod := Nat.mod_add_div (a + bs.headD 0 + c) 256
      have hbs := valL_headD_tail bs
      set t := a + bs.headD 0 + c with ht
      set r := addD as bs.tail (t / 256) with hr
      calc t % 256 + 256 * valL r.1 + 256 ^ as.length * 256 * r.2
          = t % 256 + 256 * (valL r.1 + 256 ^ as.length * r.2) := by ring
        _ = t % 256 + 256 * (valL as + valL bs.tail + t / 256) := by rw [this]
        _ = (t % 256 + 256 * (t / 256)) + 256 * valL as + 256 * valL bs.tail := by ring
        _ = t + 256 * valL as + 256 * valL bs.tail := by rw [hmod]
        _ = a + 256 * valL as + (bs.headD 0 + 256 * valL bs.tail) + c := by rw [ht]; ring
        _ = a + 256 * valL as + valL bs + c := by rw [hbs]

theorem addD_bounds (as bs : List Nat) (c : Nat)
    (has : ∀ d ∈ as, d < 256) (hbs : ∀ d ∈ bs, d < 256) (hc : c ≤ 1) :
    (∀ d ∈ (addD as bs c).1, d < 256) ∧ (addD as bs c).2 ≤ 1 := by
  induction as generalizing bs c with
  | nil => exact ⟨by simp [addD], by simpa [addD] using hc⟩
  | cons a as ih =>
      have ha : a < 256 := has a (by simp)
      have hhead : bs.headD 0 < 256 := by
        cases bs with
        | nil => simp
        | cons b bs' => exact hbs b (by simp)
      have htail : ∀ d ∈ bs.tail, d < 256 := by
        cases bs with
        | nil => simp
        | cons b bs' => exact fun d hd => hbs d (List.mem_cons_of_mem _ hd)
      have hdiv : (a + bs.headD 0 + c) / 256 ≤ 1 := by omega
      have := ih bs.tail ((a + bs.headD 0 + c) / 256)
        (fun d hd => has d (by simp [hd])) htail hdiv
      refine ⟨?_, this.2⟩
      intro d hd
      simp only [addD, List.mem_cons] at hd
      rcases hd with hd | hd
      · subst hd; exact Nat.mod_lt _ (by norm_num)
      · exact this.1 d hd

theorem addBody_spec (N : Nat) (L S : BignumFast) (hL : Canonical N L)
    (hS : Canonical N S) (hp : S.pos ≤ L.pos) :
    (val L + val S < 256 ^ N →
      ∃ c, addBody N L S = .ok c ∧ val c = val L + val S ∧ Canonical N c) ∧
    (256 ^ N ≤ val L + val S → addBody N L S = .error .overflow) := by
  have hLlen := take_len_canonical N L hL
  have hSlen := take_len_canonical N S hS
  have hlen : (S.digits.take (S.pos + 1)).length
      ≤ (L.digits.take (L.pos + 1)).length := by rw [hLlen, hSlen]; omega
  have hLwf : ∀ d ∈ L.digits.take (L.pos + 1), d < 256 :=
    fun d hd => hL.1.2.1 d (List.take_subset _ _ hd)
  have hSwf : ∀ d ∈ S.digits.take (S.pos + 1), d < 256 :=
    fun d hd => hS.1.2.1 d (List.take_subset _ _ hd)
  set p := addD (L.digits.take (L.pos + 1)) (S.digits.take (S.pos + 1)) 0
    with hpdef
  have hval : valL p.1 + 256 ^ (L.pos + 1) * p.2 = val L + val S := by
    have := addD_spec (L.digits.take (L.pos + 1)) (S.digits.take (S.pos + 1))
      0 hlen
    rw [hLlen] at this
    rw [hpdef, this, canonical_valL_take N L hL, canonical_valL_take N S hS]
    omega
  have hbounds := addD_bounds (L.digits.take (L.pos + 1))
    (S.digits.take (S.pos + 1)) 0 hLwf hSwf (by omega)
  rw [← hpdef] at hbounds
  have hp1len : p.1.length = L.pos + 1 := by rw [hpdef, addD_len, hLlen]
  have hvlt : valL p.1 < 256 ^ (L.pos + 1) := by
    have := valL_lt p.1 hbounds.1
    rwa [hp1len] at this
  have hposN : L.pos < N := hL.1.2.2
  have hmono : (256:Nat) ^ (L.pos + 1) ≤ 256 ^ N :=
    Nat.pow_le_pow_right (by norm_num) (by omega)
  constructor
  · intro hsum
    by_cases hcarry : p.2 = 0
    · rw [hcarry, Nat.mul_zero] at hval
      refine ⟨⟨p.1 ++ List.replicate (N - (L.pos + 1)) 0, L.pos⟩, ?_, ?_, ?_⟩
      · unfold addBody
        rw [← hpdef]
        simp [hcarry]
      · show valL _ = _
        rw [valL_mk]
        omega
      · have hvge : L.pos ≠ 0 → 256 ^ L.pos ≤ valL p.1 := by
          intro h0
          have := le_val_canonical N L hL h0
          omega
        have hcan := canonical_mk N p.1 (by omega)
          hbounds.1 (by intro h; rw [h] at hp1len; simp at hp1len)
        have hLNZ : lastNZ p.1 = L.pos := by
          by_cases h0 : L.pos = 0
          · rcases Nat.eq_zero_or_pos (lastNZ p.1) with h | h
            · omega
            · exfalso
              have h1 := lastNZ_getD_self p.1 (by omega)
              have h2 := lastNZ_lt_length p.1
                (by intro h'; rw [h'] at hp1len; simp at hp1len)
              rw [hp1len, h0] at h2
              omega
          · have h1 : 256 ^ L.pos ≤ valL p.1 := hvge h0
            have h2 : p.1.getD L.pos 0 ≠ 0 := by
              rw [valL_getD p.1 hbounds.1 L.pos]
              have hlow : 1 ≤ valL p.1 / 256 ^ L.pos :=
                (Nat.one_le_div_iff (by positivity)).mpr h1
              have hhigh : valL p.1 / 256 ^ L.pos < 256 := by
                have hmul : valL p.1 < 256 ^ L.pos * 256 := by
                  have hps : (256:Nat) ^ (L.pos + 1) = 256 ^ L.pos * 256 :=
                    pow_succ _ _
                  omega
                exact Nat.div_lt_of_lt_mul hmul
              rw [Nat.mod_eq_of_lt hhigh]
              omega
            by_contra hne
            rcases Nat.lt_or_ge (lastNZ p.1) L.pos with h | h
            · exact h2 (lastNZ_getD_zero p.1 L.pos (by omega))
            · have := lastNZ_lt_length p.1
                (by intro h'; rw [h'] at hp1len; simp at hp1len)
              rw [hp1len] at this
              omega
        rw [← hp1len, ← hLNZ]
        exact canonical_mk N p.1 (by omega) hbounds.1
          (by intro h'; rw [h'] at hp1len; simp at hp1len)
    · have hc1 : p.2 = 1 := by have := hbounds.2; omega
      rw [hc1, Nat.mul_one] at hval
      have hnotN : L.pos + 1 ≠ N := by
        intro hN
        rw [hN] at hval
        omega
      have hrw : (p.1 ++ List.replicate (N - (L.pos + 1)) 0).set (L.pos + 1) 1
          = (p.1 ++ [1]) ++ List.replicate (N - (L.pos + 1) - 1) 0 := by
        have := set_append_replicate p.1 (N - (L.pos + 1)) 1 (by omega)
        rw [hp1len] at this
        exact this
      refine ⟨⟨(p.1 ++ List.replicate (N - (L.pos + 1)) 0).set (L.pos + 1) 1,
        L.pos + 1⟩, ?_, ?_, ?_⟩
      · unfold addBody
        rw [← hpdef, hc1]
        simp [hnotN]
      · show valL _ = _
        rw [hrw, valL_mk, valL_append, hp1len]
        simp only [valL_cons, valL_nil]
        omega
      · rw [hrw]
        have hLNZ2 : lastNZ (p.1 ++ [1]) = L.pos + 1 := by
          rw [lastNZ_concat_ne p.1 1 (by omega), hp1len]
        have hlen2 : (p.1 ++ [1]).length = L.pos + 2 := by simp [hp1len]
        have := canonical_mk N (p.1 ++ [1]) (by omega)
          (by
            intro d hd
            rcases List.mem_append.mp hd with hd | hd
            · exact hbounds.1 d hd
            · simp at hd; omega)
          (by simp)
        rw [hLNZ2, hlen2] at this
        have hNN : N - (L.pos + 1) - 1 = N - (L.pos + 2) := by omega
        rw [hNN]
        exact this
  · intro hsum
    have hc1 : p.2 = 1 := by
      rcases Nat.eq_zero_or_pos p.2 with h | h
      · rw [h, Nat.mul_zero] at hval; omega
      · have := hbounds.2; omega
    rw [hc1, Nat.mul_one] at hval
    have hN : L.pos + 1 = N := by
      by_contra hne
      have h2 : (256:Nat) ^ (L.pos + 2) ≤ 256 ^ N :=
        Nat.pow_le_pow_right (by norm_num) (by omega)
      have h1 : val L + val S < 256 ^ (L.pos + 1) * 2 := by omega
      have h3 : (256:Nat) ^ (L.pos + 1) * 2 ≤ 256 ^ (L.pos + 2) := by
        rw [pow_succ]
        have h4 : (2:Nat) ≤ 256 := by norm_num
        exact Nat.mul_le_mul_left _ h4
      omega
    unfold addBody
    rw [← hpdef]
    simp [hc1, hN]

theorem add_ref_ok (N : Nat) (a b : BignumFast) (ha : Canonical N a)
    (hb : Canonical N b) (hsum : val a + val b < 256 ^ N) :
    ∃ c, add_ref N a b = .ok c ∧ val c = val a + val b ∧ Canonical N c := by
  unfold add_ref
  by_cases hp : a.pos > b.pos
  · simp only [if_pos hp]
    exact (addBody_spec N a b ha hb (by omega)).1 hsum
  · simp only [if_neg hp]
    obtain ⟨c, h1, h2, h3⟩ := (addBody_spec N b a hb ha (by omega)).1 (by omega)
    exact ⟨c, h1, by omega, h3⟩

theorem add_ref_overflow (N : Nat) (a b : BignumFast) (ha : Canonical N a)
    (hb : Canonical N b) (hsum : 256 ^ N ≤ val a + val b) :
    add_ref N a b = .error .overflow := by
  unfold add_ref
  by_cases hp : a.pos > b.pos
  · simp only [if_pos hp]
    exact (addBody_spec N a b ha hb (by omega)).2 hsum
  · simp only [if_neg hp]
    exact (addBody_spec N b a hb ha (by omega)).2 (by omega)

/-! Semantics of the subtraction borrow loop. -/

theorem subD_len (as bs : List Nat) (brw : Nat) :
    (subD as bs brw).1.length = as.length := by
  induction as generalizing bs brw with
  | nil => rfl
  | cons a as ih => simp [subD, ih]

theorem subStep_spec (a b brw : Nat) (ha : a < 256) (hb : b < 256)
    (hbrw : brw ≤ 2) :
    ((subStep a b brw).1 : Int) + b + brw
        = a + 256 * ((subStep a b brw).2 : Int) ∧
      (subStep a b brw).1 < 256 ∧ (subStep a b brw).2 ≤ 2 := by
  unfold subStep
  by_cases h1 : a < brw
  · by_cases h2 : a + 256 - brw < b
    · simp only [if_pos h1, if_pos h2]
      refine ⟨?_, by omega, by omega⟩
      push_cast
      omega
    · simp only [if_pos h1, if_neg h2]
      refine ⟨?_, by omega, by omega⟩
      push_cast
      omega
  · by_cases h2 : a - brw < b
    · simp only [if_neg h1, if_pos h2]
      refine ⟨?_, by omega, by omega⟩
      push_cast
      omega
    · simp only [if_neg h1, if_neg h2]
      refine ⟨?_, by omega, by omega⟩
      push_cast
      omega

theorem subD_spec (as bs : List Nat) (brw : Nat)
    (hlen : bs.length ≤ as.length) (has : ∀ d ∈ as, d < 256)
    (hbs : ∀ d ∈ bs, d < 256) (hbrw : brw ≤ 2) :
    ((valL (subD as bs brw).1 : Int)
        = valL as - valL bs - brw
          + 256 ^ as.length * ((subD as bs brw).2 : Int)) ∧
      (∀ d ∈ (subD as bs brw).1, d < 256) ∧ (subD as bs brw).2 ≤ 2 := by
  induction as generalizing bs brw with
  | nil =>
      have : bs = [] := List.length_eq_zero.mp (by simpa using hlen)
      subst this
      refine ⟨?_, by simp [subD], by simpa [subD] using hbrw⟩
      simp [subD]
  | cons a as ih =>
      have ha : a < 256 := has a (by simp)
      have hhead : bs.headD 0 < 256 := by
        cases bs with
        | nil => simp
        | cons b bs' => exact hbs b (by simp)
      have htail : ∀ d ∈ bs.tail, d < 256 := by
        cases bs with
        | nil => simp
        | cons b bs' => exact fun d hd => hbs d (List.mem_cons_of_mem _ hd)
      have hlen' : bs.tail.length ≤ as.length := by
        cases bs <;> simp at hlen ⊢ <;> omega
      obtain ⟨hstep, hs1, hs2⟩ := subStep_spec a (bs.headD 0) brw ha hhead hbrw
      obtain ⟨hival, hibd, hic⟩ := ih bs.tail (subStep a (bs.headD 0) brw).2
        hlen' (fun d hd => has d (List.mem_cons_of_mem _ hd)) htail hs2
      have hbsval : (valL bs : Int) = bs.headD 0 + 256 * valL bs.tail := by
        have := valL_headD_tail bs
        push_cast [← this]
        ring
      have hsub1 : (subD (a :: as) bs brw).1
          = (subStep a (bs.headD 0) brw).1
            :: (subD as bs.tail (subStep a (bs.headD 0) brw).2).1 := rfl
      have hsub2 : (subD (a :: as) bs brw).2
          = (subD as bs.tail (subStep a (bs.headD 0) brw).2).2 := rfl
      refine ⟨?_, ?_, by rw [hsub2]; exact hic⟩
      · have hexp : ((subStep a (bs.headD 0) brw).1 : Int)
            = a - bs.headD 0 - brw + 256 * (subStep a (bs.headD 0) brw).2 := by
          omega
        rw [hsub1, hsub2]
        push_cast [valL_cons, List.length_cons, pow_succ]
        push_cast [List.length_cons, pow_succ] at hival
        rw [hexp, hival, hbsval]
        ring
      · rw [hsub1]
        intro d hd
        rcases List.mem_cons.mp hd with hd | hd
        · exact hd ▸ hs1
        · exact hibd d hd

theorem subCore_spec (N : Nat) (a b : BignumFast) (ha : Canonical N a)
    (hb : Canonical N b) (hle : val b ≤ val a) :
    val (subCore N a b) = val a - val b ∧ Canonical N (subCore N a b) := by
  have hpos : b.pos ≤ a.pos := by
    by_contra hgt
    have h1 : val b ≥ 256 ^ b.pos := le_val_canonical N b hb (by omega)
    have h2 : val a < 256 ^ (a.pos + 1) := val_lt_canonical N a ha
    have h3 : (256:Nat) ^ (a.pos + 1) ≤ 256 ^ b.pos :=
      Nat.pow_le_pow_right (by norm_num) (by omega)
    omega
  have hAlen := take_len_canonical N a ha
  have hBlen := take_len_canonical N b hb
  have hAwf : ∀ d ∈ a.digits.take (a.pos + 1), d < 256 :=
    fun d hd => ha.1.2.1 d (List.take_subset _ _ hd)
  have hBwf : ∀ d ∈ b.digits.take (b.pos + 1), d < 256 :=
    fun d hd => hb.1.2.1 d (List.take_subset _ _ hd)
  obtain ⟨hival, hbd, hc⟩ := subD_spec (a.digits.take (a.pos + 1))
    (b.digits.take (b.pos + 1)) 0 (by rw [hAlen, hBlen]; omega) hAwf hBwf
    (by omega)
  rw [hAlen, canonical_valL_take N a ha, canonical_valL_take N b hb] at hival
  set res := (subD (a.digits.take (a.pos + 1)) (b.digits.take (b.pos + 1)) 0).1
    with hres
  set B2 := (subD (a.digits.take (a.pos + 1)) (b.digits.take (b.pos + 1)) 0).2
    with hB2
  have hreslen : res.length = a.pos + 1 := by rw [hres, subD_len, hAlen]
  have hresval : valL res < 256 ^ (a.pos + 1) := by
    have := valL_lt res hbd
    rwa [hreslen] at this
  have hB0 : B2 = 0 := by
    by_contra hne0
    have h1 : 1 ≤ B2 := Nat.one_le_iff_ne_zero.mpr hne0
    have h4 : (valL res : Int) < (256:Int) ^ (a.pos + 1) := by
      exact_mod_cast hresval
    have h5 : (val b : Int) ≤ (val a : Int) := by exact_mod_cast hle
    have hbig : (256:Int) ^ (a.pos + 1) ≤ (256:Int) ^ (a.pos + 1) * (B2 : Int) := by
      have h6 : (1:Int) ≤ (B2:Int) := by exact_mod_cast h1
      nlinarith [pow_pos (show (0:Int) < 256 by norm_num) (a.pos + 1)]
    omega
  rw [hB0] at hival
  push_cast at hival
  have hval : valL res = val a - val b := by omega
  have hne : res ≠ [] := by
    intro h
    rw [h] at hreslen
    simp at hreslen
  have hsubeq : subCore N a b
      = ⟨res ++ List.replicate (N - (a.pos + 1)) 0, lastNZ res⟩ := by
    rw [subCore, hres]
  rw [hsubeq]
  constructor
  · show valL _ = _
    rw [valL_mk, hval]
  · have hcm := canonical_mk N res
      (by have := ha.1.2.2; omega) hbd hne
    rw [hreslen] at hcm
    exact hcm

theorem sub_ref_ok (N : Nat) (a b : BignumFast) (ha : Canonical N a)
    (hb : Canonical N b) (hle : val b ≤ val a) (hN : 0 < N) :
    ∃ c, sub_ref N a b = .ok c ∧ val c = val a - val b ∧ Canonical N c := by
  unfold sub_ref
  rw [partialCmpBF_eq_compare N a b ha hb]
  rcases Nat.lt_or_ge (val b) (val a) with hlt | hge
  · rw [Nat.compare_eq_gt.mpr hlt]
    obtain ⟨h1, h2⟩ := subCore_spec N a b ha hb hle
    exact ⟨subCore N a b, rfl, h1, h2⟩
  · have heq : val a = val b := by omega
    rw [Nat.compare_eq_eq.mpr heq]
    refine ⟨zeroBN N, rfl, ?_, canonical_zeroBN N hN⟩
    rw [val_zeroBN]
    omega

theorem sub_ref_underflow (N : Nat) (a b : BignumFast) (ha : Canonical N a)
    (hb : Canonical N b) (hlt : val a < val b) :
    sub_ref N a b = .error .underflow := by
  unfold sub_ref
  rw [partialCmpBF_eq_compare N a b ha hb, Nat.compare_eq_lt.mpr hlt]

/-! Bitwise facts on bytes, settled by finite enumeration. -/

theorem lor_pow_eq_add : ∀ d < 256, ∀ k < 8, d / 2 ^ k % 2 = 0 →
    d ||| 2 ^ k = d + 2 ^ k ∧ d + 2 ^ k < 256 := by decide

theorem land_mask_of_clear : ∀ d < 256, ∀ k < 8, d / 2 ^ k % 2 = 0 →
    d &&& (255 - 2 ^ k) = d := by decide

theorem lor_double_carry : ∀ d < 256, ∀ c ≤ 1,
    d * 2 % 256 ||| c = d * 2 % 256 + c := by decide

theorem lor_half_carry : ∀ a < 128, ∀ b ≤ 1,
    a ||| b * 128 = a + b * 128 := by decide

theorem mul128_mod : ∀ e < 256, e * 128 % 256 = e % 2 * 128 := by decide

theorem beq_eq_decide (a b : Nat) : (a == b) = decide (a = b) := by
  by_cases h : a = b <;> simp [h]

/-! Bit positions against the base-256 digit string. -/

theorem div_pow_mod_two (n i : Nat) :
    n / 2 ^ i % 2 = if n.testBit i then 1 else 0 := by
  rw [Nat.testBit_to_div_mod]
  rcases Nat.mod_two_eq_zero_or_one (n / 2 ^ i) with h | h <;> simp [h]

theorem mod256_div_bit (w r : Nat) (hr : r < 8) :
    w % 256 / 2 ^ r % 2 = w / 2 ^ r % 2 := by
  rw [div_pow_mod_two, div_pow_mod_two, show (256:Nat) = 2 ^ 8 from rfl,
    Nat.testBit_mod_two_pow]
  simp [hr]

theorem pow_bit_decomp (p : Nat) : 256 ^ (p / 8) * 2 ^ (p % 8) = 2 ^ p := by
  rw [show (256:Nat) = 2 ^ 8 from rfl, ← pow_mul, ← pow_add]
  congr 1
  omega

theorem getD_bit (l : List Nat) (hwf : ∀ d ∈ l, d < 256) (p : Nat) :
    l.getD (p / 8) 0 / 2 ^ (p % 8) % 2 = valL l / 2 ^ p % 2 := by
  rw [valL_getD l hwf (p / 8), mod256_div_bit _ _ (Nat.mod_lt _ (by norm_num))]
  rw [Nat.div_div_eq_div_mul, pow_bit_decomp]

theorem getD_all_zero (l : List Nat) (h : ∀ d ∈ l, d = 0) (i : Nat) :
    l.getD i 0 = 0 := by
  rcases Nat.lt_or_ge i l.length with hi | hi
  · rw [List.getD_eq_getElem l 0 hi]
    exact h _ (List.getElem_mem hi)
  · exact getD_length_le l i hi

theorem canonical_drop_zero (N : Nat) (x : BignumFast) (h : Canonical N x) :
    ∀ d ∈ x.digits.drop (x.pos + 1), d = 0 := by
  intro d hd
  obtain ⟨i, hi, rfl⟩ := List.getElem_of_mem hd
  rw [List.getElem_drop]
  have hlt : x.pos + 1 + i < N := by
    have := hi
    simp only [List.length_drop, h.1.1] at this
    omega
  have h2 := h.2.1 (x.pos + 1 + i) hlt (by omega)
  rw [List.getD_eq_getElem _ 0 (by rw [h.1.1]; exact hlt)] at h2
  exact h2

theorem set_getD_self (l : List Nat) (j : Nat) :
    l.set j (l.getD j 0) = l := by
  induction l generalizing j with
  | nil => rfl
  | cons d ds ih =>
      cases j with
      | zero => rfl
      | succ j => simpa using ih j

theorem lastNZ_take_canonical (N : Nat) (x : BignumFast) (hx : Canonical N x) :
    lastNZ (x.digits.take (x.pos + 1)) = x.pos := by
  by_cases h0 : x.pos = 0
  · rw [h0]
    cases hd : x.digits with
    | nil => rfl
    | cons e es => simp [lastNZ]
  · have hpos : x.pos < x.digits.length := by rw [hx.1.1]; exact hx.1.2.2
    have hsucc : x.digits.take (x.pos + 1)
        = x.digits.take x.pos ++ [x.digits[x.pos]] := by
      rw [List.take_succ, List.getElem?_eq_getElem hpos]
      rfl
    have hne : x.digits[x.pos] ≠ 0 := by
      have := hx.2.2 h0
      rwa [List.getD_eq_getElem _ 0 hpos] at this
    rw [hsucc, lastNZ_concat_ne _ _ hne, List.length_take]
    omega

/-! Semantics of shl by one bit (the only shift amount the division loop
uses). -/

theorem shlLoop_len (s : Nat) (ds : List Nat) (c : Nat) :
    (shlLoop s ds c).1.length = ds.length := by
  induction ds generalizing c with
  | nil => rfl
  | cons d ds ih => simp [shlLoop, ih]

theorem shlLoop_one_spec (ds : List Nat) (c : Nat)
    (hds : ∀ d ∈ ds, d < 256) (hc : c ≤ 1) :
    valL (shlLoop 1 ds c).1 + 256 ^ ds.length * (shlLoop 1 ds c).2
        = 2 * valL ds + c ∧
      (∀ d ∈ (shlLoop 1 ds c).1, d < 256) ∧ (shlLoop 1 ds c).2 ≤ 1 := by
  induction ds generalizing c with
  | nil => exact ⟨by simp [shlLoop], by simp [shlLoop], by simpa [shlLoop] using hc⟩
  | cons d ds ih =>
      have hd : d < 256 := hds d (by simp)
      have hcout : d / 2 ^ (8 - 1) ≤ 1 := by
        have : (2:Nat) ^ (8 - 1) = 128 := by norm_num
        rw [this]
        omega
      obtain ⟨ihv, ihb, ihc⟩ := ih (d / 2 ^ (8 - 1))
        (fun e he => hds e (List.mem_cons_of_mem _ he)) hcout
      have hlor : d * 2 ^ 1 % 256 ||| c = d * 2 % 256 + c := by
        have h1 : d * 2 ^ 1 = d * 2 := by norm_num
        rw [h1]
        exact lor_double_carry d hd c hc
      have h1 : (shlLoop 1 (d :: ds) c).1
          = (d * 2 ^ 1 % 256 ||| c) :: (shlLoop 1 ds (d / 2 ^ (8 - 1))).1 := rfl
      have h2 : (shlLoop 1 (d :: ds) c).2
          = (shlLoop 1 ds (d / 2 ^ (8 - 1))).2 := rfl
      refine ⟨?_, ?_, by rw [h2]; exact ihc⟩
      · rw [h1, h2, valL_cons, hlor]
        simp only [List.length_cons, pow_succ]
        have hsplit : d * 2 = d * 2 % 256 + 256 * (d / 2 ^ (8 - 1)) := by
          have h128 : (2:Nat) ^ (8 - 1) = 128 := by norm_num
          rw [h128]
          omega
        calc d * 2 % 256 + c + 256 * valL (shlLoop 1 ds (d / 2 ^ (8 - 1))).1
              + 256 ^ ds.length * 256 * (shlLoop 1 ds (d / 2 ^ (8 - 1))).2
            = d * 2 % 256 + c + 256 * (valL (shlLoop 1 ds (d / 2 ^ (8 - 1))).1
              + 256 ^ ds.length * (shlLoop 1 ds (d / 2 ^ (8 - 1))).2) := by ring
          _ = d * 2 % 256 + c + 256 * (2 * valL ds + d / 2 ^ (8 - 1)) := by rw [ihv]
          _ = (d * 2 % 256 + 256 * (d / 2 ^ (8 - 1))) + c + 512 * valL ds := by ring
          _ = d * 2 + c + 512 * valL ds := by rw [← hsplit]
          _ = 2 * (d + 256 * valL ds) + c := by ring
          _ = 2 * valL (d :: ds) + c := by rw [valL_cons]
      · rw [h1]
        intro e he
        rcases List.mem_cons.mp he with he | he
        · rw [he, hlor]
          have : d * 2 % 256 < 256 := Nat.mod_lt _ (by norm_num)
          have heven : d * 2 % 256 % 2 = 0 := by omega
          omega
        · exact ihb e he

theorem map_getD_range (l : List Nat) (N : Nat) (h : l.length = N) :
    (List.range N).map (fun i => l.getD i 0) = l := by
  apply List.ext_getElem (by simp [h])
  intro n h1 h2
  simp only [List.getElem_map, List.getElem_range]
  rw [List.getD_eq_getElem l 0 h2]

theorem digit_top_ne_zero (l : List Nat) (p : Nat) (hwf : ∀ d ∈ l, d < 256)
    (hlo : 256 ^ p ≤ valL l) (hhi : valL l < 256 ^ (p + 1)) :
    l.getD p 0 ≠ 0 := by
  rw [valL_getD l hwf p]
  have hlow : 1 ≤ valL l / 256 ^ p := (Nat.one_le_div_iff (by positivity)).mpr hlo
  have hhigh : valL l / 256 ^ p < 256 := by
    have hmul : valL l < 256 ^ p * 256 := by
      have hps : (256:Nat) ^ (p + 1) = 256 ^ p * 256 := pow_succ _ _
      omega
    exact Nat.div_lt_of_lt_mul hmul
  rw [Nat.mod_eq_of_lt hhigh]
  omega

theorem shlBytes_one (N : Nat) (x : BignumFast) : shlBytes N x 1 = 0 := by
  unfold shlBytes
  split <;> rfl

theorem shlMoved_zero (N : Nat) (x : BignumFast) : shlMoved N x 0 = x.digits := by
  unfold shlMoved
  simp

theorem shlWindow_one (N : Nat) (x : BignumFast) :
    shlWindow N x 1 = shlLoop 1 (x.digits.take (x.pos + 1)) 0 := by
  unfold shlWindow
  rw [shlBytes_one, shlMoved_zero]
  norm_num

theorem shl_one_spec (N : Nat) (x : BignumFast) (hx : Canonical N x)
    (hover : 2 * val x < 256 ^ N) :
    val (shl N x 1) = 2 * val x ∧ Canonical N (shl N x 1)
      ∧ (shl N x 1).pos ≤ x.pos + 1 := by
  have hb := shlBytes_one N x
  have hw := shlWindow_one N x
  have hdswf : ∀ d ∈ x.digits.take (x.pos + 1), d < 256 :=
    fun d hd => hx.1.2.1 d (List.take_subset _ _ hd)
  have hdslen : (x.digits.take (x.pos + 1)).length = x.pos + 1 :=
    take_len_canonical N x hx
  obtain ⟨hwv, hwb, hwc⟩ := shlLoop_one_spec (x.digits.take (x.pos + 1)) 0
    hdswf (by omega)
  rw [hdslen, canonical_valL_take N x hx] at hwv
  set w := shlLoop 1 (x.digits.take (x.pos + 1)) 0 with hwdef
  have hdropz : ∀ d ∈ x.digits.drop (x.pos + 1), d = 0 := canonical_drop_zero N x hx
  have hdropvalL : valL (x.digits.drop (x.pos + 1)) = 0 :=
    (valL_eq_zero_iff _).mpr hdropz
  have hw1len : w.1.length = x.pos + 1 := by rw [hwdef, shlLoop_len, hdslen]
  have hdiglen : x.digits.length = N := hx.1.1
  have hposN : x.pos < N := hx.1.2.2
  have hdroplen : (x.digits.drop (x.pos + 1)).length = N - (x.pos + 1) := by
    simp [hdiglen]
  have hbase : (shlMoved N x (shlBytes N x 1)).take (shlBytes N x 1)
        ++ (shlWindow N x 1).1
        ++ (shlMoved N x (shlBytes N x 1)).drop (x.pos + 1 + shlBytes N x 1)
      = w.1 ++ x.digits.drop (x.pos + 1) := by
    rw [hb, shlMoved_zero, hw]
    simp
  have hbaselen : (w.1 ++ x.digits.drop (x.pos + 1)).length = N := by
    rw [List.length_append, hw1len, hdroplen]
    omega
  have hbaseval : valL (w.1 ++ x.digits.drop (x.pos + 1)) = valL w.1 := by
    rw [valL_append, hw1len, hdropvalL]
    omega
  have hbasewf : ∀ d ∈ w.1 ++ x.digits.drop (x.pos + 1), d < 256 := by
    intro d hd
    rcases List.mem_append.mp hd with hd | hd
    · exact hwb d hd
    · rw [hdropz d hd]; omega
  have hw1lt : valL w.1 < 256 ^ (x.pos + 1) := by
    have := valL_lt w.1 hwb
    rwa [hw1len] at this
  by_cases hc : w.2 = 0
  · rw [hc, Nat.mul_zero] at hwv
    have hval0 : valL w.1 = 2 * val x := by omega
    have hres : shl N x 1 = ⟨w.1 ++ x.digits.drop (x.pos + 1), x.pos⟩ := by
      unfold shl
      rw [hbase, hw, hb]
      rw [if_neg (by simp [hc])]
      norm_num
    rw [hres]
    refine ⟨by simpa [val] using hbaseval.trans hval0, ⟨⟨hbaselen, hbasewf, hposN⟩,
      ?_, ?_⟩, by show x.pos ≤ x.pos + 1; omega⟩
    · show ∀ i, i < N → x.pos < i → (w.1 ++ x.digits.drop (x.pos + 1)).getD i 0 = 0
      intro i hiN hi
      rw [List.getD_append_right _ _ _ _ (by omega)]
      exact getD_all_zero _ hdropz _
    · show x.pos ≠ 0 → (w.1 ++ x.digits.drop (x.pos + 1)).getD x.pos 0 ≠ 0
      intro h0
      have hgd : (w.1 ++ x.digits.drop (x.pos + 1)).getD x.pos 0
          = w.1.getD x.pos 0 := List.getD_append _ _ _ _ (by omega)
      rw [hgd]
      apply digit_top_ne_zero w.1 x.pos hwb
      · have hv := le_val_canonical N x hx h0
        omega
      · exact hw1lt
  · have hc1 : w.2 = 1 := by omega
    rw [hc1, Nat.mul_one] at hwv
    have hroom : x.pos + 1 < N := by
      have h256 : (256:Nat) ^ (x.pos + 1) < 256 ^ N := by omega
      exact (Nat.pow_lt_pow_iff_right (by norm_num)).mp h256
    have hgd0 : (w.1 ++ x.digits.drop (x.pos + 1)).getD (x.pos + 1) 0 = 0 := by
      rw [List.getD_append_right _ _ _ _ (by omega)]
      exact getD_all_zero _ hdropz _
    have hres : shl N x 1
        = ⟨(w.1 ++ x.digits.drop (x.pos + 1)).set (x.pos + 1) w.2, x.pos + 1⟩ := by
      unfold shl
      rw [hbase, hw, hb]
      rw [if_pos (And.intro hc (by omega))]
    rw [hres, hc1]
    have hvset := valL_set (w.1 ++ x.digits.drop (x.pos + 1)) (x.pos + 1) 1
      (by omega)
    rw [hgd0] at hvset
    simp only [Nat.zero_mul, Nat.one_mul, Nat.add_zero] at hvset
    refine ⟨?_, ⟨⟨?_, ?_, by show x.pos + 1 < N; omega⟩, ?_, ?_⟩,
      by show x.pos + 1 ≤ x.pos + 1; omega⟩
    · show valL ((w.1 ++ x.digits.drop (x.pos + 1)).set (x.pos + 1) 1) = 2 * val x
      omega
    · show ((w.1 ++ x.digits.drop (x.pos + 1)).set (x.pos + 1) 1).length = N
      rw [List.length_set]
      exact hbaselen
    · show ∀ d ∈ (w.1 ++ x.digits.drop (x.pos + 1)).set (x.pos + 1) 1, d < 256
      intro d hd
      rcases List.mem_or_eq_of_mem_set hd with hd | hd
      · exact hbasewf d hd
      · omega
    · show ∀ i, i < N → x.pos + 1 < i →
        ((w.1 ++ x.digits.drop (x.pos + 1)).set (x.pos + 1) 1).getD i 0 = 0
      intro i hiN hi
      rw [getD_set_ne _ _ _ _ (by omega)]
      rw [List.getD_append_right _ _ _ _ (by omega)]
      exact getD_all_zero _ hdropz _
    · show x.pos + 1 ≠ 0 →
        ((w.1 ++ x.digits.drop (x.pos + 1)).set (x.pos + 1) 1).getD (x.pos + 1) 0 ≠ 0
      intro _
      rw [getD_set_eq _ _ _ (by omega)]
      omega

/-! Semantics of shr by one bit (the only shift amount pow_mod uses). -/

theorem shrLoop_one_spec (ds : List Nat) (hds : ∀ d ∈ ds, d < 256) :
    valL (shrLoop 1 ds) = valL ds / 2 ∧
      (∀ d ∈ shrLoop 1 ds, d < 256) ∧ (shrLoop 1 ds).length = ds.length := by
  induction ds with
  | nil => exact ⟨rfl, by simp [shrLoop], rfl⟩
  | cons d ds ih =>
      have hd : d < 256 := hds d (by simp)
      cases ds with
      | nil =>
          refine ⟨?_, ?_, rfl⟩
          · show valL [d / 2 ^ 1] = valL [d] / 2
            simp only [valL_cons, valL_nil]
            norm_num
          · intro e he
            simp only [shrLoop, List.mem_singleton] at he
            subst he
            have : (2:Nat) ^ 1 = 2 := by norm_num
            omega
      | cons e rest =>
          have he : e < 256 := hds e (by simp)
          obtain ⟨ihv, ihb, ihl⟩ := ih (fun f hf => hds f (List.mem_cons_of_mem _ hf))
          have hlor : d / 2 ^ 1 ||| e * 2 ^ (8 - 1) % 256
              = d / 2 + e % 2 * 128 := by
            have h1 : (2:Nat) ^ 1 = 2 := by norm_num
            have h2 : (2:Nat) ^ (8 - 1) = 128 := by norm_num
            rw [h1, h2, mul128_mod e he]
            exact lor_half_carry (d / 2) (by omega) (e % 2) (by omega)
          have hstep : shrLoop 1 (d :: e :: rest)
              = (d / 2 ^ 1 ||| e * 2 ^ (8 - 1) % 256) :: shrLoop 1 (e :: rest) := rfl
          refine ⟨?_, ?_, by rw [hstep]; simp [ihl]⟩
          · rw [hstep, valL_cons, hlor, ihv]
            show d / 2 + e % 2 * 128 + 256 * (valL (e :: rest) / 2)
                = valL (d :: e :: rest) / 2
            simp only [valL_cons]
            omega
          · rw [hstep]
            intro f hf
            rcases List.mem_cons.mp hf with hf | hf
            · rw [hf, hlor]; omega
            · exact ihb f hf

theorem shrMoved_zero (N : Nat) (x : BignumFast) (hlen : x.digits.length = N) :
    shrMoved N x 0 = x.digits := by
  unfold shrMoved
  have : (fun i => if i < x.pos + 1 then x.digits.getD (i + 0) 0
      else x.digits.getD i 0) = fun i => x.digits.getD i 0 := by
    funext i
    split <;> rfl
  rw [this, map_getD_range x.digits N hlen]

theorem shr_one_spec (N : Nat) (x : BignumFast) (hx : Canonical N x) :
    ∃ y, shr N x 1 = .ok y ∧ val y = val x / 2 ∧ Canonical N y ∧ y.pos ≤ x.pos := by
  have hposN : x.pos < N := hx.1.2.2
  have hdiglen : x.digits.length = N := hx.1.1
  have hm : shrMoved N x (1 / 8) = x.digits := by
    rw [show (1:Nat) / 8 = 0 from rfl, shrMoved_zero N x hdiglen]
  have hdswf : ∀ d ∈ x.digits.take (x.pos + 1), d < 256 :=
    fun d hd => hx.1.2.1 d (List.take_subset _ _ hd)
  have hdslen : (x.digits.take (x.pos + 1)).length = x.pos + 1 :=
    take_len_canonical N x hx
  obtain ⟨hwv, hwb, hwl⟩ := shrLoop_one_spec (x.digits.take (x.pos + 1)) hdswf
  rw [canonical_valL_take N x hx] at hwv
  rw [hdslen] at hwl
  have hdropz : ∀ d ∈ x.digits.drop (x.pos + 1), d = 0 := canonical_drop_zero N x hx
  have hdropvalL : valL (x.digits.drop (x.pos + 1)) = 0 :=
    (valL_eq_zero_iff _).mpr hdropz
  have hdroplen : (x.digits.drop (x.pos + 1)).length = N - (x.pos + 1) := by
    simp [hdiglen]
  set base := shrLoop 1 (x.digits.take (x.pos + 1)) ++ x.digits.drop (x.pos + 1)
    with hbasedef
  have hbaselen : base.length = N := by
    rw [hbasedef, List.length_append, hwl, hdroplen]
    omega
  have hbaseval : valL base = val x / 2 := by
    rw [hbasedef, valL_append, hwl, hdropvalL, hwv]
    omega
  have hbasewf : ∀ d ∈ base, d < 256 := by
    intro d hd
    rcases List.mem_append.mp hd with hd | hd
    · exact hwb d hd
    · rw [hdropz d hd]; omega
  have hbasehigh : ∀ i, x.pos < i → base.getD i 0 = 0 := by
    intro i hi
    rw [hbasedef, List.getD_append_right _ _ _ _ (by omega)]
    exact getD_all_zero _ hdropz _
  have hvlt : valL base < 256 ^ (x.pos + 1) := by
    have h1 : val x < 256 ^ (x.pos + 1) := val_lt_canonical N x hx
    have h2 : val x / 2 ≤ val x := Nat.div_le_self _ _
    omega
  have hshr : shr N x 1 = .ok ⟨base,
      if base.getD (x.pos - 1 / 8) 0 = 0 ∧ 0 < x.pos - 1 / 8 then x.pos - 1 / 8 - 1
      else x.pos - 1 / 8⟩ := by
    unfold shr
    rw [if_neg (by omega), if_neg (by omega), if_neg (by norm_num)]
    rw [hm, ← hbasedef]
  rw [show x.pos - 1 / 8 = x.pos from rfl] at hshr
  by_cases htop : base.getD x.pos 0 = 0 ∧ 0 < x.pos
  · refine ⟨⟨base, x.pos - 1⟩, by rw [hshr, if_pos htop], hbaseval, ⟨⟨hbaselen,
      hbasewf, by show x.pos - 1 < N; omega⟩, ?_, ?_⟩,
      by show x.pos - 1 ≤ x.pos; omega⟩
    · show ∀ i, i < N → x.pos - 1 < i → base.getD i 0 = 0
      intro i hiN hi
      rcases Nat.lt_or_ge x.pos i with h | h
      · exact hbasehigh i h
      · have : i = x.pos := by omega
        rw [this]
        exact htop.1
    · show x.pos - 1 ≠ 0 → base.getD (x.pos - 1) 0 ≠ 0
      intro h0
      have hWlt : valL base < 256 ^ x.pos := by
        have h1 := valL_getD base hbasewf x.pos
        rw [htop.1] at h1
        have h2 : valL base / 256 ^ x.pos < 256 := by
          have hps : (256:Nat) ^ (x.pos + 1) = 256 ^ x.pos * 256 := pow_succ _ _
          exact Nat.div_lt_of_lt_mul (by omega)
        have h3 : valL base / 256 ^ x.pos = 0 := by
          rw [Nat.mod_eq_of_lt h2] at h1
          omega
        by_contra hge
        have h5 : 1 ≤ valL base / 256 ^ x.pos :=
          (Nat.one_le_div_iff (show 0 < 256 ^ x.pos by positivity)).mpr (by omega)
        omega
      apply digit_top_ne_zero base (x.pos - 1) hbasewf
      · have hvx : 256 ^ x.pos ≤ val x := le_val_canonical N x hx (by omega)
        have hps : (256:Nat) ^ x.pos = 256 ^ (x.pos - 1) * 256 := by
          rw [← pow_succ]
          congr 1
          omega
        rw [hbaseval]
        have : 256 ^ (x.pos - 1) * 128 ≤ val x / 2 := by
          rw [Nat.le_div_iff_mul_le (by norm_num)]
          calc 256 ^ (x.pos - 1) * 128 * 2 = 256 ^ (x.pos - 1) * 256 := by ring
            _ ≤ val x := by omega
        omega
      · rw [show x.pos - 1 + 1 = x.pos from by omega]
        exact hWlt
  · refine ⟨⟨base, x.pos⟩, by rw [hshr, if_neg htop], hbaseval, ⟨⟨hbaselen,
      hbasewf, by show x.pos < N; omega⟩, ?_, ?_⟩, by show x.pos ≤ x.pos; omega⟩
    · show ∀ i, i < N → x.pos < i → base.getD i 0 = 0
      intro i _ hi
      exact hbasehigh i hi
    · show x.pos ≠ 0 → base.getD x.pos 0 ≠ 0
      intro h0
      intro hz
      exact htop ⟨hz, by omega⟩

/-! Semantics of the bit accessors. -/

theorem getBit_ok (N : Nat) (x : BignumFast) (p : Nat) (hp : p < N * 8)
    (hwf : ∀ d ∈ x.digits, d < 256) :
    getBit N x p = .ok (decide (val x / 2 ^ p % 2 = 1)) := by
  unfold getBit
  rw [if_neg (by omega)]
  congr 1
  rw [getD_bit x.digits hwf p]
  exact beq_eq_decide _ _

theorem setBit_spec (N : Nat) (x : BignumFast) (p : Nat) (hx : Canonical N x)
    (hp : p / 8 < N) (hbit : val x / 2 ^ p % 2 = 0) :
    ∃ y, setBit N x p = .ok y ∧ val y = val x + 2 ^ p ∧ Canonical N y := by
  have hd : x.digits.getD (p / 8) 0 < 256 := by
    have hmem : x.digits.getD (p / 8) 0 ∈ x.digits := by
      rw [List.getD_eq_getElem x.digits 0 (by rw [hx.1.1]; omega)]
      exact List.getElem_mem _
    exact hx.1.2.1 _ hmem
  have hdbit : x.digits.getD (p / 8) 0 / 2 ^ (p % 8) % 2 = 0 := by
    rw [getD_bit x.digits hx.1.2.1 p]
    exact hbit
  have hxposN : x.pos < N := hx.1.2.2
  obtain ⟨hlor, hlt⟩ := lor_pow_eq_add (x.digits.getD (p / 8) 0) hd (p % 8)
    (Nat.mod_lt _ (by norm_num)) hdbit
  have hvset := valL_set x.digits (p / 8)
    (x.digits.getD (p / 8) 0 ||| 2 ^ (p % 8)) (by rw [hx.1.1]; omega)
  rw [hlor] at hvset
  refine ⟨⟨x.digits.set (p / 8) (x.digits.getD (p / 8) 0 + 2 ^ (p % 8)),
    if x.pos < p / 8 then p / 8 else x.pos⟩, ?_, ?_, ?_⟩
  · unfold setBit
    rw [if_neg (by omega), hlor]
  · show valL (x.digits.set (p / 8) (x.digits.getD (p / 8) 0 + 2 ^ (p % 8)))
        = val x + 2 ^ p
    have hexpand : (x.digits.getD (p / 8) 0 + 2 ^ (p % 8)) * 256 ^ (p / 8)
        = x.digits.getD (p / 8) 0 * 256 ^ (p / 8) + 2 ^ (p % 8) * 256 ^ (p / 8) := by
      ring
    have hpow : 2 ^ (p % 8) * 256 ^ (p / 8) = 2 ^ p := by
      rw [mul_comm]
      exact pow_bit_decomp p
    rw [hexpand, hpow] at hvset
    rw [show val x = valL x.digits from rfl]
    omega
  · refine ⟨⟨by rw [List.length_set]; exact hx.1.1, ?_, ?_⟩, ?_, ?_⟩
    · intro d hmem
      rcases List.mem_or_eq_of_mem_set hmem with hmem | hmem
      · exact hx.1.2.1 d hmem
      · omega
    · show (if x.pos < p / 8 then p / 8 else x.pos) < N
      split <;> omega
    · show ∀ i, i < N → (if x.pos < p / 8 then p / 8 else x.pos) < i →
        (x.digits.set (p / 8) (x.digits.getD (p / 8) 0 + 2 ^ (p % 8))).getD i 0 = 0
      intro i hiN hi
      have hgt : x.pos < i ∧ p / 8 < i := by
        rcases Nat.lt_or_ge x.pos (p / 8) with h | h
        · rw [if_pos h] at hi; omega
        · rw [if_neg (by omega)] at hi; omega
      rw [getD_set_ne _ _ _ _ (by omega)]
      exact hx.2.1 i hiN hgt.1
    · show (if x.pos < p / 8 then p / 8 else x.pos) ≠ 0 →
        (x.digits.set (p / 8) (x.digits.getD (p / 8) 0 + 2 ^ (p % 8))).getD
          (if x.pos < p / 8 then p / 8 else x.pos) 0 ≠ 0
      intro h0
      rcases Nat.lt_or_ge x.pos (p / 8) with h | h
      · rw [if_pos h, getD_set_eq _ _ _ (by rw [hx.1.1]; omega)]
        have : (0:Nat) < 2 ^ (p % 8) := by positivity
        omega
      · rw [if_neg (by omega)] at h0 ⊢
        rcases Nat.lt_or_ge (p / 8) x.pos with h2 | h2
        · rw [getD_set_ne _ _ _ _ (by omega)]
          exact hx.2.2 h0
        · have : p / 8 = x.pos := by omega
          rw [this, getD_set_eq _ _ _ (by rw [hx.1.1]; omega)]
          have : (0:Nat) < 2 ^ (p % 8) := by positivity
          omega

theorem unsetBit_noop (N : Nat) (x : BignumFast) (hx : Canonical N x)
    (hN : 0 < N) (hbit : val x % 2 = 0) : unsetBit N x 0 = .ok x := by
  have hd : x.digits.getD 0 0 < 256 := by
    have hmem : x.digits.getD 0 0 ∈ x.digits := by
      rw [List.getD_eq_getElem x.digits 0 (by rw [hx.1.1]; omega)]
      exact List.getElem_mem _
    exact hx.1.2.1 _ hmem
  have hdbit : x.digits.getD 0 0 / 2 ^ 0 % 2 = 0 := by
    have h1 := getD_bit x.digits hx.1.2.1 0
    simp only [Nat.zero_div, Nat.zero_mod, pow_zero, Nat.div_one] at h1 ⊢
    rw [h1]
    exact hbit
  have hland : x.digits.getD 0 0 &&& (255 - 2 ^ 0) = x.digits.getD 0 0 :=
    land_mask_of_clear (x.digits.getD 0 0) hd 0 (by norm_num) hdbit
  unfold unsetBit
  rw [if_neg (by omega)]
  simp only [Nat.zero_div, Nat.zero_mod]
  rw [hland, set_getD_self, lastNZ_take_canonical N x hx]

/-! Semantics of the restoring division loop. -/

theorem pow256_pow2 (k : Nat) : (256 : Nat) ^ k = 2 ^ (8 * k) := by
  rw [pow_mul]; norm_num

theorem divLoop_spec (N : Nat) (a b : BignumFast) (ha : Canonical N a)
    (hb : Canonical N b) (hbnz : val b ≠ 0) :
    ∀ i q r, i ≤ (a.pos + 1) * 8 → Canonical N q → Canonical N r →
      val r < val b →
      val a / 2 ^ i = val q / 2 ^ i * val b + val r →
      val q % 2 ^ i = 0 →
      ∃ p, divLoop N a b i q r = .ok p ∧
        Canonical N p.1 ∧ Canonical N p.2 ∧
        val a = val p.1 * val b + val p.2 ∧ val p.2 < val b := by
  have hap : a.pos < N := ha.1.2.2
  have hN : 0 < N := by omega
  intro i
  induction i with
  | zero =>
      intro q r _ hq hr hrb hid _
      refine ⟨(q, r), rfl, hq, hr, ?_, hrb⟩
      simpa using hid
  | succ i ih =>
      intro q r hle hq hr hrb hid hqm
      have hiN : i < N * 8 := by omega
      have hget := getBit_ok N a i hiN ha.1.2.1
      have hsplit : val a / 2 ^ (i + 1) = val a / 2 ^ i / 2 := by
        rw [pow_succ, Nat.div_div_eq_div_mul]
      have hrle : val r ≤ val a / 2 ^ (i + 1) := by
        rw [hid]; exact Nat.le_add_left _ _
      rw [hsplit] at hrle
      have hvalaN : val a < 256 ^ N :=
        lt_of_lt_of_le (val_lt_canonical N a ha)
          (Nat.pow_le_pow_right (by norm_num) (by omega))
      have hdivle : val a / 2 ^ i ≤ val a := Nat.div_le_self _ _
      have hover : 2 * val r < 256 ^ N := by omega
      obtain ⟨hshv, hshc, -⟩ := shl_one_spec N r hr hover
      have hdvd1 : 2 ^ (i + 1) ∣ val q := Nat.dvd_of_mod_eq_zero hqm
      have hq2 : val q % 2 ^ i = 0 := by
        obtain ⟨k, hk⟩ := dvd_trans (pow_dvd_pow 2 (Nat.le_succ i)) hdvd1
        rw [hk]
        exact Nat.mul_mod_right _ _
      have hqdiv : val q / 2 ^ i = 2 * (val q / 2 ^ (i + 1)) := by
        obtain ⟨k, hk⟩ := hdvd1
        rw [hk, Nat.mul_div_cancel_left k (pow_pos (by norm_num) (i + 1)), pow_succ,
          mul_assoc, Nat.mul_div_cancel_left _ (pow_pos (by norm_num) i)]
      have hbitq : val q / 2 ^ i % 2 = 0 := by
        rw [hqdiv]; exact Nat.mul_mod_right 2 _
      have hbsp : val a / 2 ^ i = 2 * (val a / 2 ^ (i + 1)) + val a / 2 ^ i % 2 := by
        rw [hsplit]; omega
      have hkey : val a / 2 ^ i
          = val q / 2 ^ i * val b + (2 * val r + val a / 2 ^ i % 2) := by
        nth_rewrite 1 [hbsp]
        rw [hid, hqdiv]
        ring
      have hi8 : i / 8 < N := by omega
      have key : ∀ r2v : BignumFast, Canonical N r2v →
          val r2v = 2 * val r + val a / 2 ^ i % 2 →
          ∃ p, (if geBF r2v b then
                  match sub_ref N r2v b with
                  | .error e => .error e
                  | .ok r3 =>
                    match setBit N q i with
                    | .error e => .error e
                    | .ok q2 => divLoop N a b i q2 r3
                else divLoop N a b i q r2v) = .ok p ∧
            Canonical N p.1 ∧ Canonical N p.2 ∧
            val a = val p.1 * val b + val p.2 ∧ val p.2 < val b := by
        intro r2v hr2c hr2v
        cases hgb : geBF r2v b with
        | false =>
            rw [if_neg (by simp)]
            have hlt : val r2v < val b := by
              by_contra hcon
              have ht := (geBF_iff_val N r2v b hr2c hb).mpr (by omega)
              rw [hgb] at ht
              exact Bool.false_ne_true ht
            exact ih q r2v (by omega) hq hr2c hlt (by rw [hr2v]; exact hkey) hq2
        | true =>
            rw [if_pos rfl]
            have hge : val b ≤ val r2v := (geBF_iff_val N r2v b hr2c hb).mp hgb
            obtain ⟨r3, hr3eq, hr3v, hr3c⟩ := sub_ref_ok N r2v b hr2c hb hge hN
            simp only [hr3eq]
            obtain ⟨q2, hq2eq, hq2v, hq2c⟩ := setBit_spec N q i hq hi8 hbitq
            simp only [hq2eq]
            refine ih q2 r3 (by omega) hq2c hr3c ?_ ?_ ?_
            · rw [hr3v, hr2v]
              omega
            · have hq2div : val q2 / 2 ^ i = val q / 2 ^ i + 1 := by
                rw [hq2v, Nat.add_div_right _ (pow_pos (by norm_num) i)]
              have hge2 : val b ≤ 2 * val r + val a / 2 ^ i % 2 := by
                rw [← hr2v]; exact hge
              rw [hq2div, hr3v, hr2v, Nat.add_mul, one_mul]
              nth_rewrite 1 [hkey]
              omega
            · rw [hq2v, Nat.add_mod_right]
              exact hq2
      simp only [divLoop, hget]
      rcases Nat.mod_two_eq_zero_or_one (val a / 2 ^ i) with hbit | hbit
      · rw [if_neg (by rw [hbit]; decide)]
        have hnoop : unsetBit N (shl N r 1) 0 = .ok (shl N r 1) :=
          unsetBit_noop N (shl N r 1) hshc hN
            (by rw [hshv]; exact Nat.mul_mod_right 2 _)
        simp only [hnoop]
        exact key (shl N r 1) hshc (by rw [hshv, hbit]; omega)
      · rw [if_pos (by rw [hbit]; decide)]
        have hbit0 : val (shl N r 1) / 2 ^ 0 % 2 = 0 := by
          rw [pow_zero, Nat.div_one, hshv]
          exact Nat.mul_mod_right 2 _
        obtain ⟨r2, hr2eq, hr2vv, hr2cc⟩ :=
          setBit_spec N (shl N r 1) 0 hshc (by omega) hbit0
        simp only [hr2eq]
        exact key r2 hr2cc (by rw [hr2vv, hshv, pow_zero, hbit])

theorem div_with_remainder_spec (N : Nat) (a b : BignumFast) (ha : Canonical N a)
    (hb : Canonical N b) (hbnz : val b ≠ 0) :
    ∃ p, div_with_remainder N a b = .ok p ∧
      Canonical N p.1 ∧ Canonical N p.2 ∧
      val a = val p.1 * val b + val p.2 ∧ val p.2 < val b := by
  have hN : 0 < N := by have := ha.1.2.2; omega
  have hz := canonical_zeroBN N hN
  have hvz := val_zeroBN N
  have hdiv0 : val a / 2 ^ ((a.pos + 1) * 8) = 0 := by
    apply Nat.div_eq_of_lt
    rw [show (a.pos + 1) * 8 = 8 * (a.pos + 1) from by ring, ← pow256_pow2]
    exact val_lt_canonical N a ha
  unfold div_with_remainder
  refine divLoop_spec N a b ha hb hbnz ((a.pos + 1) * 8) (zeroBN N) (zeroBN N)
    le_rfl hz hz ?_ ?_ ?_
  · rw [hvz]; omega
  · rw [hvz, hdiv0]; simp
  · rw [hvz]; simp

/-! Semantics of the schoolbook multiplication loops. -/

theorem headD_lt (xs : List Nat) (h : ∀ d ∈ xs, d < 256) : xs.headD 0 < 256 := by
  cases xs with
  | nil => norm_num
  | cons a l => exact h a (by simp)

theorem valL_take_succ (xs : List Nat) (n : Nat) :
    valL (xs.take (n + 1)) = xs.headD 0 + 256 * valL (xs.tail.take n) := by
  cases xs with
  | nil => simp
  | cons a l => simp [valL_cons]

theorem any_ne_of_all_zero (z : List Nat) (hz : ∀ d ∈ z, d = 0) :
    z.any (fun e => e ≠ 0) = false := by
  rw [← Bool.not_eq_true, List.any_eq_true]
  rintro ⟨d, hd, hdne⟩
  exact (of_decide_eq_true hdne) (hz d hd)

theorem lastNZ_append_zero (l z : List Nat) (hz : ∀ d ∈ z, d = 0) :
    lastNZ (l ++ z) = lastNZ l := by
  induction l with
  | nil =>
      simp only [List.nil_append, lastNZ]
      exact lastNZ_of_not_any z (by simp only [any_ne_of_all_zero z hz]; simp)
  | cons d l ih =>
      rw [List.cons_append, lastNZ_cons, List.any_append, any_ne_of_all_zero z hz,
        Bool.or_false, ih, ← lastNZ_cons]

theorem lastNZ_append_any (l w : List Nat)
    (hw : w.any (fun e => e ≠ 0) = true) :
    lastNZ (l ++ w) = l.length + lastNZ w := by
  induction l with
  | nil => simp
  | cons d l ih =>
      rw [List.cons_append, lastNZ_cons, List.any_append, hw, Bool.or_true,
        if_pos rfl, ih, List.length_cons]
      omega

theorem drop_all_zero (l : List Nat) (m : Nat)
    (h : ∀ j, m ≤ j → l.getD j 0 = 0) : ∀ d ∈ l.drop m, d = 0 := by
  intro d hd
  obtain ⟨k, hk, he⟩ := List.getElem_of_mem hd
  rw [List.getElem_drop] at he
  have hlt : m + k < l.length := by
    rw [List.length_drop] at hk
    omega
  rw [← List.getD_eq_getElem l 0 hlt] at he
  rw [← he]
  exact h (m + k) (by omega)

theorem getD_append_ge (E D : List Nat) (j : Nat) (hj : E.length ≤ j) :
    (E ++ D).getD j 0 = D.getD (j - E.length) 0 := by
  rw [List.getD_eq_getElem?_getD, List.getD_eq_getElem?_getD,
    List.getElem?_append_right hj]

theorem mulRowD_spec (bd : Nat) (hbd : bd < 256) :
    ∀ ws xs c j plnz, (∀ d ∈ ws, d < 256) → (∀ d ∈ xs, d < 256) → c ≤ 255 →
      (mulRowD ws xs bd c j plnz).1.length = ws.length ∧
      (∀ d ∈ (mulRowD ws xs bd c j plnz).1, d < 256) ∧
      (mulRowD ws xs bd c j plnz).2.1 ≤ 255 ∧
      valL (mulRowD ws xs bd c j plnz).1
          + (mulRowD ws xs bd c j plnz).2.1 * 256 ^ ws.length
        = valL ws + c + valL (xs.take ws.length) * bd ∧
      (mulRowD ws xs bd c j plnz).2.2
        = (if (mulRowD ws xs bd c j plnz).1.any (fun e => e ≠ 0) = true
            then j + lastNZ (mulRowD ws xs bd c j plnz).1 else plnz) := by
  intro ws
  induction ws with
  | nil =>
      intro xs c j plnz _ _ hc
      exact ⟨rfl, by simp [mulRowD], hc, by simp [mulRowD], by simp [mulRowD]⟩
  | cons w ws ih =>
      intro xs c j plnz hws hxs hc
      have hxt : ∀ d ∈ xs.tail, d < 256 := fun d hd => hxs d (List.mem_of_mem_tail hd)
      have hw : w < 256 := hws w (by simp)
      have hhd : xs.headD 0 < 256 := headD_lt xs hxs
      have hmul : xs.headD 0 * bd ≤ 255 * 255 := Nat.mul_le_mul (by omega) (by omega)
      set t := w + c + xs.headD 0 * bd with ht
      have hcout : t / 256 ≤ 255 := by omega
      obtain ⟨ihl, ihb, ihc, ihv, ihp⟩ :=
        ih xs.tail (t / 256) (j + 1) (if t % 256 ≠ 0 then j else plnz)
          (fun d hd => hws d (List.mem_cons_of_mem _ hd)) hxt hcout
      set R := mulRowD ws xs.tail bd (t / 256) (j + 1)
        (if t % 256 ≠ 0 then j else plnz) with hRdef
      have h1 : (mulRowD (w :: ws) xs bd c j plnz).1 = t % 256 :: R.1 := rfl
      have h2 : (mulRowD (w :: ws) xs bd c j plnz).2 = R.2 := rfl
      have h2a : (mulRowD (w :: ws) xs bd c j plnz).2.1 = R.2.1 := congrArg Prod.fst h2
      have h2b : (mulRowD (w :: ws) xs bd c j plnz).2.2 = R.2.2 := congrArg Prod.snd h2
      refine ⟨?_, ?_, ?_, ?_, ?_⟩
      · rw [h1]; simp [ihl]
      · rw [h1]
        intro d hd
        rcases List.mem_cons.mp hd with h | h
        · rw [h]; exact Nat.mod_lt _ (by norm_num)
        · exact ihb d h
      · rw [h2a]; exact ihc
      · rw [h1, h2a]
        simp only [valL_cons, List.length_cons]
        rw [valL_take_succ xs ws.length]
        calc t % 256 + 256 * valL R.1 + R.2.1 * 256 ^ (ws.length + 1)
            = t % 256 + 256 * (valL R.1 + R.2.1 * 256 ^ ws.length) := by
              rw [pow_succ]; ring
          _ = t % 256 + 256 * (valL ws + t / 256 + valL (xs.tail.take ws.length) * bd) := by
              rw [ihv]
          _ = (t % 256 + 256 * (t / 256)) + 256 * valL ws
              + 256 * valL (xs.tail.take ws.length) * bd := by ring
          _ = t + 256 * valL ws + 256 * valL (xs.tail.take ws.length) * bd := by
              rw [Nat.mod_add_div]
          _ = w + 256 * valL ws + c
              + (xs.headD 0 + 256 * valL (xs.tail.take ws.length)) * bd := by
              rw [ht]; ring
      · rw [h2b, h1, ihp]
        by_cases hA : R.1.any (fun e => e ≠ 0) = true
        · simp only [lastNZ_cons, List.any_cons, hA, Bool.or_true, eq_self_iff_true,
            if_true]
          omega
        · have hA' : R.1.any (fun e => e ≠ 0) = false := Bool.eq_false_iff.mpr hA
          simp only [List.any_cons, lastNZ_cons, hA', Bool.or_false, if_neg hA,
            if_neg Bool.false_ne_true, Nat.add_zero, decide_eq_true_eq]

theorem mulRows_spec (N : Nat) (xs : List Nat) (p : Nat)
    (hxs : ∀ d ∈ xs, d < 256) (hxl : xs.length = p) :
    ∀ ys bi ds plnz, ds.length = N → (∀ d ∈ ds, d < 256) →
      (∀ d ∈ ys, d < 256) →
      bi + ys.length + p ≤ N →
      (∀ j, bi + p ≤ j → ds.getD j 0 = 0) →
      plnz = lastNZ ds →
      (mulRows xs p ys bi ds plnz).1.length = N ∧
      (∀ d ∈ (mulRows xs p ys bi ds plnz).1, d < 256) ∧
      (∀ j, bi + ys.length + p ≤ j → (mulRows xs p ys bi ds plnz).1.getD j 0 = 0) ∧
      valL (mulRows xs p ys bi ds plnz).1 = valL ds + 256 ^ bi * (valL xs * valL ys) ∧
      (mulRows xs p ys bi ds plnz).2 = lastNZ (mulRows xs p ys bi ds plnz).1 := by
  intro ys
  induction ys with
  | nil =>
      intro bi ds plnz hdl hdb _ _ hhigh hplnz
      refine ⟨hdl, hdb, ?_, by simp [mulRows], hplnz⟩
      intro j hj
      exact hhigh j (by simp only [List.length_nil] at hj; omega)
  | cons bd ys ih =>
      intro bi ds plnz hdl hdb hyb hbound hhigh hplnz
      have hbd : bd < 256 := hyb bd (by simp)
      have hyb2 : ∀ d ∈ ys, d < 256 := fun d hd => hyb d (List.mem_cons_of_mem _ hd)
      simp only [List.length_cons] at hbound
      have hbp : bi + p + 1 ≤ N := by omega
      simp only [mulRows]
      set ws := (ds.drop bi).take p with hwsdef
      have hwsl : ws.length = p := by
        rw [hwsdef, List.length_take, List.length_drop, hdl]; omega
      have hwsb : ∀ d ∈ ws, d < 256 := fun d hd =>
        hdb d (List.drop_subset _ _ (List.take_subset _ _ hd))
      obtain ⟨hrl, hrb, hrc, hrv, hrp⟩ :=
        mulRowD_spec bd hbd ws xs 0 bi plnz hwsb hxs (by omega)
      set R := mulRowD ws xs bd 0 bi plnz with hRdef
      have hxtake : xs.take ws.length = xs := by rw [hwsl, ← hxl]; simp
      rw [hxtake] at hrv
      rw [hwsl] at hrl hrv
      have hdtake : (ds.take bi).length = bi := by
        rw [List.length_take, hdl]; omega
      have hdecomp : ds
          = ds.take bi ++ (ws ++ (ds.getD (bi + p) 0 :: ds.drop (bi + p + 1))) := by
        conv_lhs => rw [← List.take_append_drop bi ds]
        congr 1
        conv_lhs => rw [← List.take_append_drop p (ds.drop bi)]
        congr 1
        rw [List.drop_drop,
          List.drop_eq_getElem_cons (by rw [hdl]; omega : bi + p < ds.length),
          List.getD_eq_getElem ds 0 (by rw [hdl]; omega : bi + p < ds.length)]
      have hd0 : ds.getD (bi + p) 0 = 0 := hhigh _ (by omega)
      have hDz : ∀ d ∈ ds.drop (bi + p + 1), d = 0 :=
        drop_all_zero ds (bi + p + 1) (fun k hk => hhigh k (by omega))
      set ds2 := ds.take bi ++ (R.1 ++ R.2.1 :: ds.drop (bi + p + 1)) with hds2
      set pl2 := if R.2.1 ≠ 0 then bi + p else R.2.2 with hpl2
      have hdl2 : ds2.length = N := by
        rw [hds2, List.length_append, List.length_append, List.length_cons,
          List.length_drop, hdtake, hrl, hdl]
        omega
      have hdb2 : ∀ d ∈ ds2, d < 256 := by
        intro d hd
        rw [hds2] at hd
        simp only [List.mem_append, List.mem_cons] at hd
        rcases hd with h | h | h | h
        · exact hdb d (List.take_subset _ _ h)
        · exact hrb d h
        · rw [h]; omega
        · exact hdb d (List.drop_subset _ _ h)
      have hhigh2 : ∀ j, (bi + 1) + p ≤ j → ds2.getD j 0 = 0 := by
        intro j hj
        rw [hds2, getD_append_ge _ _ j (by rw [hdtake]; omega), hdtake,
          getD_append_ge _ _ (j - bi) (by rw [hrl]; omega), hrl,
          show j - bi - p = (j - bi - p - 1) + 1 from by omega, List.getD_cons_succ]
        exact getD_all_zero _ hDz _
      have he1 : valL ds2 = valL (ds.take bi)
          + 256 ^ bi * (valL R.1 + 256 ^ p * (R.2.1 + 256 * valL (ds.drop (bi + p + 1)))) := by
        rw [hds2, valL_append, valL_append, valL_cons, hdtake, hrl]
      have he0 : valL ds = valL (ds.take bi)
          + 256 ^ bi * (valL ws + 256 ^ p * (0 + 256 * valL (ds.drop (bi + p + 1)))) := by
        conv_lhs => rw [hdecomp]
        rw [valL_append, valL_append, valL_cons, hdtake, hwsl, hd0]
      have he2 : valL R.1 + 256 ^ p * R.2.1 = valL ws + valL xs * bd := by
        linarith [hrv]
      have hvds2 : valL ds2 = valL ds + 256 ^ bi * (valL xs * bd) := by
        rw [he1, he0]
        calc valL (ds.take bi)
              + 256 ^ bi * (valL R.1 + 256 ^ p * (R.2.1 + 256 * valL (ds.drop (bi + p + 1))))
            = valL (ds.take bi) + 256 ^ bi * ((valL R.1 + 256 ^ p * R.2.1)
              + 256 ^ p * (256 * valL (ds.drop (bi + p + 1)))) := by ring
          _ = valL (ds.take bi) + 256 ^ bi * ((valL ws + valL xs * bd)
              + 256 ^ p * (256 * valL (ds.drop (bi + p + 1)))) := by rw [he2]
          _ = (valL (ds.take bi) + 256 ^ bi * (valL ws
              + 256 ^ p * (0 + 256 * valL (ds.drop (bi + p + 1)))))
              + 256 ^ bi * (valL xs * bd) := by ring
      have hplnz2 : pl2 = lastNZ ds2 := by
        by_cases hc2 : R.2.1 = 0
        · by_cases hany : R.1.any (fun e => e ≠ 0) = true
          · have hz : ∀ d ∈ (R.2.1 :: ds.drop (bi + p + 1)), d = 0 := by
              intro d hd
              rcases List.mem_cons.mp hd with h | h
              · rw [h]; exact hc2
              · exact hDz d h
            rw [hds2, lastNZ_append_any _ _
                (by rw [List.any_append, hany, Bool.true_or]),
              lastNZ_append_zero R.1 _ hz, hdtake, hpl2, if_neg (by omega), hrp,
              if_pos hany]
          · have hw2z : ∀ d ∈ R.1, d = 0 := any_ne_false_all_zero R.1 hany
            have hwsz : ∀ d ∈ ws, d = 0 := by
              rw [← valL_eq_zero_iff]
              have hv1 : valL R.1 = 0 := (valL_eq_zero_iff R.1).mpr hw2z
              have hv2 := he2
              rw [hv1, hc2] at hv2
              simp only [Nat.mul_zero, Nat.add_zero, Nat.zero_add] at hv2
              omega
            have h1 : lastNZ ds2 = lastNZ (ds.take bi) := by
              rw [hds2]
              apply lastNZ_append_zero
              intro d hd
              simp only [List.mem_append, List.mem_cons] at hd
              rcases hd with h | h | h
              · exact hw2z d h
              · rw [h]; exact hc2
              · exact hDz d h
            have h0 : lastNZ ds = lastNZ (ds.take bi) := by
              conv_lhs => rw [hdecomp]
              apply lastNZ_append_zero
              intro d hd
              simp only [List.mem_append, List.mem_cons] at hd
              rcases hd with h | h | h
              · exact hwsz d h
              · rw [h]; exact hd0
              · exact hDz d h
            rw [hpl2, if_neg (by omega), hrp, if_neg hany, hplnz, h0, h1]
        · have h1 : lastNZ ds2 = bi + p := by
            rw [hds2, ← List.append_assoc,
              lastNZ_append_any _ _ (by rw [List.any_cons]; simp [hc2]),
              List.length_append, hdtake, hrl, lastNZ_cons,
              if_neg (by rw [any_ne_of_all_zero _ hDz]; simp)]
            omega
          rw [hpl2, if_pos hc2, h1]
      obtain ⟨ihl, ihb, ihh, ihv, ihp⟩ :=
        ih (bi + 1) ds2 pl2 hdl2 hdb2 hyb2 (by omega) hhigh2 hplnz2
      refine ⟨ihl, ihb, ?_, ?_, ihp⟩
      · intro j hj
        exact ihh j (by simp only [List.length_cons] at hj; omega)
      · rw [ihv, hvds2, valL_cons]
        ring

theorem mul_ref_ok (N : Nat) (x y : BignumFast) (hx : Canonical N x)
    (hy : Canonical N y) (hcap : x.pos + 1 + (y.pos + 1) ≤ N) :
    ∃ z, mul_ref N x y = .ok z ∧ val z = val x * val y ∧ Canonical N z := by
  unfold mul_ref
  rw [if_neg (by omega)]
  set xs := x.digits.take (x.pos + 1) with hxsdef
  set ys := y.digits.take (y.pos + 1) with hysdef
  have hxb : ∀ d ∈ xs, d < 256 := fun d hd => hx.1.2.1 d (List.take_subset _ _ hd)
  have hyb : ∀ d ∈ ys, d < 256 := fun d hd => hy.1.2.1 d (List.take_subset _ _ hd)
  have hxl : xs.length = x.pos + 1 := by
    rw [hxsdef, List.length_take, hx.1.1]
    have := hx.1.2.2
    omega
  have hyl : ys.length = y.pos + 1 := by
    rw [hysdef, List.length_take, hy.1.1]
    have := hy.1.2.2
    omega
  have hrz : ∀ d ∈ List.replicate N 0, d = (0:Nat) :=
    fun d hd => List.eq_of_mem_replicate hd
  have hlz : lastNZ (List.replicate N 0) = 0 :=
    lastNZ_of_not_any _ (by rw [any_ne_of_all_zero _ hrz]; simp)
  obtain ⟨hl, hb, hh, hv, hp⟩ :=
    mulRows_spec N xs (x.pos + 1) hxb hxl ys 0 (List.replicate N 0) 0
      (by simp) (fun d hd => by rw [hrz d hd]; omega) hyb (by rw [hyl]; omega)
      (fun j _ => getD_all_zero _ hrz j) hlz.symm
  set M := mulRows xs (x.pos + 1) ys 0 (List.replicate N 0) 0 with hMdef
  have hval : valL M.1 = val x * val y := by
    rw [hv, valL_replicate_zero]
    rw [hxsdef, hysdef, canonical_valL_take N x hx, canonical_valL_take N y hy]
    simp
  have hne : M.1 ≠ [] := by
    intro hcon
    rw [hcon] at hl
    simp at hl
    omega
  have hposlt : lastNZ M.1 < N := by
    have := lastNZ_lt_length M.1 hne
    omega
  refine ⟨⟨M.1, M.2⟩, rfl, ?_, ?_⟩
  · rw [show val ⟨M.1, M.2⟩ = valL M.1 from rfl]
    exact hval
  · refine ⟨⟨hl, hb, ?_⟩, ?_, ?_⟩
    · rw [show (BignumFast.mk M.1 M.2).pos = M.2 from rfl, hp]
      exact hposlt
    · intro i _ hi
      rw [show (BignumFast.mk M.1 M.2).pos = M.2 from rfl, hp] at hi
      exact lastNZ_getD_zero M.1 i hi
    · rw [show (BignumFast.mk M.1 M.2).pos = M.2 from rfl, hp]
      exact lastNZ_getD_self M.1

/-! Semantics of modular exponentiation. -/

theorem pos_le_of_val_lt (N : Nat) (r m : BignumFast) (hr : Canonical N r)
    (hm : Canonical N m) (hlt : val r < val m) : r.pos ≤ m.pos := by
  by_contra h
  have h1 : m.pos + 1 ≤ r.pos := by omega
  have h2 : 256 ^ r.pos ≤ val r := le_val_canonical N r hr (by omega)
  have h3 : val m < 256 ^ (m.pos + 1) := val_lt_canonical N m hm
  have h4 : (256:Nat) ^ (m.pos + 1) ≤ 256 ^ r.pos :=
    Nat.pow_le_pow_right (by norm_num) h1
  omega

theorem mod_div_spec (N : Nat) (a m : BignumFast) (ha : Canonical N a)
    (hm : Canonical N m) (hmnz : val m ≠ 0) :
    ∃ p, div_with_remainder N a m = .ok p ∧ val p.2 = val a % val m ∧
      Canonical N p.2 ∧ p.2.pos ≤ m.pos := by
  obtain ⟨p, hp, _, hr, hid, hlt⟩ := div_with_remainder_spec N a m ha hm hmnz
  refine ⟨p, hp, ?_, hr, pos_le_of_val_lt N p.2 m hr hm hlt⟩
  rw [hid, Nat.mul_add_mod', Nat.mod_eq_of_lt hlt]

theorem fromU128_one (N : Nat) (h : 16 ≤ N) :
    ∃ one, fromU128 N 1 = .ok one ∧ val one = 1 ∧ Canonical N one
      ∧ one.pos = 0 := by
  unfold fromU128
  rw [if_neg (by omega)]
  have hds : (List.range 16).map (fun i => 1 / 256 ^ i % 256)
      = 1 :: List.replicate 15 0 := by decide
  have hlnz : lastNZ ((List.range 16).map (fun i => 1 / 256 ^ i % 256)) = 0 := by
    rw [hds]; decide
  refine ⟨_, rfl, ?_, ?_, hlnz⟩
  · rw [show val ⟨(List.range 16).map (fun i => 1 / 256 ^ i % 256)
        ++ List.replicate (N - 16) 0,
        lastNZ ((List.range 16).map (fun i => 1 / 256 ^ i % 256))⟩
      = valL ((List.range 16).map (fun i => 1 / 256 ^ i % 256)
        ++ List.replicate (N - 16) 0) from rfl, valL_mk, hds]
    simp
  · have := canonical_mk N ((List.range 16).map (fun i => 1 / 256 ^ i % 256))
      (by rw [hds]; simp; omega)
      (by rw [hds]; intro d hd; rcases List.mem_cons.mp hd with h | h
          · omega
          · have := List.eq_of_mem_replicate h; omega)
      (by rw [hds]; simp)
    rw [show ((List.range 16).map (fun i => 1 / 256 ^ i % 256)).length = 16
      from by rw [hds]; simp] at this
    exact this

theorem powModLoop_spec (N : Nat) (m : BignumFast) (hm : Canonical N m)
    (hmnz : val m ≠ 0) (mx : Nat) (hmx : m.pos ≤ mx) (hcap : 2 * (mx + 1) ≤ N) :
    ∀ fuel base exp t, Canonical N base → Canonical N exp → Canonical N t →
      base.pos ≤ mx → t.pos ≤ mx → val exp < 2 ^ fuel →
      ∃ tout, powModLoop N m fuel base exp t = .ok tout ∧ Canonical N tout ∧
        tout.pos ≤ mx ∧
        val tout % val m = (val t * val base ^ val exp) % val m := by
  intro fuel
  induction fuel with
  | zero =>
      intro base exp t _ hexp ht _ htp hfe
      simp only [pow_zero] at hfe
      have hz : isZeroBF exp = true := (isZeroBF_iff_val N exp hexp).mpr (by omega)
      simp only [powModLoop, hz, eq_self_iff_true, if_true]
      refine ⟨t, rfl, ht, htp, ?_⟩
      rw [show val exp = 0 from by omega, pow_zero, mul_one]
  | succ fuel ih =>
      intro base exp t hbase hexp ht hbp htp hfe
      by_cases hez : val exp = 0
      · have hz : isZeroBF exp = true := (isZeroBF_iff_val N exp hexp).mpr hez
        simp only [powModLoop, hz, eq_self_iff_true, if_true]
        refine ⟨t, rfl, ht, htp, ?_⟩
        rw [hez, pow_zero, mul_one]
      · have hz : isZeroBF exp = false :=
          Bool.eq_false_iff.mpr (fun hcon => hez ((isZeroBF_iff_val N exp hexp).mp hcon))
        obtain ⟨sq, hsqEq, hsqV, hsqC⟩ := mul_ref_ok N base base hbase hbase (by omega)
        obtain ⟨p2, hp2Eq, hp2V, hp2C, hp2pos⟩ := mod_div_spec N sq m hsqC hm hmnz
        obtain ⟨exp2, hexp2Eq, hexp2V, hexp2C, _⟩ := shr_one_spec N exp hexp
        have hfe2 : val exp2 < 2 ^ fuel := by
          rw [pow_succ] at hfe
          rw [hexp2V]
          omega
        rcases Nat.mod_two_eq_zero_or_one (val exp) with hpar | hpar
        · have hev : isEvenBF exp = true := (isEvenBF_iff_val exp).mpr hpar
          obtain ⟨tout, htoutEq, htoutC, htoutP, htoutV⟩ :=
            ih p2.2 exp2 t hp2C hexp2C ht (by omega) htp hfe2
          refine ⟨tout, ?_, htoutC, htoutP, ?_⟩
          · simp only [powModLoop, hz, if_neg Bool.false_ne_true, hev,
              eq_self_iff_true, if_true, hsqEq, hp2Eq, hexp2Eq]
            exact htoutEq
          · rw [htoutV, hexp2V, hp2V, hsqV]
            have h2 : (val base * val base) % val m ≡ val base ^ 2 [MOD val m] := by
              rw [pow_two]
              exact Nat.mod_modEq _ _
            have key : val t * ((val base * val base) % val m) ^ (val exp / 2)
                ≡ val t * val base ^ val exp [MOD val m] := by
              calc val t * ((val base * val base) % val m) ^ (val exp / 2)
                  ≡ val t * (val base ^ 2) ^ (val exp / 2) [MOD val m] :=
                    (Nat.ModEq.refl _).mul (h2.pow _)
                _ = val t * val base ^ val exp := by
                    rw [← pow_mul, show 2 * (val exp / 2) = val exp from by omega]
            exact key
        · have hev : isEvenBF exp = false :=
            Bool.eq_false_iff.mpr (fun hcon => by
              have := (isEvenBF_iff_val exp).mp hcon
              omega)
          obtain ⟨prod, hprodEq, hprodV, hprodC⟩ :=
            mul_ref_ok N t base ht hbase (by omega)
          obtain ⟨p1, hp1Eq, hp1V, hp1C, hp1pos⟩ := mod_div_spec N prod m hprodC hm hmnz
          obtain ⟨tout, htoutEq, htoutC, htoutP, htoutV⟩ :=
            ih p2.2 exp2 p1.2 hp2C hexp2C hp1C (by omega) (by omega) hfe2
          refine ⟨tout, ?_, htoutC, htoutP, ?_⟩
          · simp only [powModLoop, hz, if_neg Bool.false_ne_true, hev,
              hprodEq, hp1Eq, hsqEq, hp2Eq, hexp2Eq]
            exact htoutEq
          · rw [htoutV, hexp2V, hp1V, hprodV, hp2V, hsqV]
            have h1 : (val t * val base) % val m
                ≡ val t * val base ^ (1:Nat) [MOD val m] := by
              rw [pow_one]
              exact Nat.mod_modEq _ _
            have h2 : (val base * val base) % val m ≡ val base ^ 2 [MOD val m] := by
              rw [pow_two]
              exact Nat.mod_modEq _ _
            have key : ((val t * val base) % val m)
                  * (((val base * val base) % val m) ^ (val exp / 2))
                ≡ val t * val base ^ val exp [MOD val m] := by
              calc ((val t * val base) % val m)
                    * (((val base * val base) % val m) ^ (val exp / 2))
                  ≡ (val t * val base ^ (1:Nat)) * ((val base ^ 2) ^ (val exp / 2))
                    [MOD val m] := h1.mul (h2.pow _)
                _ = val t * val base ^ val exp := by
                    rw [← pow_mul, pow_one, mul_assoc, ← pow_succ',
                      show 2 * (val exp / 2) + 1 = val exp from by omega]
            exact key

theorem pow_mod_spec (N : Nat) (base exp m : BignumFast) (hbase : Canonical N base)
    (hexp : Canonical N exp) (hm : Canonical N m) (hmnz : val m ≠ 0)
    (h16 : 16 ≤ N) (hcap : 2 * (max base.pos m.pos + 1) ≤ N) :
    ∃ r, pow_mod N base exp m = .ok r ∧ val r = val base ^ val exp % val m
      ∧ Canonical N r := by
  obtain ⟨one, honeEq, honeV, honeC, honeP⟩ := fromU128_one N h16
  have hfe : val exp < 2 ^ (8 * N) := by
    calc val exp < 256 ^ (exp.pos + 1) := val_lt_canonical N exp hexp
      _ ≤ 256 ^ N := Nat.pow_le_pow_right (by norm_num)
          (by have := hexp.1.2.2; omega)
      _ = 2 ^ (8 * N) := pow256_pow2 N
  obtain ⟨tout, htoutEq, htoutC, _, htoutV⟩ :=
    powModLoop_spec N m hm hmnz (max base.pos m.pos) (le_max_right _ _) hcap
      (8 * N) base exp one hbase hexp honeC (le_max_left _ _)
      (by rw [honeP]; omega) hfe
  obtain ⟨pf, hpfEq, hpfV, hpfC, _⟩ := mod_div_spec N tout m htoutC hm hmnz
  refine ⟨pf.2, ?_, ?_, hpfC⟩
  · unfold pow_mod
    simp only [honeEq, htoutEq, hpfEq]
  · rw [hpfV, htoutV, honeV, one_mul]

/-! Semantics of the signed wrapper. -/

theorem mag_mk (d : List Nat) (p : Nat) (s : Bool) :
    mag ⟨d, p, s⟩ = ⟨d, p⟩ := rfl

theorem mag_negS (x : SignedBignumFast) : mag (negS x) = mag x := rfl

theorem mag_pos (x : SignedBignumFast) : (mag x).pos = x.pos := rfl

theorem mag_digits (x : SignedBignumFast) : (mag x).digits = x.digits := rfl

theorem sval_negS (x : SignedBignumFast) : sval (negS x) = -(val (mag x) : Int) := by
  unfold sval negS
  rfl

theorem mag_zeroS (N : Nat) : mag (zeroS N) = zeroBN N := rfl

theorem sval_zeroS (N : Nat) : sval (zeroS N) = 0 := by
  unfold sval
  rw [mag_zeroS]
  simp [val_zeroBN]

theorem scanonical_zeroS (N : Nat) (hN : 0 < N) : SCanonical N (zeroS N) := by
  refine ⟨?_, ?_⟩
  · rw [mag_zeroS]; exact canonical_zeroBN N hN
  · intro h; cases h

theorem sval_of_sign_false (x : SignedBignumFast) (h : x.sign = false) :
    sval x = (val (mag x) : Int) := by
  unfold sval
  rw [h]
  simp

theorem sval_of_sign_true (x : SignedBignumFast) (h : x.sign = true) :
    sval x = -(val (mag x) : Int) := by
  unfold sval
  rw [h]
  simp

theorem isZeroS_iff_val (N : Nat) (x : SignedBignumFast)
    (h : Canonical N (mag x)) : isZeroS x = true ↔ val (mag x) = 0 :=
  isZeroBF_iff_val N (mag x) h

theorem eqS_iff_val (N : Nat) (a b : SignedBignumFast)
    (ha : Canonical N (mag a)) (hb : Canonical N (mag b)) :
    eqS a b = true ↔ val (mag a) = val (mag b) :=
  eqBF_iff_val N (mag a) (mag b) ha hb

theorem gt_internalS_iff_val (N : Nat) (a b : SignedBignumFast)
    (ha : Canonical N (mag a)) (hb : Canonical N (mag b)) :
    gt_internalS a b = true ↔ val (mag b) < val (mag a) :=
  gtBF_iff_val N (mag a) (mag b) ha hb

theorem add_ref_internalS_ok (N : Nat) (a b : SignedBignumFast)
    (ha : Canonical N (mag a)) (hb : Canonical N (mag b))
    (hsum : val (mag a) + val (mag b) < 256 ^ N) :
    ∃ c, add_ref_internalS N a b = .ok c ∧
      val (mag c) = val (mag a) + val (mag b) ∧ Canonical N (mag c) ∧
      c.sign = false := by
  obtain ⟨c, hc, hv, hcan⟩ := add_ref_ok N (mag a) (mag b) ha hb hsum
  have hc2 : addBody N (if a.pos > b.pos then mag a else mag b)
      (if a.pos > b.pos then mag b else mag a) = .ok c := hc
  refine ⟨⟨c.digits, c.pos, false⟩, ?_, hv, hcan, rfl⟩
  unfold add_ref_internalS
  rw [hc2]

theorem add_ref_internalS_spec (N : Nat) (a b c : SignedBignumFast)
    (ha : Canonical N (mag a)) (hb : Canonical N (mag b))
    (h : add_ref_internalS N a b = .ok c) :
    val (mag c) = val (mag a) + val (mag b) ∧ Canonical N (mag c) ∧
      c.sign = false := by
  rcases Nat.lt_or_ge (val (mag a) + val (mag b)) (256 ^ N) with hs | hs
  · obtain ⟨c2, hc2, hv, hcan, hsg⟩ := add_ref_internalS_ok N a b ha hb hs
    rw [hc2] at h
    injection h with h2
    subst h2
    exact ⟨hv, hcan, hsg⟩
  · have herr := add_ref_overflow N (mag a) (mag b) ha hb hs
    have herr2 : addBody N (if a.pos > b.pos then mag a else mag b)
        (if a.pos > b.pos then mag b else mag a) = .error .overflow := herr
    unfold add_ref_internalS at h
    rw [herr2] at h
    cases h

theorem sub_ref_internalS_spec (N : Nat) (a b : SignedBignumFast)
    (ha : Canonical N (mag a)) (hb : Canonical N (mag b))
    (hle : val (mag b) ≤ val (mag a)) :
    val (mag (sub_ref_internalS N a b)) = val (mag a) - val (mag b) ∧
      Canonical N (mag (sub_ref_internalS N a b)) ∧
      (sub_ref_internalS N a b).sign = false := by
  have hN : 0 < N := by have := ha.2.2; have := ha.1.2.2; omega
  unfold sub_ref_internalS
  rcases hcmp : partialCmpS a b with _ | _ | _
  · obtain ⟨h1, h2⟩ := subCore_spec N (mag a) (mag b) ha hb hle
    exact ⟨h1, h2, rfl⟩
  · have hveq : val (mag a) = val (mag b) := by
      unfold partialCmpS at hcmp
      rcases hsa : a.sign with _ | _ <;> rcases hsb : b.sign with _ | _ <;>
        simp only [hsa, hsb] at hcmp
      · rw [partialCmpBF_eq_compare N (mag a) (mag b) ha hb] at hcmp
        exact Nat.compare_eq_eq.mp hcmp
      · exact absurd hcmp (by decide)
      · exact absurd hcmp (by decide)
      · rw [partialCmpBF_eq_compare N (mag b) (mag a) hb ha] at hcmp
        exact (Nat.compare_eq_eq.mp hcmp).symm
    refine ⟨?_, ?_, rfl⟩
    · rw [mag_zeroS, val_zeroBN]; omega
    · rw [mag_zeroS]; exact canonical_zeroBN N hN
  · obtain ⟨h1, h2⟩ := subCore_spec N (mag a) (mag b) ha hb hle
    exact ⟨h1, h2, rfl⟩

theorem sval_eq (x : SignedBignumFast) :
    sval x = (if x.sign = true then (-1 : Int) else 1) * (val (mag x) : Int) := by
  unfold sval
  split <;> ring

theorem sign_false_scanonical (N : Nat) (c : SignedBignumFast)
    (hcan : Canonical N (mag c)) (hsg : c.sign = false) : SCanonical N c :=
  ⟨hcan, fun hcon => by rw [hsg] at hcon; cases hcon⟩

theorem sub_refS_spec (N : Nat) (a b c : SignedBignumFast) (ha : SCanonical N a)
    (hb : SCanonical N b) (h : sub_refS N a b = .ok c) :
    sval c = sval a - sval b ∧ SCanonical N c := by
  have hN : 0 < N := by have := ha.1.1.2.2; omega
  unfold sub_refS at h
  rcases hsa : a.sign with _ | _ <;> rcases hsb : b.sign with _ | _ <;>
    simp only [hsa, hsb] at h
  · -- (+) - (+)
    by_cases heq : eqS a b = true
    · rw [if_pos heq] at h
      injection h with h2
      subst h2
      have hv := (eqS_iff_val N a b ha.1 hb.1).mp heq
      refine ⟨?_, scanonical_zeroS N hN⟩
      rw [sval_zeroS, sval_of_sign_false a hsa, sval_of_sign_false b hsb]
      omega
    · rw [if_neg heq] at h
      by_cases hgt : gt_internalS a b = true
      · rw [if_pos hgt] at h
        injection h with h2
        subst h2
        have hlt := (gt_internalS_iff_val N a b ha.1 hb.1).mp hgt
        obtain ⟨hv, hcan, hsg⟩ := sub_ref_internalS_spec N a b ha.1 hb.1 (by omega)
        refine ⟨?_, sign_false_scanonical N _ hcan hsg⟩
        rw [sval_of_sign_false _ hsg, hv, sval_of_sign_false a hsa,
          sval_of_sign_false b hsb]
        omega
      · rw [if_neg hgt] at h
        injection h with h2
        subst h2
        have hge : val (mag a) ≤ val (mag b) := by
          by_contra hcon
          exact hgt ((gt_internalS_iff_val N a b ha.1 hb.1).mpr (by omega))
        obtain ⟨hv, hcan, hsg⟩ := sub_ref_internalS_spec N b a hb.1 ha.1 hge
        have hne : val (mag a) ≠ val (mag b) := fun hcon =>
          heq ((eqS_iff_val N a b ha.1 hb.1).mpr hcon)
        constructor
        · rw [sval_negS, hv, sval_of_sign_false a hsa,
            sval_of_sign_false b hsb]
          omega
        · refine ⟨by rw [mag_negS]; exact hcan, fun _ => ?_⟩
          rw [mag_negS, hv]
          omega
  · -- (+) - (-)
    obtain ⟨hv, hcan, hsg⟩ := add_ref_internalS_spec N a b c ha.1 hb.1 h
    refine ⟨?_, sign_false_scanonical N c hcan hsg⟩
    rw [sval_of_sign_false c hsg, hv, sval_of_sign_false a hsa,
      sval_of_sign_true b hsb]
    omega
  · -- (-) - (+)
    rcases hadd : add_ref_internalS N a b with e | c0
    · rw [hadd] at h
      cases h
    · simp only [hadd] at h
      injection h with h2
      subst h2
      obtain ⟨hv, hcan, _⟩ := add_ref_internalS_spec N a b c0 ha.1 hb.1 hadd
      have hA := ha.2 hsa
      constructor
      · rw [sval_negS, hv, sval_of_sign_true a hsa,
          sval_of_sign_false b hsb]
        omega
      · refine ⟨by rw [mag_negS]; exact hcan, fun _ => ?_⟩
        rw [mag_negS, hv]
        omega
  · -- (-) - (-)
    by_cases heq : eqS a b = true
    · rw [if_pos heq] at h
      injection h with h2
      subst h2
      have hv := (eqS_iff_val N a b ha.1 hb.1).mp heq
      refine ⟨?_, scanonical_zeroS N hN⟩
      rw [sval_zeroS, sval_of_sign_true a hsa, sval_of_sign_true b hsb]
      omega
    · rw [if_neg heq] at h
      by_cases hgt : gt_internalS b a = true
      · rw [if_pos hgt] at h
        injection h with h2
        subst h2
        have hlt := (gt_internalS_iff_val N b a hb.1 ha.1).mp hgt
        obtain ⟨hv, hcan, hsg⟩ := sub_ref_internalS_spec N b a hb.1 ha.1 (by omega)
        refine ⟨?_, sign_false_scanonical N _ hcan hsg⟩
        rw [sval_of_sign_false _ hsg, hv, sval_of_sign_true a hsa,
          sval_of_sign_true b hsb]
        omega
      · rw [if_neg hgt] at h
        injection h with h2
        subst h2
        have hge : val (mag b) ≤ val (mag a) := by
          by_contra hcon
          exact hgt ((gt_internalS_iff_val N b a hb.1 ha.1).mpr (by omega))
        obtain ⟨hv, hcan, hsg⟩ := sub_ref_internalS_spec N a b ha.1 hb.1 hge
        have hne : val (mag a) ≠ val (mag b) := fun hcon =>
          heq ((eqS_iff_val N a b ha.1 hb.1).mpr hcon)
        constructor
        · rw [sval_negS, hv, sval_of_sign_true a hsa,
            sval_of_sign_true b hsb]
          omega
        · refine ⟨by rw [mag_negS]; exact hcan, fun _ => ?_⟩
          rw [mag_negS, hv]
          omega

theorem mul_refS_spec (N : Nat) (a b c : SignedBignumFast) (ha : SCanonical N a)
    (hb : SCanonical N b) (h : mul_refS N a b = .ok c) :
    sval c = sval a * sval b ∧ SCanonical N c := by
  unfold mul_refS at h
  rcases hm : mul_ref N (mag a) (mag b) with e | z
  · rw [hm] at h
    cases h
  · simp only [hm] at h
    injection h with h2
    have hcap : a.pos + 1 + (b.pos + 1) ≤ N := by
      by_contra hcon
      unfold mul_ref at hm
      rw [if_pos (by rw [mag_pos, mag_pos]; omega)] at hm
      cases hm
    obtain ⟨z2, hz2, hv, hcan⟩ := mul_ref_ok N (mag a) (mag b) ha.1 hb.1 hcap
    rw [hm] at hz2
    injection hz2 with hz3
    subst hz3
    have hmagc : mag c = z := by rw [← h2]; rfl
    have hsgn : c.sign = (if isZeroBF z then false
        else ((a.sign && !b.sign) || (!a.sign && b.sign))) := by rw [← h2]
    have hZ : ((val (mag a) : Int)) * val (mag b) = (val z : Int) := by
      exact_mod_cast hv.symm
    have hfac : sval a * sval b
        = ((if a.sign = true then (-1 : Int) else 1)
            * (if b.sign = true then (-1 : Int) else 1))
          * ((val (mag a) : Int) * val (mag b)) := by
      rw [sval_eq a, sval_eq b]
      ring
    by_cases hz0 : isZeroBF z = true
    · have hv0 : val z = 0 := (isZeroBF_iff_val N z hcan).mp hz0
      have hsgf : c.sign = false := by rw [hsgn, if_pos hz0]
      refine ⟨?_, sign_false_scanonical N c (by rw [hmagc]; exact hcan) hsgf⟩
      have hZ0 : ((val (mag a) : Int)) * val (mag b) = 0 := by
        rw [hZ]
        exact_mod_cast hv0
      rw [hfac, hZ0, mul_zero, sval_eq c, hmagc, hsgf, hv0]
      norm_num
    · have hvz : val z ≠ 0 := fun hcon => hz0 ((isZeroBF_iff_val N z hcan).mpr hcon)
      have hsgx : c.sign = ((a.sign && !b.sign) || (!a.sign && b.sign)) := by
        rw [hsgn, if_neg hz0]
      constructor
      · rw [hfac, hZ, sval_eq c, hmagc, hsgx]
        rcases hA : a.sign with _ | _ <;> rcases hB : b.sign with _ | _ <;> norm_num
      · refine ⟨by rw [hmagc]; exact hcan, fun _ => ?_⟩
        rw [hmagc]
        exact hvz

theorem subInternalMag_spec (N : Nat) (r : BignumFast) (b : SignedBignumFast)
    (hr : Canonical N r) (hb : Canonical N (mag b))
    (hle : val (mag b) ≤ val r) (hN : 0 < N) :
    val (subInternalMag N r b) = val r - val (mag b) ∧
      Canonical N (subInternalMag N r b) := by
  unfold subInternalMag
  rcases hcmp : partialCmpS ⟨r.digits, r.pos, false⟩ b with _ | _ | _
  · exact subCore_spec N r (mag b) hr hb hle
  · have hveq : val r = val (mag b) := by
      unfold partialCmpS at hcmp
      rcases hsb : b.sign with _ | _ <;> simp only [hsb] at hcmp
      · have hmr : mag (⟨r.digits, r.pos, false⟩ : SignedBignumFast) = r := rfl
        rw [hmr, partialCmpBF_eq_compare N r (mag b) hr hb] at hcmp
        exact Nat.compare_eq_eq.mp hcmp
      · exact absurd hcmp (by decide)
    constructor
    · rw [val_zeroBN]; omega
    · exact canonical_zeroBN N hN
  · exact subCore_spec N r (mag b) hr hb hle

theorem sdivLoop_spec (N : Nat) (a rhs : SignedBignumFast)
    (ha : Canonical N (mag a)) (hb : Canonical N (mag rhs)) :
    ∀ i q r, i ≤ (a.pos + 1) * 8 → Canonical N q → Canonical N r →
      val r < val (mag rhs) →
      val (mag a) / 2 ^ i = val q / 2 ^ i * val (mag rhs) + val r →
      val q % 2 ^ i = 0 →
      ∃ p, sdivLoop N a rhs i q r = .ok p ∧
        Canonical N p.1 ∧ Canonical N p.2 ∧
        val (mag a) = val p.1 * val (mag rhs) + val p.2 ∧
        val p.2 < val (mag rhs) := by
  have hap : a.pos < N := ha.1.2.2
  have hN : 0 < N := by omega
  intro i
  induction i with
  | zero =>
      intro q r _ hq hr hrb hid _
      refine ⟨(q, r), rfl, hq, hr, ?_, hrb⟩
      simpa using hid
  | succ i ih =>
      intro q r hle hq hr hrb hid hqm
      have hiN : i < N * 8 := by omega
      have hget := getBit_ok N (mag a) i hiN ha.1.2.1
      have hsplit : val (mag a) / 2 ^ (i + 1) = val (mag a) / 2 ^ i / 2 := by
        rw [pow_succ, Nat.div_div_eq_div_mul]
      have hrle : val r ≤ val (mag a) / 2 ^ (i + 1) := by
        rw [hid]; exact Nat.le_add_left _ _
      rw [hsplit] at hrle
      have hvalaN : val (mag a) < 256 ^ N :=
        lt_of_lt_of_le (val_lt_canonical N (mag a) ha)
          (Nat.pow_le_pow_right (by norm_num) (by rw [mag_pos]; omega))
      have hdivle : val (mag a) / 2 ^ i ≤ val (mag a) := Nat.div_le_self _ _
      have hover : 2 * val r < 256 ^ N := by omega
      obtain ⟨hshv, hshc, -⟩ := shl_one_spec N r hr hover
      have hdvd1 : 2 ^ (i + 1) ∣ val q := Nat.dvd_of_mod_eq_zero hqm
      have hq2 : val q % 2 ^ i = 0 := by
        obtain ⟨k, hk⟩ := dvd_trans (pow_dvd_pow 2 (Nat.le_succ i)) hdvd1
        rw [hk]
        exact Nat.mul_mod_right _ _
      have hqdiv : val q / 2 ^ i = 2 * (val q / 2 ^ (i + 1)) := by
        obtain ⟨k, hk⟩ := hdvd1
        rw [hk, Nat.mul_div_cancel_left k (pow_pos (by norm_num) (i + 1)), pow_succ,
          mul_assoc, Nat.mul_div_cancel_left _ (pow_pos (by norm_num) i)]
      have hbitq : val q / 2 ^ i % 2 = 0 := by
        rw [hqdiv]; exact Nat.mul_mod_right 2 _
      have hbsp : val (mag a) / 2 ^ i
          = 2 * (val (mag a) / 2 ^ (i + 1)) + val (mag a) / 2 ^ i % 2 := by
        rw [hsplit]; omega
      have hkey : val (mag a) / 2 ^ i
          = val q / 2 ^ i * val (mag rhs) + (2 * val r + val (mag a) / 2 ^ i % 2) := by
        nth_rewrite 1 [hbsp]
        rw [hid, hqdiv]
        ring
      have hi8 : i / 8 < N := by omega
      have key : ∀ r2v : BignumFast, Canonical N r2v →
          val r2v = 2 * val r + val (mag a) / 2 ^ i % 2 →
          ∃ p, (if geBF r2v (mag rhs) then
                  match setBit N q i with
                  | .error e => .error e
                  | .ok q2 => sdivLoop N a rhs i q2 (subInternalMag N r2v rhs)
                else sdivLoop N a rhs i q r2v) = .ok p ∧
            Canonical N p.1 ∧ Canonical N p.2 ∧
            val (mag a) = val p.1 * val (mag rhs) + val p.2 ∧
            val p.2 < val (mag rhs) := by
        intro r2v hr2c hr2v
        cases hgb : geBF r2v (mag rhs) with
        | false =>
            rw [if_neg (by simp)]
            have hlt : val r2v < val (mag rhs) := by
              by_contra hcon
              have ht := (geBF_iff_val N r2v (mag rhs) hr2c hb).mpr (by omega)
              rw [hgb] at ht
              exact Bool.false_ne_true ht
            exact ih q r2v (by omega) hq hr2c hlt (by rw [hr2v]; exact hkey) hq2
        | true =>
            rw [if_pos rfl]
            have hge : val (mag rhs) ≤ val r2v :=
              (geBF_iff_val N r2v (mag rhs) hr2c hb).mp hgb
            obtain ⟨hsv, hsc⟩ := subInternalMag_spec N r2v rhs hr2c hb hge hN
            obtain ⟨q2, hq2eq, hq2v, hq2c⟩ := setBit_spec N q i hq hi8 hbitq
            simp only [hq2eq]
            refine ih q2 (subInternalMag N r2v rhs) (by omega) hq2c hsc ?_ ?_ ?_
            · rw [hsv, hr2v]
              omega
            · have hq2div : val q2 / 2 ^ i = val q / 2 ^ i + 1 := by
                rw [hq2v, Nat.add_div_right _ (pow_pos (by norm_num) i)]
              have hge2 : val (mag rhs) ≤ 2 * val r + val (mag a) / 2 ^ i % 2 := by
                rw [← hr2v]; exact hge
              rw [hq2div, hsv, hr2v, Nat.add_mul, one_mul]
              nth_rewrite 1 [hkey]
              omega
            · rw [hq2v, Nat.add_mod_right]
              exact hq2
      simp only [sdivLoop, hget]
      rcases Nat.mod_two_eq_zero_or_one (val (mag a) / 2 ^ i) with hbit | hbit
      · rw [if_neg (by rw [hbit]; decide)]
        have hnoop : unsetBit N (shl N r 1) 0 = .ok (shl N r 1) :=
          unsetBit_noop N (shl N r 1) hshc hN
            (by rw [hshv]; exact Nat.mul_mod_right 2 _)
        simp only [hnoop]
        exact key (shl N r 1) hshc (by rw [hshv, hbit]; omega)
      · rw [if_pos (by rw [hbit]; decide)]
        have hbit0 : val (shl N r 1) / 2 ^ 0 % 2 = 0 := by
          rw [pow_zero, Nat.div_one, hshv]
          exact Nat.mul_mod_right 2 _
        obtain ⟨r2, hr2eq, hr2vv, hr2cc⟩ :=
          setBit_spec N (shl N r 1) 0 hshc (by omega) hbit0
        simp only [hr2eq]
        exact key r2 hr2cc (by rw [hr2vv, hshv, pow_zero, hbit])

theorem sign_if_zero (N : Nat) (z : BignumFast) (hz : Canonical N z) (s0 : Bool)
    (h : (if isZeroBF z then false else s0) = true) : val z ≠ 0 := by
  by_cases h0 : isZeroBF z = true
  · rw [if_pos h0] at h
    cases h
  · exact fun hcon => h0 ((isZeroBF_iff_val N z hz).mpr hcon)

theorem sval_if_zero (N : Nat) (z : BignumFast) (hz : Canonical N z) (s0 : Bool) :
    sval ⟨z.digits, z.pos, if isZeroBF z then false else s0⟩
      = (if s0 = true then (-1 : Int) else 1) * (val z : Int) := by
  rw [sval_eq]
  show (if (if isZeroBF z then false else s0) = true then (-1 : Int) else 1)
      * (val z : Int) = _
  by_cases h0 : isZeroBF z = true
  · have hv0 : val z = 0 := (isZeroBF_iff_val N z hz).mp h0
    rw [if_pos h0, hv0]
    norm_num
  · rw [if_neg h0]

theorem div_with_remainderS_spec (N : Nat) (a b : SignedBignumFast)
    (ha : SCanonical N a) (hb : SCanonical N b) (hbnz : val (mag b) ≠ 0) :
    ∃ p, div_with_remainderS N a b = .ok p ∧ SCanonical N p.1 ∧ SCanonical N p.2 ∧
      sval a = sval p.1 * sval b + sval p.2 ∧
      val (mag p.2) < val (mag b) := by
  have hN : 0 < N := by have := ha.1.1.2.2; omega
  by_cases ha0 : isZeroS a = true
  · have hva : val (mag a) = 0 := (isZeroS_iff_val N a ha.1).mp ha0
    unfold div_with_remainderS
    rw [if_pos ha0]
    refine ⟨(zeroS N, zeroS N), rfl, scanonical_zeroS N hN, scanonical_zeroS N hN,
      ?_, ?_⟩
    · show sval a = sval (zeroS N) * sval b + sval (zeroS N)
      rw [sval_zeroS, sval_eq a, hva]
      norm_num
    · show val (mag (zeroS N)) < val (mag b)
      rw [mag_zeroS, val_zeroBN]
      omega
  · have hz2 : isZeroS b = false :=
      Bool.eq_false_iff.mpr (fun hcon => hbnz ((isZeroS_iff_val N b hb.1).mp hcon))
    have hdiv0 : val (mag a) / 2 ^ ((a.pos + 1) * 8) = 0 := by
      apply Nat.div_eq_of_lt
      rw [show (a.pos + 1) * 8 = 8 * (a.pos + 1) from by ring, ← pow256_pow2]
      have := val_lt_canonical N (mag a) ha.1
      rw [mag_pos] at this
      exact this
    obtain ⟨p0, hp0, hq0c, hr0c, hid, hlt⟩ :=
      sdivLoop_spec N a b ha.1 hb.1 ((a.pos + 1) * 8) (zeroBN N) (zeroBN N)
        le_rfl (canonical_zeroBN N hN) (canonical_zeroBN N hN)
        (by rw [val_zeroBN]; omega) (by rw [val_zeroBN, hdiv0]; simp)
        (by rw [val_zeroBN]; simp)
    have hidZ : (val (mag a) : Int) = (val p0.1 : Int) * val (mag b) + val p0.2 := by
      exact_mod_cast hid
    unfold div_with_remainderS
    rw [if_neg ha0, if_neg (by simp [hz2])]
    simp only [hp0]
    refine ⟨_, rfl, ?_, ?_, ?_, ?_⟩
    · refine ⟨hq0c, fun hcon => sign_if_zero N p0.1 hq0c _ hcon⟩
    · refine ⟨hr0c, fun hcon => sign_if_zero N p0.2 hr0c _ hcon⟩
    · show sval a = sval ⟨p0.1.digits, p0.1.pos, _⟩ * sval b + sval ⟨p0.2.digits, p0.2.pos, _⟩
      rw [sval_if_zero N p0.1 hq0c, sval_if_zero N p0.2 hr0c, sval_eq a, sval_eq b]
      rcases hA : a.sign with _ | _ <;> rcases hB : b.sign with _ | _ <;>
        norm_num <;> linarith [hidZ]
    · show val (mag ⟨p0.2.digits, p0.2.pos, _⟩) < val (mag b)
      exact hlt

/-! Semantics of egcd. -/

theorem fromU128_zero (N : Nat) (h : 16 ≤ N) :
    ∃ z, fromU128 N 0 = .ok z ∧ val z = 0 ∧ Canonical N z := by
  unfold fromU128
  rw [if_neg (by omega)]
  have hds : (List.range 16).map (fun i => 0 / 256 ^ i % 256)
      = List.replicate 16 0 := by decide
  refine ⟨_, rfl, ?_, ?_⟩
  · rw [show val ⟨(List.range 16).map (fun i => 0 / 256 ^ i % 256)
        ++ List.replicate (N - 16) 0,
        lastNZ ((List.range 16).map (fun i => 0 / 256 ^ i % 256))⟩
      = valL ((List.range 16).map (fun i => 0 / 256 ^ i % 256)
        ++ List.replicate (N - 16) 0) from rfl, valL_mk, hds]
    simp
  · have := canonical_mk N ((List.range 16).map (fun i => 0 / 256 ^ i % 256))
      (by rw [hds]; simp; omega)
      (by rw [hds]; intro d hd; have := List.eq_of_mem_replicate hd; omega)
      (by rw [hds]; simp)
    rw [show ((List.range 16).map (fun i => 0 / 256 ^ i % 256)).length = 16
      from by rw [hds]; simp] at this
    exact this

theorem sval_zero_of (x : SignedBignumFast) (h : val (mag x) = 0) : sval x = 0 := by
  rw [sval_eq, h]
  norm_num

theorem fromI32_ok_le (N : Nat) (v : Int) (x : SignedBignumFast)
    (h : fromI32 N v = .ok x) : 16 ≤ N := by
  by_contra hc
  unfold fromI32 at h
  rw [show fromU128 N v.natAbs = .error .indexOutOfRange from by
    unfold fromU128; rw [if_pos (by omega)]] at h
  cases h

theorem fromI32_one_spec (N : Nat) (x : SignedBignumFast)
    (h : fromI32 N 1 = .ok x) : sval x = 1 ∧ SCanonical N x := by
  have h16 := fromI32_ok_le N 1 x h
  obtain ⟨one, honeEq, honeV, honeC, _⟩ := fromU128_one N h16
  unfold fromI32 at h
  rw [show Int.natAbs 1 = 1 from rfl, honeEq] at h
  simp only [show decide ((1:Int) < 0) = false from by decide] at h
  injection h with h2
  subst h2
  have hsg : (⟨one.digits, one.pos, false⟩ : SignedBignumFast).sign = false := rfl
  have hmg : mag (⟨one.digits, one.pos, false⟩ : SignedBignumFast) = one := rfl
  refine ⟨?_, ?_⟩
  · rw [sval_of_sign_false _ hsg, hmg, honeV]
    rfl
  · exact sign_false_scanonical N _ (by rw [hmg]; exact honeC) hsg

theorem fromI32_zero_spec (N : Nat) (x : SignedBignumFast)
    (h : fromI32 N 0 = .ok x) : sval x = 0 ∧ SCanonical N x := by
  have h16 := fromI32_ok_le N 0 x h
  obtain ⟨z, hzEq, hzV, hzC⟩ := fromU128_zero N h16
  unfold fromI32 at h
  rw [show Int.natAbs 0 = 0 from rfl, hzEq] at h
  simp only [show decide ((0:Int) < 0) = false from by decide] at h
  injection h with h2
  subst h2
  have hsg : (⟨z.digits, z.pos, false⟩ : SignedBignumFast).sign = false := rfl
  have hmg : mag (⟨z.digits, z.pos, false⟩ : SignedBignumFast) = z := rfl
  refine ⟨?_, ?_⟩
  · rw [sval_of_sign_false _ hsg, hmg, hzV]
    rfl
  · exact sign_false_scanonical N _ (by rw [hmg]; exact hzC) hsg

theorem int_gcd_add_mul (b d q : Int) : Int.gcd b (d + b * q) = Int.gcd b d := by
  apply Nat.dvd_antisymm
  · have h1 : (Int.gcd b (d + b * q) : Int) ∣ b := Int.gcd_dvd_left
    have h2 : (Int.gcd b (d + b * q) : Int) ∣ d + b * q := Int.gcd_dvd_right
    have h3 : (Int.gcd b (d + b * q) : Int) ∣ d := by
      have h4 := dvd_sub h2 (h1.mul_right q)
      simpa using h4
    exact Int.natCast_dvd_natCast.mp (Int.dvd_gcd h1 h3)
  · have h1 : (Int.gcd b d : Int) ∣ b := Int.gcd_dvd_left
    have h2 : (Int.gcd b d : Int) ∣ d := Int.gcd_dvd_right
    have h3 : (Int.gcd b d : Int) ∣ d + b * q := dvd_add h2 (h1.mul_right q)
    exact Int.natCast_dvd_natCast.mp (Int.dvd_gcd h1 h3)

theorem egcdLoop_spec (N : Nat) (A B : Int) :
    ∀ fuel d b m n sb tb p,
      SCanonical N d → SCanonical N b → SCanonical N m → SCanonical N n →
      SCanonical N sb → SCanonical N tb →
      sval d = A * sval m + B * sval n →
      sval b = A * sval sb + B * sval tb →
      Int.gcd (sval d) (sval b) = Int.gcd A B →
      egcdLoop N fuel d b m n sb tb = .ok p →
      sval p.1 = A * sval p.2.1 + B * sval p.2.2 ∧
        (sval p.1).natAbs = Int.gcd A B := by
  intro fuel
  induction fuel with
  | zero =>
      intro d b m n sb tb p hd hb hm hn hsb htb h1 h2 h3 h
      unfold egcdLoop at h
      by_cases hz : isZeroS b = true
      · rw [if_pos hz] at h
        injection h with h4
        subst h4
        refine ⟨h1, ?_⟩
        have hbz : sval b = 0 :=
          sval_zero_of b ((isZeroS_iff_val N b hb.1).mp hz)
        rw [hbz, Int.gcd_zero_right] at h3
        exact h3
      · rw [if_neg hz] at h
        cases h
  | succ fuel ih =>
      intro d b m n sb tb p hd hb hm hn hsb htb h1 h2 h3 h
      unfold egcdLoop at h
      by_cases hz : isZeroS b = true
      · rw [if_pos hz] at h
        injection h with h4
        subst h4
        refine ⟨h1, ?_⟩
        have hbz : sval b = 0 :=
          sval_zero_of b ((isZeroS_iff_val N b hb.1).mp hz)
        rw [hbz, Int.gcd_zero_right] at h3
        exact h3
      · rw [if_neg hz] at h
        have hbnz : val (mag b) ≠ 0 :=
          fun hcon => hz ((isZeroS_iff_val N b hb.1).mpr hcon)
        obtain ⟨p2, hp2, hqC, hrC, hidv, hmaglt⟩ :=
          div_with_remainderS_spec N d b hd hb hbnz
        simp only [hp2] at h
        rcases hmul1 : mul_refS N p2.1 sb with e | qsb
        · rw [hmul1] at h
          cases h
        · simp only [hmul1] at h
          obtain ⟨hqsbv, hqsbC⟩ := mul_refS_spec N p2.1 sb qsb hqC hsb hmul1
          rcases hsub1 : sub_refS N m qsb with e | sb2
          · rw [hsub1] at h
            cases h
          · simp only [hsub1] at h
            obtain ⟨hsb2v, hsb2C⟩ := sub_refS_spec N m qsb sb2 hm hqsbC hsub1
            rcases hmul2 : mul_refS N p2.1 tb with e | qtb
            · rw [hmul2] at h
              cases h
            · simp only [hmul2] at h
              obtain ⟨hqtbv, hqtbC⟩ := mul_refS_spec N p2.1 tb qtb hqC htb hmul2
              rcases hsub2 : sub_refS N n qtb with e | tb2
              · rw [hsub2] at h
                cases h
              · simp only [hsub2] at h
                obtain ⟨htb2v, htb2C⟩ := sub_refS_spec N n qtb tb2 hn hqtbC hsub2
                refine ih b p2.2 sb tb sb2 tb2 p hb hrC hsb htb hsb2C htb2C
                  h2 ?_ ?_ h
                · rw [hsb2v, htb2v, hqsbv, hqtbv]
                  linear_combination h1 - hidv - sval p2.1 * h2
                · have hr : sval p2.2 = sval d - sval p2.1 * sval b := by
                    linarith [hidv]
                  rw [hr, show sval d - sval p2.1 * sval b
                    = sval d + sval b * (-(sval p2.1)) from by ring,
                    int_gcd_add_mul (sval b) (sval d) (-(sval p2.1)),
                    Int.gcd_comm]
                  exact h3

theorem egcd_spec (N : Nat) (a b : SignedBignumFast) (ha : SCanonical N a)
    (hb : SCanonical N b) (p : SignedBignumFast × SignedBignumFast × SignedBignumFast)
    (h : egcd N a b = .ok p) :
    sval a * sval p.2.1 + sval b * sval p.2.2 = sval p.1 ∧
      sval p.1 ∣ sval a ∧ sval p.1 ∣ sval b := by
  unfold egcd at h
  rcases hone : fromI32 N 1 with e | one
  · simp only [hone] at h
    cases h
  · rcases hzero : fromI32 N 0 with e | zero
    · simp only [hone, hzero] at h
      cases h
    · simp only [hone, hzero] at h
      obtain ⟨honeV, honeC⟩ := fromI32_one_spec N one hone
      obtain ⟨hzeroV, hzeroC⟩ := fromI32_zero_spec N zero hzero
      obtain ⟨heq, hgcd⟩ := egcdLoop_spec N (sval a) (sval b) (val (mag b) + 1)
        a b one zero zero one p ha hb honeC hzeroC hzeroC honeC
        (by rw [honeV, hzeroV]; ring) (by rw [honeV, hzeroV]; ring) rfl h
      refine ⟨heq.symm, ?_, ?_⟩
      · rw [← Int.natAbs_dvd, hgcd]
        exact Int.gcd_dvd_left
      · rw [← Int.natAbs_dvd, hgcd]
        exact Int.gcd_dvd_right

/-! Division by a zero divisor. -/

theorem cmpRev_zero_ne_lt (l z : List Nat) (hz : ∀ d ∈ z, d = 0) :
    cmpRev l z ≠ .lt := by
  induction l generalizing z with
  | nil => intro hcon; cases hcon
  | cons a as ih =>
      cases z with
      | nil => intro hcon; cases hcon
      | cons b bs =>
          have hb : b = 0 := hz b (by simp)
          rw [show cmpRev (a :: as) (b :: bs)
            = if a = b then cmpRev as bs else compare a b from rfl]
          by_cases hab : a = b
          · rw [if_pos hab]
            exact ih bs (fun d hd => hz d (List.mem_cons_of_mem _ hd))
          · rw [if_neg hab, hb]
            have : 0 < a := by omega
            rw [Nat.compare_eq_gt.mpr this]
            intro hcon
            cases hcon

theorem partialCmpBF_zero_ne_lt (N : Nat) (x : BignumFast) :
    partialCmpBF x (zeroBN N) ≠ .lt := by
  unfold partialCmpBF
  by_cases hp : x.pos ≠ (zeroBN N).pos
  · rw [if_pos hp]
    have h0 : (zeroBN N).pos = 0 := rfl
    rw [h0]
    rw [h0] at hp
    rw [Nat.compare_eq_gt.mpr (by omega)]
    intro hcon
    cases hcon
  · rw [if_neg hp]
    apply cmpRev_zero_ne_lt
    intro d hd
    have hd2 : d ∈ (zeroBN N).digits := by
      unfold revTake at hd
      exact List.take_subset _ _ (List.mem_reverse.mp hd)
    exact List.eq_of_mem_replicate hd2

theorem sub_ref_zero_ok (N : Nat) (x : BignumFast) :
    ∃ c, sub_ref N x (zeroBN N) = .ok c := by
  unfold sub_ref
  rcases hcmp : partialCmpBF x (zeroBN N) with _ | _ | _
  · exact absurd hcmp (partialCmpBF_zero_ne_lt N x)
  · exact ⟨zeroBN N, rfl⟩
  · exact ⟨subCore N x (zeroBN N), rfl⟩

theorem divLoop_zero_ok (N : Nat) (a : BignumFast) (hN : 0 < N)
    (hpos : a.pos < N) :
    ∀ i q r, i ≤ (a.pos + 1) * 8 →
      ∃ p, divLoop N a (zeroBN N) i q r = .ok p := by
  intro i
  induction i with
  | zero => exact fun q r _ => ⟨(q, r), rfl⟩
  | succ i ih =>
      intro q r hle
      have hg : getBit N a i
          = .ok (a.digits.getD (i / 8) 0 / 2 ^ (i % 8) % 2 == 1) := by
        unfold getBit
        rw [if_neg (by omega)]
      have hset : ∀ y : BignumFast, setBit N y 0
          = .ok ⟨y.digits.set (0 / 8) (y.digits.getD (0 / 8) 0 ||| 2 ^ (0 % 8)),
              if y.pos < 0 / 8 then 0 / 8 else y.pos⟩ := by
        intro y
        unfold setBit
        rw [if_neg (by omega)]
      have hunset : ∀ y : BignumFast, ∃ z, unsetBit N y 0 = .ok z := by
        intro y
        unfold unsetBit
        rw [if_neg (by omega)]
        exact ⟨_, rfl⟩
      have hsq : setBit N q i = .ok ⟨q.digits.set (i / 8)
          (q.digits.getD (i / 8) 0 ||| 2 ^ (i % 8)),
          if q.pos < i / 8 then i / 8 else q.pos⟩ := by
        unfold setBit
        rw [if_neg (by omega)]
      have key : ∀ r2 : BignumFast,
          ∃ p, (if geBF r2 (zeroBN N) then
                  match sub_ref N r2 (zeroBN N) with
                  | .error e => .error e
                  | .ok r3 =>
                    match setBit N q i with
                    | .error e => .error e
                    | .ok q2 => divLoop N a (zeroBN N) i q2 r3
                else divLoop N a (zeroBN N) i q r2) = .ok p := by
        intro r2
        cases hgb : geBF r2 (zeroBN N)
        · simp only [Bool.false_eq_true, if_false]
          exact ih q r2 (by omega)
        · simp only [eq_self_iff_true, if_true]
          obtain ⟨c, hc⟩ := sub_ref_zero_ok N r2
          simp only [hc, hsq]
          exact ih _ c (by omega)
      simp only [divLoop, hg]
      rcases hbit : (a.digits.getD (i / 8) 0 / 2 ^ (i % 8) % 2 == 1) with _ | _
      · obtain ⟨z, hz⟩ := hunset (shl N r 1)
        simp only [Bool.false_eq_true, if_false, hz]
        exact key z
      · simp only [eq_self_iff_true, if_true, hset (shl N r 1)]
        exact key _

theorem div_by_zero_ok (N : Nat) (a : BignumFast) (hN : 0 < N)
    (hpos : a.pos < N) : ∃ p, div_with_remainder N a (zeroBN N) = .ok p := by
  unfold div_with_remainder
  exact divLoop_zero_ok N a hN hpos ((a.pos + 1) * 8) (zeroBN N) (zeroBN N) le_rfl

theorem isZeroS_zeroS (N : Nat) : isZeroS (zeroS N) = true := by
  show isZeroBF (zeroBN N) = true
  unfold isZeroBF zeroBN
  rw [getD_all_zero _ (fun d hd => List.eq_of_mem_replicate hd) 0]
  rfl

theorem sdiv_zero_dividend (N : Nat) (a b : SignedBignumFast)
    (h : isZeroS a = true) :
    div_with_remainderS N a b = .ok (zeroS N, zeroS N) := by
  unfold div_with_remainderS
  rw [if_pos h]

theorem sdiv_zero_divisor (N : Nat) (a : SignedBignumFast)
    (h : isZeroS a = false) :
    div_with_remainderS N a (zeroS N) = .error .divideByZero := by
  unfold div_with_remainderS
  rw [if_neg (by simp [h]), if_pos (isZeroS_zeroS N)]

/-! The hex round trip. -/

theorem hexVal_hexDigit : ∀ n, n < 16 → hexVal (hexDigit n) = some n := by decide

theorem hexDigit_zero_iff : ∀ n, n < 16 → (hexDigit n = '0' ↔ n = 0) := by decide

theorem hexDigit_zero : hexDigit 0 = '0' := by decide

theorem length_flatMap_hexByte (w : List Nat) :
    (w.flatMap hexByte).length = 2 * w.length := by
  induction w with
  | nil => rfl
  | cons b w ih =>
      rw [List.flatMap_cons, List.length_append, ih,
        show (hexByte b).length = 2 from rfl, List.length_cons]
      ring

theorem hexLoop_false (l : List Nat) : hexLoop l false = l.flatMap hexByte := by
  induction l with
  | nil => rfl
  | cons b bs ih =>
      rw [show hexLoop (b :: bs) false
        = if b = 0 ∧ false = true then hexLoop bs false
          else hexByte b ++ hexLoop bs (if b ≠ 0 then false else false) from rfl]
      rw [if_neg (by simp), show (if b ≠ 0 then false else false) = false
        from by split <;> rfl, ih, List.flatMap_cons]

theorem hexLoop_zeros (z l : List Nat) (hz : ∀ d ∈ z, d = 0) :
    hexLoop (z ++ l) true = hexLoop l true := by
  induction z with
  | nil => rfl
  | cons b bs ih =>
      have hb : b = 0 := hz b (by simp)
      rw [List.cons_append, show hexLoop (b :: (bs ++ l)) true
        = if b = 0 ∧ true = true then hexLoop (bs ++ l) true
          else hexByte b ++ hexLoop (bs ++ l) (if b ≠ 0 then false else true)
          from rfl, if_pos (by simp [hb])]
      exact ih (fun d hd => hz d (List.mem_cons_of_mem _ hd))

theorem hexLoop_top (d : Nat) (l : List Nat) (hd : d ≠ 0) :
    hexLoop (d :: l) true = hexByte d ++ hexLoop l false := by
  rw [show hexLoop (d :: l) true
    = if d = 0 ∧ true = true then hexLoop l true
      else hexByte d ++ hexLoop l (if d ≠ 0 then false else true) from rfl,
    if_neg (by simp [hd]), if_pos hd]

theorem trim0x_0x (rest : List Char) : trim0x ('0' :: 'x' :: rest) = trim0x rest := by
  simp only [trim0x]
  rw [if_pos (by simp)]

theorem trim0x_ne (c : Char) (rest : List Char) (h : ¬ c = '0') :
    trim0x (c :: rest) = c :: rest := by
  cases rest with
  | nil => rfl
  | cons d rest2 =>
      simp only [trim0x]
      rw [if_neg (fun hcon => h hcon.1)]

theorem take_succ_getD (l : List Nat) (i : Nat) (h : i < l.length) :
    l.take (i + 1) = l.take i ++ [l.getD i 0] := by
  rw [List.take_succ, List.getElem?_eq_getElem h, List.getD_eq_getElem l 0 h]
  rfl

theorem canonical_digits_decomp (N : Nat) (x : BignumFast) (h : Canonical N x) :
    x.digits = x.digits.take (x.pos + 1) ++ List.replicate (N - (x.pos + 1)) 0 := by
  conv_lhs => rw [← List.take_append_drop (x.pos + 1) x.digits]
  congr 1
  rw [List.eq_replicate_iff]
  exact ⟨by rw [List.length_drop, h.1.1], canonical_drop_zero N x h⟩

theorem calc_pos_even (p : Nat) : calc_pos (2 * (p + 1)) = p := by
  unfold calc_pos
  split
  · omega
  · split
    · omega
    · omega

theorem calc_pos_odd (p : Nat) : calc_pos (2 * p + 1) = p := by
  unfold calc_pos
  split
  · omega
  · split
    · omega
    · omega

theorem parsePairsRev_flat (N : Nat) (w : List Nat) (hw : ∀ d ∈ w, d < 256) :
    ∀ i t, i + w.length ≤ N →
      parsePairsRev N
          (w.flatMap (fun b => [hexDigit (b % 16), hexDigit (b / 16)]) ++ t) i
        = match parsePairsRev N t (i + w.length) with
          | .error e => .error e
          | .ok bs => .ok (w ++ bs) := by
  induction w with
  | nil =>
      intro i t hb
      simp only [List.flatMap_nil, List.nil_append, List.length_nil, Nat.add_zero]
      cases h : parsePairsRev N t i <;> simp [h]
  | cons b w ih =>
      intro i t hb
      simp only [List.length_cons] at hb ⊢
      have hmem : b < 256 := hw b (by simp)
      have hb16 : b / 16 < 16 := by omega
      have hbm16 : b % 16 < 16 := Nat.mod_lt _ (by norm_num)
      rw [List.flatMap_cons]
      rw [show ([hexDigit (b % 16), hexDigit (b / 16)]
          ++ w.flatMap (fun b => [hexDigit (b % 16), hexDigit (b / 16)]) ++ t)
        = hexDigit (b % 16) :: hexDigit (b / 16)
          :: (w.flatMap (fun b => [hexDigit (b % 16), hexDigit (b / 16)]) ++ t)
        from by simp]
      simp only [parsePairsRev, hexVal_hexDigit _ hb16, hexVal_hexDigit _ hbm16]
      rw [if_neg (by omega)]
      rw [ih (fun d hd => hw d (List.mem_cons_of_mem _ hd)) (i + 1) t (by omega),
        show i + 1 + w.length = i + (w.length + 1) from by omega]
      cases h : parsePairsRev N t (i + (w.length + 1))
      · simp [h]
      · simp only [h]
        rw [show 16 * (b / 16) + b % 16 = b from by omega, List.cons_append]

theorem flatMap_hexByte_reverse (l : List Nat) :
    (l.reverse.flatMap hexByte).reverse
      = l.flatMap (fun b => [hexDigit (b % 16), hexDigit (b / 16)]) := by
  induction l with
  | nil => rfl
  | cons b bs ih =>
      rw [List.reverse_cons, List.flatMap_append, List.reverse_append, ih,
        List.flatMap_cons]
      simp [hexByte]

theorem parsePairsRev_flat_nil (N : Nat) (w : List Nat) (hw : ∀ d ∈ w, d < 256)
    (h : w.length ≤ N) :
    parsePairsRev N (w.flatMap (fun b => [hexDigit (b % 16), hexDigit (b / 16)])) 0
      = .ok w := by
  have h2 := parsePairsRev_flat N w hw 0 [] (by omega)
  rw [List.append_nil] at h2
  rw [h2]
  show Except.ok (w ++ ([] : List Nat)) = Except.ok w
  rw [List.append_nil]

theorem parsePairsRev_flat_one (N : Nat) (w : List Nat) (hw : ∀ d ∈ w, d < 256)
    (h : w.length ≤ N) (c : Char) :
    parsePairsRev N
        (w.flatMap (fun b => [hexDigit (b % 16), hexDigit (b / 16)]) ++ [c]) 0
      = .ok w := by
  rw [parsePairsRev_flat N w hw 0 [c] (by omega)]
  show Except.ok (w ++ ([] : List Nat)) = Except.ok w
  rw [List.append_nil]

theorem dropWhile0_cons (c : Char) (l : List Char) (h : ¬ c = '0') :
    List.dropWhile (fun c => c = '0') (c :: l) = c :: l := by
  simp [List.dropWhile_cons, h]

theorem hex_round_trip (N : Nat) (x : BignumFast) (hx : Canonical N x) :
    try_from_hex_string N (to_hex_string x) = .ok x := by
  obtain ⟨⟨hlen, hdig, hpos⟩, habove, htop⟩ := id hx
  by_cases hz : x.pos = 0 ∧ x.digits.getD 0 0 = 0
  · -- the zero value round-trips through the string 0x0
    obtain ⟨hp0, hd0⟩ := hz
    have hdr : x.digits = List.replicate N 0 := by
      rw [List.eq_replicate_iff]
      refine ⟨hlen, fun b hb => ?_⟩
      obtain ⟨i, hi, hgb⟩ := List.mem_iff_getElem.mp hb
      rcases Nat.eq_zero_or_pos i with h0 | hip
      · subst h0
        rw [← hgb, ← List.getD_eq_getElem x.digits 0 hi]
        exact hd0
      · rw [← hgb, ← List.getD_eq_getElem x.digits 0 hi]
        exact habove i (by omega) (by omega)
    have hxeq : x = ⟨List.replicate N 0, 0⟩ := by
      cases x with
      | mk ds p => simp_all
    rw [hxeq]
    have hstr : to_hex_string ⟨List.replicate N 0, 0⟩ = ['0', 'x', '0'] := by
      unfold to_hex_string
      rw [if_pos (by
        simp [getD_all_zero _ (fun d hd => List.eq_of_mem_replicate hd) 0])]
    rw [hstr]
    rfl
  · -- a nonzero value: the top byte is nonzero, the string is minimal
    have hD : x.digits.getD x.pos 0 ≠ 0 := by
      rcases Nat.eq_zero_or_pos x.pos with h0 | hp
      · intro hc
        exact hz ⟨h0, by rwa [h0] at hc⟩
      · exact htop (by omega)
    have hPlt : x.pos < x.digits.length := by rw [hlen]; exact hpos
    have hD256 : x.digits.getD x.pos 0 < 256 := by
      rw [List.getD_eq_getElem x.digits 0 hPlt]
      exact hdig _ (List.getElem_mem hPlt)
    set D := x.digits.getD x.pos 0 with hDdef
    set w := x.digits.take x.pos with hwdef
    have hwlen : w.length = x.pos := by
      rw [hwdef, List.length_take, hlen]
      omega
    have hw256 : ∀ d ∈ w ++ [D], d < 256 := by
      intro d hd
      rcases List.mem_append.mp hd with h | h
      · exact hdig d ((List.take_sublist _ _).subset h)
      · rw [List.mem_singleton.mp h]
        exact hD256
    have htake : x.digits.take (x.pos + 1) = w ++ [D] :=
      take_succ_getD x.digits x.pos hPlt
    have hdecomp : x.digits = (w ++ [D]) ++ List.replicate (N - (x.pos + 1)) 0 := by
      rw [← htake]
      exact canonical_digits_decomp N x hx
    have hrev : x.digits.reverse
        = List.replicate (N - (x.pos + 1)) 0 ++ (D :: w.reverse) := by
      rw [show x.digits.reverse = ((w ++ [D]) ++ List.replicate (N - (x.pos + 1)) 0).reverse
        from by rw [← hdecomp]]
      rw [List.reverse_append, List.reverse_replicate, List.reverse_append]
      rfl
    have hloop : hexLoop x.digits.reverse true
        = hexDigit (D / 16) :: hexDigit (D % 16) :: w.reverse.flatMap hexByte := by
      rw [hrev, hexLoop_zeros _ _ (fun d hd => List.eq_of_mem_replicate hd),
        hexLoop_top _ _ hD, hexLoop_false]
      rfl
    have hcond : ¬ ((x.pos == 0 && x.digits.getD 0 0 == 0) = true) := by
      simp only [Bool.and_eq_true, beq_iff_eq]
      exact hz
    have hstr : to_hex_string x = '0' :: 'x' ::
        strip0 (hexDigit (D / 16) :: hexDigit (D % 16) :: w.reverse.flatMap hexByte) := by
      unfold to_hex_string
      rw [if_neg hcond, hloop]
    by_cases hbig : 16 ≤ D
    · -- even number of hex digits: nothing is stripped
      have hc0 : ¬ hexDigit (D / 16) = '0' := fun h =>
        absurd ((hexDigit_zero_iff _ (by omega)).mp h) (by omega)
      have hstrip : strip0 (hexDigit (D / 16) :: hexDigit (D % 16)
          :: w.reverse.flatMap hexByte)
          = hexDigit (D / 16) :: hexDigit (D % 16) :: w.reverse.flatMap hexByte := by
        simp only [strip0]
        rw [if_neg hc0]
      rw [hstr, hstrip]
      unfold try_from_hex_string
      rw [trim0x_0x, trim0x_ne _ _ hc0, dropWhile0_cons _ _ hc0]
      have hsrev : (hexDigit (D / 16) :: hexDigit (D % 16)
          :: w.reverse.flatMap hexByte).reverse
          = (w ++ [D]).flatMap (fun b => [hexDigit (b % 16), hexDigit (b / 16)]) := by
        simp [flatMap_hexByte_reverse]
      have hparse : parsePairsRev N ((hexDigit (D / 16) :: hexDigit (D % 16)
          :: w.reverse.flatMap hexByte).reverse) 0 = .ok (w ++ [D]) := by
        rw [hsrev]
        exact parsePairsRev_flat_nil N (w ++ [D]) hw256
          (by rw [List.length_append, hwlen]; simpa using hpos)
      have hlen2 : (hexDigit (D / 16) :: hexDigit (D % 16)
          :: w.reverse.flatMap hexByte).length = 2 * (x.pos + 1) := by
        simp only [List.length_cons, length_flatMap_hexByte, List.length_reverse, hwlen]
        ring
      unfold parseHexCore
      simp only [hparse, hlen2]
      rw [if_neg (by omega), show 2 * (x.pos + 1) / 2 = x.pos + 1 from by omega,
        calc_pos_even, ← hdecomp]
    · -- odd number of hex digits: the leading zero character is stripped
      have hDlt : D < 16 := by omega
      have hdiv0 : D / 16 = 0 := Nat.div_eq_of_lt hDlt
      have hmod : D % 16 = D := Nat.mod_eq_of_lt hDlt
      have hc0 : ¬ hexDigit D = '0' := fun h =>
        absurd ((hexDigit_zero_iff _ hDlt).mp h) hD
      have hstrip : strip0 (hexDigit (D / 16) :: hexDigit (D % 16)
          :: w.reverse.flatMap hexByte)
          = hexDigit D :: w.reverse.flatMap hexByte := by
        rw [hdiv0, hmod, hexDigit_zero]
        simp [strip0]
      rw [hstr, hstrip]
      unfold try_from_hex_string
      rw [trim0x_0x, trim0x_ne _ _ hc0, dropWhile0_cons _ _ hc0]
      have hsrev : (hexDigit D :: w.reverse.flatMap hexByte).reverse
          = w.flatMap (fun b => [hexDigit (b % 16), hexDigit (b / 16)])
            ++ [hexDigit D] := by
        simp [flatMap_hexByte_reverse]
      have hparse : parsePairsRev N ((hexDigit D
          :: w.reverse.flatMap hexByte).reverse) 0 = .ok w := by
        rw [hsrev]
        exact parsePairsRev_flat_one N w
          (fun d hd => hw256 d (List.mem_append.mpr (Or.inl hd)))
          (by rw [hwlen]; omega) _
      have hlen2 : (hexDigit D :: w.reverse.flatMap hexByte).length
          = 2 * x.pos + 1 := by
        simp only [List.length_cons, length_flatMap_hexByte, List.length_reverse, hwlen]
      unfold parseHexCore
      simp only [hparse, hlen2]
      rw [if_pos (by omega)]
      simp only [List.headD_cons, hexVal_hexDigit D hDlt]
      rw [show (2 * x.pos + 1) / 2 = x.pos from by omega, if_neg (by omega),
        calc_pos_odd, ← hdecomp]

/-! The claims. -/

theorem zip_self_all_eq (l : List Nat) :
    ((l.zip l).all fun p => p.1 == p.2) = true := by
  induction l with
  | nil => rfl
  | cons d ds ih => simp [List.zip_cons_cons, ih]

/-- C1 (corrected): the claimed behaviour — division by a zero divisor
always fails fatally with DivideByZero, in both engines, even for a zero
dividend — does not hold.  The unsigned div_with_remainder has no divisor
check at all and returns a quotient/remainder pair for every dividend; the
signed wrapper returns (0, 0) for a zero dividend before its divisor check,
and only reaches the DivideByZero error when the dividend is nonzero. -/
theorem claim_C1 :
    (∀ N a, 0 < N → a.pos < N →
      ∃ p, div_with_remainder N a (zeroBN N) = .ok p) ∧
    (∀ N a b, isZeroS a = true →
      div_with_remainderS N a b = .ok (zeroS N, zeroS N)) ∧
    (∀ N a, isZeroS a = false →
      div_with_remainderS N a (zeroS N) = .error .divideByZero) :=
  ⟨fun N a hN hpos => div_by_zero_ok N a hN hpos,
   fun N a b h => sdiv_zero_dividend N a b h,
   fun N a h => sdiv_zero_divisor N a h⟩

/-- C1 witness: the three behaviours at capacity 2, dividend 5 (and 0). -/
theorem claim_C1_witness :
    (∃ p, div_with_remainder 2 ⟨[5, 0], 0⟩ (zeroBN 2) = .ok p) ∧
    div_with_remainderS 2 ⟨[0, 0], 0, false⟩ (zeroS 2) = .ok (zeroS 2, zeroS 2) ∧
    div_with_remainderS 2 ⟨[5, 0], 0, false⟩ (zeroS 2) = .error .divideByZero :=
  ⟨claim_C1.1 2 ⟨[5, 0], 0⟩ (by decide) (by decide),
   claim_C1.2.1 2 ⟨[0, 0], 0, false⟩ (zeroS 2) (by decide),
   claim_C1.2.2 2 ⟨[5, 0], 0, false⟩ (by decide)⟩

/-- C1 counterexample: on the claimed behaviour, dividing the canonical
value 5 by the zero value at capacity 2 should fail with DivideByZero; the
unsigned engine instead returns a pair (the division loop treats 0 like any
other divisor), refuting the claim as stated. -/
theorem claim_C1_counterexample :
    div_with_remainder 2 ⟨[5, 0], 0⟩ (zeroBN 2)
      = .ok (⟨[255, 0], 0⟩, ⟨[5, 0], 0⟩) ∧ Canonical 2 ⟨[5, 0], 0⟩ :=
  ⟨rfl, by decide⟩

/-- C2 (code bug): shl does not preserve the canonical invariants.  At
capacity 2 the canonical value 0x8000 (limbs [0, 128], pos 1) shifted left
by one bit loses its top bit silently: the final carry is dropped because
pos + 1 < N fails, yet pos is kept at 1 over a zero limb, violating both
Invariant C's companion rule (limb at pos nonzero) and Invariant B (zero
must have pos 0). -/
theorem claim_C2 :
    Canonical 2 ⟨[0, 128], 1⟩ ∧
    shl 2 ⟨[0, 128], 1⟩ 1 = ⟨[0, 0], 1⟩ ∧
    ¬ Canonical 2 ⟨[0, 0], 1⟩ :=
  ⟨by decide, rfl, by decide⟩

/-- C3 (confirmed): for canonical a and canonical nonzero b of the same
capacity, div_with_remainder returns a pair (q, r) with
a = q * b + r and r < b (remainders are naturals, so 0 ≤ r holds by type). -/
theorem claim_C3 (N : Nat) (a b : BignumFast) (ha : Canonical N a)
    (hb : Canonical N b) (hbnz : val b ≠ 0) :
    ∃ p, div_with_remainder N a b = .ok p ∧
      val a = val p.1 * val b + val p.2 ∧ val p.2 < val b := by
  obtain ⟨p, h1, _, _, h4, h5⟩ := div_with_remainder_spec N a b ha hb hbnz
  exact ⟨p, h1, h4, h5⟩

/-- C3 witness: 7 divided by 3 at capacity 2. -/
theorem claim_C3_witness :
    ∃ p, div_with_remainder 2 ⟨[7, 0], 0⟩ ⟨[3, 0], 0⟩ = .ok p ∧
      val ⟨[7, 0], 0⟩ = val p.1 * val ⟨[3, 0], 0⟩ + val p.2 ∧
      val p.2 < val ⟨[3, 0], 0⟩ :=
  claim_C3 2 ⟨[7, 0], 0⟩ ⟨[3, 0], 0⟩ (by decide) (by decide) (by decide)

/-- C4 (confirmed): with canonical operands, a nonzero modulus, capacity at
least 16 (the From<u128> seed of t) and headroom 2 * (max pos + 1) ≤ N for
the intermediate products, pow_mod computes base ^ exp mod m; in particular
pow_mod(4, 13, 497) at capacity 16 yields 445. -/
theorem claim_C4 :
    (∀ N base exp m, Canonical N base → Canonical N exp → Canonical N m →
      val m ≠ 0 → 16 ≤ N → 2 * (max base.pos m.pos + 1) ≤ N →
      ∃ r, pow_mod N base exp m = .ok r ∧
        val r = val base ^ val exp % val m ∧ Canonical N r) ∧
    (∃ r, pow_mod 16 ⟨4 :: List.replicate 15 0, 0⟩ ⟨13 :: List.replicate 15 0, 0⟩
        ⟨241 :: 1 :: List.replicate 14 0, 1⟩ = .ok r ∧ val r = 445) := by
  constructor
  · exact fun N base exp m h1 h2 h3 h4 h5 h6 =>
      pow_mod_spec N base exp m h1 h2 h3 h4 h5 h6
  · obtain ⟨r, h1, h2, _⟩ := pow_mod_spec 16 ⟨4 :: List.replicate 15 0, 0⟩
      ⟨13 :: List.replicate 15 0, 0⟩ ⟨241 :: 1 :: List.replicate 14 0, 1⟩
      (by decide) (by decide) (by decide) (by decide) (by norm_num) (by decide)
    refine ⟨r, h1, ?_⟩
    rw [h2]
    decide

/-- C4 witness: the general statement applied at base 2, exponent 3,
modulus 5, capacity 16. -/
theorem claim_C4_witness :
    ∃ r, pow_mod 16 ⟨2 :: List.replicate 15 0, 0⟩ ⟨3 :: List.replicate 15 0, 0⟩
        ⟨5 :: List.replicate 15 0, 0⟩ = .ok r ∧
      val r = val ⟨2 :: List.replicate 15 0, 0⟩ ^ val ⟨3 :: List.replicate 15 0, 0⟩
          % val ⟨5 :: List.replicate 15 0, 0⟩ ∧
      Canonical 16 r :=
  claim_C4.1 16 ⟨2 :: List.replicate 15 0, 0⟩ ⟨3 :: List.replicate 15 0, 0⟩
    ⟨5 :: List.replicate 15 0, 0⟩
    (by decide) (by decide) (by decide) (by decide) (by norm_num) (by decide)

/-- C5 (confirmed): for canonical signed inputs, a returned egcd triple
(g, m, n) satisfies the Bezout identity a * m + b * n = g and g divides
both inputs; concretely egcd(101, 13) at capacity 20 returns (1, 4, -31).
(The ok-result hypothesis packages the claim's headroom proviso: the run
we reason about is one that returned normally.) -/
theorem claim_C5 :
    (∀ N a b p, SCanonical N a → SCanonical N b → egcd N a b = .ok p →
      sval a * sval p.2.1 + sval b * sval p.2.2 = sval p.1 ∧
        sval p.1 ∣ sval a ∧ sval p.1 ∣ sval b) ∧
    (∃ p, egcd 20 ⟨101 :: List.replicate 19 0, 0, false⟩
        ⟨13 :: List.replicate 19 0, 0, false⟩ = .ok p ∧
      sval p.1 = 1 ∧ sval p.2.1 = 4 ∧ sval p.2.2 = -31) := by
  constructor
  · exact fun N a b p ha hb h => egcd_spec N a b ha hb p h
  · refine ⟨(⟨1 :: List.replicate 19 0, 0, false⟩,
      ⟨4 :: List.replicate 19 0, 0, false⟩,
      ⟨31 :: List.replicate 19 0, 0, true⟩), by rfl, by decide, by decide, by decide⟩

/-- C5 witness: the general statement applied to the 101 and 13 run. -/
theorem claim_C5_witness :
    sval ⟨101 :: List.replicate 19 0, 0, false⟩
        * sval (⟨4 :: List.replicate 19 0, 0, false⟩ : SignedBignumFast)
      + sval ⟨13 :: List.replicate 19 0, 0, false⟩
        * sval (⟨31 :: List.replicate 19 0, 0, true⟩ : SignedBignumFast)
      = sval (⟨1 :: List.replicate 19 0, 0, false⟩ : SignedBignumFast) ∧
    sval (⟨1 :: List.replicate 19 0, 0, false⟩ : SignedBignumFast)
      ∣ sval ⟨101 :: List.replicate 19 0, 0, false⟩ ∧
    sval (⟨1 :: List.replicate 19 0, 0, false⟩ : SignedBignumFast)
      ∣ sval ⟨13 :: List.replicate 19 0, 0, false⟩ :=
  claim_C5.1 20 ⟨101 :: List.replicate 19 0, 0, false⟩
    ⟨13 :: List.replicate 19 0, 0, false⟩
    (⟨1 :: List.replicate 19 0, 0, false⟩,
     ⟨4 :: List.replicate 19 0, 0, false⟩,
     ⟨31 :: List.replicate 19 0, 0, true⟩)
    (by decide) (by decide) (by rfl)

/-- C6 (confirmed): for every canonical value of the fixed-capacity engine,
parsing the exported hex string back recovers the value exactly:
try_from_hex_string (to_hex_string x) = ok x. -/
theorem claim_C6 (N : Nat) (x : BignumFast) (hx : Canonical N x) :
    try_from_hex_string N (to_hex_string x) = .ok x :=
  hex_round_trip N x hx

/-- C6 witness: the round trip at capacity 3 on the value 0xcdef. -/
theorem claim_C6_witness :
    try_from_hex_string 3 (to_hex_string ⟨[239, 205, 0], 1⟩)
      = .ok ⟨[239, 205, 0], 1⟩ :=
  claim_C6 3 ⟨[239, 205, 0], 1⟩ (by decide)

/-- C7 (confirmed): for canonical operands of capacity N, add_ref fails
fatally with Overflow exactly when the true sum needs more than N limbs
(256 ^ N ≤ sum), and returns the exact sum whenever it fits. -/
theorem claim_C7 (N : Nat) (a b : BignumFast) (ha : Canonical N a)
    (hb : Canonical N b) :
    (256 ^ N ≤ val a + val b → add_ref N a b = .error .overflow) ∧
    (val a + val b < 256 ^ N →
      ∃ c, add_ref N a b = .ok c ∧ val c = val a + val b) := by
  refine ⟨add_ref_overflow N a b ha hb, fun h => ?_⟩
  obtain ⟨c, h1, h2, _⟩ := add_ref_ok N a b ha hb h
  exact ⟨c, h1, h2⟩

/-- C7 witness: at capacity 1, 200 + 100 overflows and 5 + 10 is exact. -/
theorem claim_C7_witness :
    add_ref 1 ⟨[200], 0⟩ ⟨[100], 0⟩ = .error .overflow ∧
    (∃ c, add_ref 1 ⟨[5], 0⟩ ⟨[10], 0⟩ = .ok c ∧
      val c = val ⟨[5], 0⟩ + val ⟨[10], 0⟩) :=
  ⟨(claim_C7 1 ⟨[200], 0⟩ ⟨[100], 0⟩ (by decide) (by decide)).1 (by decide),
   (claim_C7 1 ⟨[5], 0⟩ ⟨[10], 0⟩ (by decide) (by decide)).2 (by decide)⟩

/-- C8 (code bug): shifting right beyond the bit length does not always
yield canonical zero.  The canonical value 256 at capacity 2 (limbs [0, 1],
pos 1, bit length 9) shifted right by 9 bits makes the move loop read
digits[pos + bytes_shift] = digits[2], out of bounds, so the operation
panics with IndexOutOfRange instead of returning zero. -/
theorem claim_C8 :
    Canonical 2 ⟨[0, 1], 1⟩ ∧ val ⟨[0, 1], 1⟩ < 2 ^ 9 ∧
    shr 2 ⟨[0, 1], 1⟩ 9 = .error .indexOutOfRange :=
  ⟨by decide, by decide, rfl⟩

/-- C9 (confirmed): when the whole-limb component of a left shift would
push the top limb past the capacity (N < pos + 1 + k / 8), shl silently
drops that component and performs only the sub-limb shift: the result is
the same as shifting by k mod 8. -/
theorem claim_C9 (N : Nat) (x : BignumFast) (k : Nat)
    (h : N < x.pos + 1 + k / 8) :
    shl N x k = shl N x (k % 8) := by
  have hb1 : shlBytes N x k = 0 := by
    unfold shlBytes
    rw [if_pos (by omega)]
  have hb2 : shlBytes N x (k % 8) = 0 := by
    unfold shlBytes
    rw [show k % 8 / 8 = 0 from by omega]
    split <;> rfl
  unfold shl shlWindow
  rw [hb1, hb2, Nat.mod_mod_of_dvd k (by norm_num)]

/-- C9 witness: value 256 at capacity 2 shifted by 17: the two whole limbs
are dropped and only the one-bit sub-limb shift happens. -/
theorem claim_C9_witness :
    2 < (⟨[0, 1], 1⟩ : BignumFast).pos + 1 + 17 / 8 ∧
    shl 2 ⟨[0, 1], 1⟩ 17 = shl 2 ⟨[0, 1], 1⟩ (17 % 8) :=
  ⟨by decide, claim_C9 2 ⟨[0, 1], 1⟩ 17 (by decide)⟩

/-- C10 (confirmed): signed equality never consults the sign flag, so +m
and -m with the same digits compare equal, while partial_cmp puts the
negative strictly below the positive; eq is therefore inconsistent with
the ordering. -/
theorem claim_C10 (ds : List Nat) (p : Nat) :
    eqS ⟨ds, p, true⟩ ⟨ds, p, false⟩ = true ∧
    partialCmpS ⟨ds, p, true⟩ ⟨ds, p, false⟩ = .lt := by
  refine ⟨?_, rfl⟩
  show eqBF ⟨ds, p⟩ ⟨ds, p⟩ = true
  unfold eqBF
  simp [zip_self_all_eq]

/-- C10 witness: +1 and -1 at capacity 1. -/
theorem claim_C10_witness :
    eqS ⟨[1], 0, true⟩ ⟨[1], 0, false⟩ = true ∧
    partialCmpS ⟨[1], 0, true⟩ ⟨[1], 0, false⟩ = .lt :=
  claim_C10 [1] 0

end Nikrypt
